import Mathlib

/-!
# Verification of the TFX synchronous pipeline execution core

This file gives a shallow embedding, in Lean 4, of two Python modules of the
TFX orchestrator:

* `tfx/orchestration/experimental/core/sync_pipeline_task_gen.py`
  (the per-tick task generator for synchronous pipelines), embedded in
  namespace `Tg`;
* `tfx/orchestration/portable/partial_run_utils.py`
  (partial-run marking of the pipeline IR and recycling of prior artifacts),
  embedded in namespaces `Pr` (pure IR rewriting) and `Md` (the
  metadata-store-backed artifact recycler).

External collaborators of those modules (the MLMD client helpers
`execution_lib`, `context_lib`, `execution_publish_utils`, the input
resolver `task_gen_utils`, the `topsort` utility, and the cache engine
`cache_utils`) are not part of the two source files; where their behavior
is needed it is modelled from the specification's description of the
narrow interfaces, and each such definition is marked
`Modelled from the spec:` in its doc comment.

Machine-level effects (logging, directory creation, wall-clock timestamps)
are not modelled; every function is embedded as a pure function from its
inputs (including an explicit environment or metadata-store value) to its
observable outputs (task lists, updated stores, raised errors as `Except`).
-/

/-- Error values raised by the partial-run utilities: Python `ValueError`
and `LookupError` with their message. -/
inductive PErr
  | valueError (msg : String)
  | lookupError (msg : String)
deriving DecidableEq, Repr

namespace Tg

/-- Runtime node states (`pstate.NodeState`). -/
inductive NodeState
  | starting | running | complete | failed | skipped | stopping | stopped
deriving DecidableEq, Repr

/-- Status codes used by the generator (`status_lib.Code`); only `OK` and
`ABORTED` occur in the embedded code. -/
inductive Code
  | ok | aborted
deriving DecidableEq, Repr

/-- `status_lib.Status`. -/
structure Status where
  code : Code
  message : String := ""
deriving DecidableEq, Repr

/-- MLMD execution states (`metadata_store_pb2.Execution.State`). -/
inductive ExecState
  | new | running | complete | failed | cached | canceled
deriving DecidableEq, Repr

/-- An MLMD execution as seen by the task generator: its id, its
last-known state and the optional `__execution_error_msg__` custom
property. -/
structure Exec where
  id : Nat
  state : ExecState
  errorMsg : Option String
deriving DecidableEq, Repr

/-- Modelled from the spec: `execution_lib.is_execution_successful` — an
execution is successful iff its state is successful (COMPLETE) or cached. -/
def isExecutionSuccessful (e : Exec) : Bool :=
  match e.state with
  | .complete => true
  | .cached => true
  | _ => false

/-- Modelled from the spec: `execution_lib.is_execution_active` — an
execution is active iff its state is not terminal (NEW or RUNNING). -/
def isExecutionActive (e : Exec) : Bool :=
  match e.state with
  | .new => true
  | .running => true
  | _ => false

/-- `service_jobs.ServiceStatus`. -/
inductive ServiceStatus
  | running | success | failed
deriving DecidableEq, Repr

/-- Information resolved for a node by the external input resolver
(`task_gen_utils.ResolvedInfo`).  Contexts, input artifacts and exec
properties are opaque to the generator; they are represented by numeric
identities. -/
structure ResolvedInfo where
  contexts : List Nat
  inputArtifacts : Option Nat
  execProperties : Nat
deriving DecidableEq, Repr

/-- A pipeline node as consumed by the sync task generator: its id, its
upstream/downstream node ids, and
`execution_options.caching_options.enable_cache`. -/
structure Node where
  id : String
  upstreamNodes : List String
  downstreamNodes : List String
  enableCache : Bool
deriving DecidableEq, Repr

/-- The tasks emitted by the generator (`task_lib`).  Node uids are
represented by the node id (the pipeline uid is fixed per generator);
artifact maps, exec properties and output artifacts are opaque numeric
identities. -/
inductive Task
  | updateNodeState (nodeId : String) (state : NodeState) (status : Option Status)
  | execNode (nodeId : String) (executionId : Nat) (contexts : List Nat)
      (inputArtifacts : Nat) (execProperties : Nat) (outputArtifacts : Nat)
      (executorOutputUri : String) (statefulWorkingDir : String)
  | finalizePipeline (status : Status)
deriving DecidableEq, Repr

/-- `task_lib.is_update_node_state_task`. -/
def isUpdateNodeStateTask : Task → Bool
  | .updateNodeState .. => true
  | _ => false

/-- `task_lib.is_exec_node_task`. -/
def isExecNodeTask : Task → Bool
  | .execNode .. => true
  | _ => false

/-- `task_lib.is_finalize_pipeline_task`. -/
def isFinalizePipelineTask : Task → Bool
  | .finalizePipeline .. => true
  | _ => false

/-- The fields of an `ExecNodeTask` rebuilt from an already-active
execution; they are produced by external helpers, so the environment
provides them as an opaque bundle. -/
structure ExecNodeFields where
  contexts : List Nat
  inputArtifacts : Nat
  execProperties : Nat
  outputArtifacts : Nat
  executorOutputUri : String
  statefulWorkingDir : String
deriving DecidableEq, Repr

/-- The external collaborators of `SyncPipelineTaskGenerator`, collected
into one read-only environment: pipeline state, service-job manager, task
queue membership, and the MLMD-backed helpers.  Each field corresponds to
one narrow interface of the spec. -/
structure Env where
  /-- `pipeline_state.get_node_state(node_uid).state`. -/
  getNodeState : String → NodeState
  /-- `service_job_manager.is_pure_service_node`. -/
  isPureServiceNode : String → Bool
  /-- `service_job_manager.is_mixed_service_node`. -/
  isMixedServiceNode : String → Bool
  /-- `service_job_manager.ensure_node_services`. -/
  ensureNodeServices : String → ServiceStatus
  /-- `is_task_id_tracked_fn` applied to the node's exec task id. -/
  isTaskIdTracked : String → Bool
  /-- `task_gen_utils.get_executions(mlmd, node)`. -/
  getExecutions : String → List Exec
  /-- `task_gen_utils.generate_resolved_info(mlmd, node)`; `none` models a
  `None` result (no valid input tuples). -/
  generateResolvedInfo : String → Option ResolvedInfo
  /-- Id of the execution newly registered by
  `execution_publish_utils.register_execution` for the node. -/
  registerExecutionId : String → Nat
  /-- `cache_utils.get_cache_context(...)` for the node: the resulting
  cache context. -/
  getCacheContext : String → Nat
  /-- `cache_utils.get_cached_outputs(mlmd, cache_context)`. -/
  getCachedOutputs : Nat → Option Nat
  /-- `outputs_resolver.generate_output_artifacts(execution_id)`. -/
  generateOutputArtifacts : String → Nat → Nat
  /-- `outputs_resolver.get_executor_output_uri(execution_id)`. -/
  executorOutputUri : String → Nat → String
  /-- `outputs_resolver.get_stateful_working_directory(execution_id)`. -/
  statefulWorkingDir : String → Nat → String
  /-- Fields of the `ExecNodeTask` rebuilt by
  `task_gen_utils.generate_task_from_active_execution` for a given node and
  active execution id. -/
  rebuildFromActiveExecution : String → Nat → ExecNodeFields

/-- Modelled from the spec: `task_gen_utils.get_latest_execution` — the
most recent execution, by id. -/
def getLatestExecution (execs : List Exec) : Option Exec :=
  execs.foldl
    (fun acc e =>
      match acc with
      | none => some e
      | some m => if e.id > m.id then some e else some m)
    none

/-- Modelled from the spec:
`task_gen_utils.generate_task_from_active_execution` — if an active
execution exists for the node, rebuild an `ExecNodeTask` from it. -/
def generateTaskFromActiveExecution (env : Env) (node : Node)
    (execs : List Exec) : Option Task :=
  match execs.find? (fun e => isExecutionActive e) with
  | none => none
  | some e =>
      let f := env.rebuildFromActiveExecution node.id e.id
      some (.execNode node.id e.id f.contexts f.inputArtifacts
        f.execProperties f.outputArtifacts f.executorOutputUri
        f.statefulWorkingDir)

/-- `SyncPipelineTaskGenerator._abort_task`. -/
def abortTask (errorMsg : String) : Task :=
  .finalizePipeline
    ⟨.aborted,
      s!"Aborting pipeline execution due to node execution failure; error: {errorMsg}"⟩

/-- `SyncPipelineTaskGenerator._ensure_node_services_if_pure`. -/
def ensureNodeServicesIfPure (env : Env) (nodeId : String) :
    Option ServiceStatus :=
  if env.isPureServiceNode nodeId then some (env.ensureNodeServices nodeId)
  else none

/-- `SyncPipelineTaskGenerator._ensure_node_services_if_mixed`. -/
def ensureNodeServicesIfMixed (env : Env) (nodeId : String) :
    Option ServiceStatus :=
  if env.isMixedServiceNode nodeId then some (env.ensureNodeServices nodeId)
  else none

/-- `SyncPipelineTaskGenerator._resolve_inputs_and_generate_tasks_for_node`.
Returns the generated task list together with the updated
`successful_node_ids` (which the Python code mutates in place).  The MLMD
writes performed on the way (`register_execution`,
`publish_cached_execution`) and directory creation are external effects
outside this embedding's observables. -/
def resolveInputsAndGenerateTasksForNode (env : Env) (node : Node)
    (_nodeExecutions : List Exec) (successfulNodeIds : List String) :
    List Task × List String :=
  let nodeId := node.id
  match env.generateResolvedInfo nodeId with
  | none =>
      ([.updateNodeState nodeId .skipped none], successfulNodeIds.insert nodeId)
  | some resolvedInfo =>
    match resolvedInfo.inputArtifacts with
    | none =>
        let errorMsg := s!"failure to resolve inputs; node uid: {nodeId}"
        ([.updateNodeState nodeId .failed (some ⟨.aborted, errorMsg⟩),
          abortTask errorMsg], successfulNodeIds)
    | some inputArtifacts =>
        let executionId := env.registerExecutionId nodeId
        let outputArtifacts := env.generateOutputArtifacts nodeId executionId
        -- The cache context is computed and appended to the context list
        -- unconditionally; only the cached-outputs lookup below is gated
        -- on `enable_cache`.
        let cacheContext := env.getCacheContext nodeId
        let contexts := resolvedInfo.contexts ++ [cacheContext]
        if node.enableCache && (env.getCachedOutputs cacheContext).isSome then
          ([.updateNodeState nodeId .complete none],
            successfulNodeIds.insert nodeId)
        else if (ensureNodeServicesIfMixed env nodeId) = some .failed then
          let errorMsg := s!"associated service job failed; node uid: {nodeId}"
          ([.updateNodeState nodeId .failed (some ⟨.aborted, errorMsg⟩),
            abortTask errorMsg], successfulNodeIds)
        else
          ([.updateNodeState nodeId .running none,
            .execNode nodeId executionId contexts inputArtifacts
              resolvedInfo.execProperties outputArtifacts
              (env.executorOutputUri nodeId executionId)
              (env.statefulWorkingDir nodeId executionId)],
            successfulNodeIds)

/-- Tail of `SyncPipelineTaskGenerator._generate_tasks_for_node` after the
latest-execution checks: rebuild from an active execution if one exists,
otherwise resolve inputs freshly. -/
def generateTasksForNodeAfterLatest (env : Env) (node : Node)
    (nodeExecutions : List Exec) (successfulNodeIds : List String) :
    List Task × List String :=
  match generateTaskFromActiveExecution env node nodeExecutions with
  | some execNodeTask =>
      ([.updateNodeState node.id .running none, execNodeTask],
        successfulNodeIds)
  | none =>
      resolveInputsAndGenerateTasksForNode env node nodeExecutions
        successfulNodeIds

/-- `SyncPipelineTaskGenerator._generate_tasks_for_node`.  The successful
nodes cache is passed explicitly (the Python code reads the process-wide
LRU); the returned list-of-ids pair mirrors the in-place mutation of
`successful_node_ids`. -/
def generateTasksForNode (env : Env) (cache : List String) (node : Node)
    (successfulNodeIds : List String) : List Task × List String :=
  let nodeId := node.id
  if cache.contains nodeId then
    ([], successfulNodeIds.insert nodeId)
  else if ! node.upstreamNodes.all (successfulNodeIds.contains ·) then
    ([], successfulNodeIds)
  else
    let nodeState := env.getNodeState nodeId
    if nodeState = .stopping ∨ nodeState = .stopped then
      ([], successfulNodeIds)
    else
      match ensureNodeServicesIfPure env nodeId with
      | some serviceStatus =>
          match serviceStatus with
          | .failed =>
              let errorMsg := s!"service job failed; node uid: {nodeId}"
              ([.updateNodeState nodeId .failed (some ⟨.aborted, errorMsg⟩),
                abortTask errorMsg], successfulNodeIds)
          | .success =>
              ([.updateNodeState nodeId .complete none],
                successfulNodeIds.insert nodeId)
          | .running =>
              ([.updateNodeState nodeId .running none], successfulNodeIds)
      | none =>
        if env.isTaskIdTracked nodeId then
          match ensureNodeServicesIfMixed env nodeId with
          | some .failed =>
              let errorMsg := s!"associated service job failed; node uid: {nodeId}"
              ([.updateNodeState nodeId .failed (some ⟨.aborted, errorMsg⟩),
                abortTask errorMsg], successfulNodeIds)
          | _ => ([], successfulNodeIds)
        else
          let nodeExecutions := env.getExecutions nodeId
          match getLatestExecution nodeExecutions with
          | some latestExecution =>
              if isExecutionSuccessful latestExecution then
                ([.updateNodeState nodeId .complete none],
                  successfulNodeIds.insert nodeId)
              else if ! isExecutionActive latestExecution
                  ∧ nodeState ≠ .starting then
                let errorMsg := latestExecution.errorMsg.getD ""
                ([.updateNodeState nodeId .failed (some ⟨.aborted, errorMsg⟩),
                  abortTask s!"node failed; node uid: {nodeId}; error: {errorMsg}"],
                  successfulNodeIds)
              else
                generateTasksForNodeAfterLatest env node nodeExecutions
                  successfulNodeIds
          | none =>
              generateTasksForNodeAfterLatest env node nodeExecutions
                successfulNodeIds

/-- The mutable state of one `generate()` tick: the three task buckets,
the `successful_node_ids` accumulated so far, the successful-nodes cache,
and the at-most-one finalize task. -/
structure GenState where
  updateNodeStateTasks : List Task
  execNodeTasks : List Task
  successfulNodeIds : List String
  cache : List String
  finalizePipelineTask : Option Task
deriving DecidableEq, Repr

/-- Sorting of one generated task into the buckets of `generate()`'s loop
body (`is_update_node_state_task` / `is_exec_node_task` / the asserted
finalize case). -/
def classifyTask (st : GenState) (t : Task) : GenState :=
  match t with
  | .updateNodeState .. =>
      { st with updateNodeStateTasks := st.updateNodeStateTasks ++ [t] }
  | .execNode .. =>
      { st with execNodeTasks := st.execNodeTasks ++ [t] }
  | .finalizePipeline .. =>
      { st with finalizePipelineTask := some t }

/-- One node of the inner loop of `generate()`: once a finalize task has
been produced the Python loop has broken out, so remaining nodes are
skipped. -/
def processNode (env : Env) (st : GenState) (node : Node) : GenState :=
  if st.finalizePipelineTask.isSome then st
  else
    let (tasks, successfulNodeIds) :=
      generateTasksForNode env st.cache node st.successfulNodeIds
    tasks.foldl classifyTask { st with successfulNodeIds := successfulNodeIds }

/-- `SyncPipelineTaskGenerator._update_successful_nodes_cache`.  The
process-wide LRU cache (capacity 1024) is modelled as an unbounded id set;
the spec notes eviction is advisory and never affects correctness. -/
def updateSuccessfulNodesCache (cache : List String) (nodeIds : List String) :
    List String :=
  nodeIds.foldl (fun c nodeId => c.insert nodeId) cache

/-- One layer of `generate()`'s outer loop: process the layer's nodes,
then (unless a finalize task broke the loop) fold the layer's newly
successful node ids into the successful-nodes cache. -/
def processLayer (env : Env) (st : GenState) (layerNodes : List Node) :
    GenState :=
  let st1 := layerNodes.foldl (processNode env) st
  if st1.finalizePipelineTask.isSome then st1
  else
    let layerNodeIds := layerNodes.map (·.id)
    let successfulLayerNodeIds :=
      layerNodeIds.filter (st1.successfulNodeIds.contains ·)
    { st1 with cache := updateSuccessfulNodesCache st1.cache successfulLayerNodeIds }

/-- The full layer loop of `generate()`. -/
def runLayers (env : Env) (layers : List (List Node)) (st : GenState) :
    GenState :=
  layers.foldl
    (fun st layerNodes =>
      if st.finalizePipelineTask.isSome then st
      else processLayer env st layerNodes)
    st

/-- The `FinalizePipelineTask(OK)` appended when all terminal nodes are
successful. -/
def finalizeOkTask : Task := .finalizePipeline ⟨.ok, ""⟩

/-- The result assembly at the end of `generate()`. -/
def assembleResult (st : GenState) (terminalNodeIds : List String) :
    List Task :=
  match st.finalizePipelineTask with
  | some finalizePipelineTask =>
      st.updateNodeStateTasks ++ [finalizePipelineTask]
  | none =>
      if terminalNodeIds.all (st.successfulNodeIds.contains ·) then
        st.updateNodeStateTasks ++ [finalizeOkTask]
      else
        st.updateNodeStateTasks ++ st.execNodeTasks

/-- Modelled from the spec: `topsort.topsorted_layers` — layer 0 holds the
nodes with no upstream; each later layer holds the nodes all of whose
upstreams appear in earlier layers; order inside a layer follows IR order;
an error is raised if the graph is not a DAG.  The fuel starts at
`nodes.length + 1`, enough for any DAG since every successful round
removes at least one node. -/
def topsortedLayersGo (fuel : Nat) (remaining : List Node)
    (doneIds : List String) : Except String (List (List Node)) :=
  match fuel, remaining with
  | _, [] => .ok []
  | 0, _ :: _ => .error "cycle detected in pipeline"
  | fuel + 1, remaining =>
      let layer :=
        remaining.filter (fun n => n.upstreamNodes.all (doneIds.contains ·))
      if layer.isEmpty then .error "cycle detected in pipeline"
      else
        let rest :=
          remaining.filter
            (fun n => ! n.upstreamNodes.all (doneIds.contains ·))
        match topsortedLayersGo fuel rest (doneIds ++ layer.map (·.id)) with
        | .error e => .error e
        | .ok layers => .ok (layer :: layers)

/-- `_topsorted_layers` (via the external `topsort` utility). -/
def topsortedLayers (nodes : List Node) : Except String (List (List Node)) :=
  topsortedLayersGo (nodes.length + 1) nodes []

/-- `_terminal_node_ids`: ids of nodes across all layers with no
downstream nodes. -/
def terminalNodeIds (layers : List (List Node)) : List String :=
  ((layers.flatten).filter (·.downstreamNodes.isEmpty)).map (·.id)

/-- The initial per-tick state of `generate()`. -/
def initGenState (cache : List String) : GenState :=
  ⟨[], [], [], cache, none⟩

/-- `SyncPipelineTaskGenerator.generate`: one tick of the sync pipeline
task generator over the given pipeline nodes, starting from the given
successful-nodes cache. -/
def generate (env : Env) (pipelineNodes : List Node)
    (cache : List String) : Except String (List Task) :=
  match topsortedLayers pipelineNodes with
  | .error e => .error e
  | .ok layers =>
      let st := runLayers env layers (initGenState cache)
      .ok (assembleResult st (terminalNodeIds layers))

/-- A concrete sample node used to evaluate the generator on closed
inputs. -/
def sampleNode : Node := ⟨"a", [], [], false⟩

/-- A concrete sample environment used to evaluate the generator on
closed inputs: no service nodes, no tracked tasks, no prior executions,
inputs resolve successfully. -/
def sampleEnv : Env where
  getNodeState := fun _ => .starting
  isPureServiceNode := fun _ => false
  isMixedServiceNode := fun _ => false
  ensureNodeServices := fun _ => .running
  isTaskIdTracked := fun _ => false
  getExecutions := fun _ => []
  generateResolvedInfo := fun _ => some ⟨[1], some 5, 7⟩
  registerExecutionId := fun _ => 42
  getCacheContext := fun _ => 99
  getCachedOutputs := fun _ => none
  generateOutputArtifacts := fun _ _ => 8
  executorOutputUri := fun _ _ => "uri"
  statefulWorkingDir := fun _ _ => "dir"
  rebuildFromActiveExecution := fun _ _ => ⟨[], 0, 0, 0, "", ""⟩

/-- Like `sampleEnv` but with cached outputs available for every cache
context, to exercise the caching branch. -/
def sampleEnvCached : Env :=
  { sampleEnv with getCachedOutputs := fun _ => some 55 }

/-- Like `sampleEnv` but with one failed prior execution for every node
and a non-STARTING node state, to exercise the abort branch. -/
def sampleEnvFailedExec : Env :=
  { sampleEnv with
    getNodeState := fun _ => .running
    getExecutions := fun _ => [⟨3, .failed, some "boom"⟩] }

/-- Well-formedness of the generator's per-tick state: each bucket holds
only tasks of its kind. -/
def GoodSt (st : GenState) : Prop :=
  (∀ t ∈ st.updateNodeStateTasks, isUpdateNodeStateTask t = true) ∧
  (∀ t ∈ st.execNodeTasks, isExecNodeTask t = true) ∧
  (∀ t, st.finalizePipelineTask = some t → isFinalizePipelineTask t = true)

end Tg

namespace Pr

/-- The `artifact_reuse_strategy` oneof of
`NodeExecutionOptions.ChiefSettings`. -/
inductive ChiefStrategy
  | basePipelineRun (baseRunId : String)
  | latestPipelineRun
deriving DecidableEq, Repr

/-- `NodeExecutionOptions.ChiefSettings`; the strategy oneof may be
unset. -/
structure ChiefSettings where
  strategy : Option ChiefStrategy
deriving DecidableEq, Repr

/-- The default chief settings (`_default_chief_settings`): the
latest-pipeline-run strategy. -/
def defaultChiefSettings : ChiefSettings := ⟨some .latestPipelineRun⟩

/-- The `partial_run_strategy` oneof of `NodeExecutionOptions`: unset, or
`run` (optionally carrying chief settings), or `skip` with its
`child_in_partial_run` field. -/
inductive NodeMark
  | unset
  | run (chiefSettings : Option ChiefSettings)
  | skip (childInPartialRun : Bool)
deriving DecidableEq, Repr

/-- A pipeline node as consumed by the partial-run utilities: node id,
upstream/downstream node ids, the producer node ids referenced by the
channels of its input specs (flattened over `inputs.inputs.values()`,
which is how `_handle_missing_inputs` consumes them), and its partial-run
marker. -/
structure PNode where
  id : String
  upstreamNodes : List String
  downstreamNodes : List String
  channelProducerIds : List String
  mark : NodeMark
deriving DecidableEq, Repr

/-- An element of `Pipeline.nodes` (the `PipelineOrNode` proto oneof). -/
inductive PipelineOrNode
  | pipelineNode (node : PNode)
  | subPipeline
deriving DecidableEq, Repr

/-- `Pipeline.ExecutionMode`. -/
inductive ExecutionMode
  | sync | async
deriving DecidableEq, Repr

/-- The pipeline IR fields consumed by the partial-run utilities. -/
structure Pipeline where
  nodes : List PipelineOrNode
  executionMode : ExecutionMode
  pipelineInfoId : String
  runtimeSpecPipelineRunId : Option String
deriving DecidableEq, Repr

/-- Proto access `pipeline_or_node.pipeline_node`; on a `sub_pipeline`
entry the proto yields a default empty node (the validations reject such
pipelines before this matters). -/
def getPipelineNode : PipelineOrNode → PNode
  | .pipelineNode n => n
  | .subPipeline => ⟨"", [], [], [], .unset⟩

/-- `PipelineOrNode.HasField('sub_pipeline')`. -/
def isSubPipeline : PipelineOrNode → Bool
  | .pipelineNode _ => false
  | .subPipeline => true

/-- `_Direction`. -/
inductive Direction
  | upstream | downstream
deriving DecidableEq, Repr

/-- The neighbor list followed by `_traverse` in the given direction. -/
def nodeNeighbors (d : Direction) (n : PNode) : List String :=
  match d with
  | .upstream => n.upstreamNodes
  | .downstream => n.downstreamNodes

/-- `_ensure_sync_pipeline`. -/
def ensureSyncPipeline (p : Pipeline) : Except PErr Unit :=
  if p.executionMode ≠ .sync then
    .error (.valueError "Pipeline filtering is only supported for SYNC pipelines.")
  else .ok ()

/-- `_ensure_no_subpipeline_nodes`. -/
def ensureNoSubpipelineNodes (p : Pipeline) : Except PErr Unit :=
  if p.nodes.any isSubPipeline then
    .error (.valueError "Pipeline filtering not supported for pipelines with sub-pipelines.")
  else .ok ()

/-- The upstream pass of `_ensure_topologically_sorted`: every upstream
reference must have been visited earlier. -/
def checkTopologicallySortedUp :
    List PipelineOrNode → List String → Except PErr Unit
  | [], _ => .ok ()
  | pn :: rest, visited =>
      let node := getPipelineNode pn
      if node.upstreamNodes.all (visited.contains ·) then
        checkTopologicallySortedUp rest (visited ++ [node.id])
      else
        .error (.valueError "Input pipeline is not topologically sorted.")

/-- The downstream pass of `_ensure_topologically_sorted` (over the
reversed node sequence). -/
def checkTopologicallySortedDown :
    List PipelineOrNode → List String → Except PErr Unit
  | [], _ => .ok ()
  | pn :: rest, visited =>
      let node := getPipelineNode pn
      if node.downstreamNodes.all (visited.contains ·) then
        checkTopologicallySortedDown rest (visited ++ [node.id])
      else
        .error (.valueError "Input pipeline is not topologically sorted.")

/-- `_ensure_topologically_sorted`. -/
def ensureTopologicallySorted (p : Pipeline) : Except PErr Unit := do
  let _ ← checkTopologicallySortedUp p.nodes []
  checkTopologicallySortedDown p.nodes.reverse []

/-- Insertion into an ordered map represented as an association list:
a later write to an existing key updates the value in place (preserving
its position), as `collections.OrderedDict` does. -/
def odInsert (m : List (String × PNode)) (k : String) (v : PNode) :
    List (String × PNode) :=
  if m.any (fun p => p.1 = k) then
    m.map (fun p => if p.1 = k then (k, v) else p)
  else m ++ [(k, v)]

/-- `_make_ordered_node_map`. -/
def makeOrderedNodeMap (p : Pipeline) : List (String × PNode) :=
  p.nodes.foldl
    (fun m pn => odInsert m (getPipelineNode pn).id (getPipelineNode pn)) []

/-- Keyed lookup in the ordered node map. -/
def nmLookup (m : List (String × PNode)) (k : String) : Option PNode :=
  (m.find? (fun p => p.1 = k)).map (·.2)

/-- The key set of the ordered node map. -/
def nmKeys (m : List (String × PNode)) : Finset String :=
  (m.map Prod.fst).toFinset

/-- The inner depth-first loop of `_traverse`: pop a node id, skip it if
already visited, otherwise visit it and push its neighbors.  A missing
node id raises (Python `KeyError` on `node_map[current_node_id]`),
modelled as a lookup error. -/
def traverseLoop (m : List (String × PNode)) (d : Direction)
    (result : Finset String) (stack : List String) :
    Except PErr (Finset String) :=
  match stack with
  | [] => .ok result
  | c :: rest =>
      if hc : c ∈ result then traverseLoop m d result rest
      else
        match hl : nmLookup m c with
        | none => .error (.lookupError c)
        | some n => traverseLoop m d (insert c result) (nodeNeighbors d n ++ rest)
termination_by ((nmKeys m \ result).card, stack.length)
decreasing_by
  · apply Prod.Lex.right
    exact Nat.lt_succ_self _
  · apply Prod.Lex.left
    have hmem : c ∈ nmKeys m := by
      have hfind : ∃ pr, m.find? (fun p => p.1 = c) = some pr := by
        unfold nmLookup at hl
        cases hf : m.find? (fun p => p.1 = c) with
        | none => rw [hf] at hl; cases hl
        | some pr => exact ⟨pr, rfl⟩
      obtain ⟨pr, hpr⟩ := hfind
      have hprm : pr ∈ m := List.mem_of_find?_eq_some hpr
      have hprc : pr.1 = c := by
        have := List.find?_some hpr
        simpa using this
      unfold nmKeys
      rw [List.mem_toFinset]
      exact hprc ▸ List.mem_map_of_mem Prod.fst hprm
    apply Finset.card_lt_card
    rw [Finset.ssubset_def]
    constructor
    · exact Finset.sdiff_subset_sdiff (le_refl _) (Finset.subset_insert _ _)
    · intro hsub
      have h2 := hsub (Finset.mem_sdiff.2 ⟨hmem, hc⟩)
      rw [Finset.mem_sdiff] at h2
      exact h2.2 (Finset.mem_insert_self _ _)

/-- `_traverse`: depth-first reachability from each start node in turn. -/
def traverse (m : List (String × PNode)) (d : Direction)
    (startNodes : List String) : Except PErr (Finset String) :=
  startNodes.foldlM (fun result startNode => traverseLoop m d result [startNode]) ∅

/-- `_filter_node_map`: keep exactly the nodes that are both ancestors of
`to_node_ids` and descendents of `from_node_ids`. -/
def filterNodeMap (m : List (String × PNode))
    (fromNodeIds toNodeIds : List String) :
    Except PErr (List (String × PNode)) := do
  let ancestorsOfToNodes ← traverse m .upstream toNodeIds
  let descendentsOfFromNodes ← traverse m .downstream fromNodeIds
  let nodesToKeep := ancestorsOfToNodes ∩ descendentsOfFromNodes
  pure (m.filter (fun p => p.1 ∈ nodesToKeep))

/-- `_remove_dangling_downstream_nodes`. -/
def removeDanglingDownstreamNodes (node : PNode)
    (nodeIdsToKeep : List String) : PNode :=
  let downstreamNodesToKeep :=
    node.downstreamNodes.filter (nodeIdsToKeep.contains ·)
  if downstreamNodesToKeep.length = node.downstreamNodes.length then node
  else { node with downstreamNodes := downstreamNodesToKeep }

/-- `_handle_missing_inputs`: drop upstream references pointing outside
`node_ids_to_keep`; report the dropped ones that appear among the node's
input-channel producer ids. -/
def handleMissingInputs (node : PNode) (nodeIdsToKeep : List String) :
    PNode × Finset String :=
  let upstreamNodesRemoved :=
    node.upstreamNodes.filter (fun u => ! nodeIdsToKeep.contains u)
  let upstreamNodesToKeep :=
    node.upstreamNodes.filter (nodeIdsToKeep.contains ·)
  if upstreamNodesRemoved.isEmpty then (node, ∅)
  else
    let excludedDirectDeps :=
      (node.channelProducerIds.filter (upstreamNodesRemoved.contains ·)).toFinset
    ({ node with upstreamNodes := upstreamNodesToKeep }, excludedDirectDeps)

/-- `_fix_nodes`. -/
def fixNodes (m : List (String × PNode)) :
    List (String × PNode) × Finset String :=
  let keep := m.map Prod.fst
  m.foldl
    (fun (acc : List (String × PNode) × Finset String) p =>
      let n1 := removeDanglingDownstreamNodes p.2 keep
      let fixed := handleMissingInputs n1 keep
      (acc.1 ++ [(p.1, fixed.1)], acc.2 ∪ fixed.2))
    ([], ∅)

/-- The per-node marking of `_mark_nodes_and_nominate_chief`.  Setting
`skip.child_in_partial_run` replaces the oneof with a `skip` marker;
`run.chief_settings.CopyFrom` replaces it with a `run` marker carrying the
chief settings; `run.SetInParent()` makes `run` present but preserves an
already-present `run` payload. -/
def markNode (includeIds : Finset String) (excludedDirectDependencies : Finset String)
    (chiefSettings : ChiefSettings) (chiefAlreadyNominated : Bool)
    (n : PNode) : PNode × Bool :=
  if n.id ∈ includeIds then
    if chiefAlreadyNominated then
      -- run.SetInParent()
      (match n.mark with
       | .run cs => { n with mark := .run cs }
       | _ => { n with mark := .run none },
       chiefAlreadyNominated)
    else
      ({ n with mark := .run (some chiefSettings) }, true)
  else
    ({ n with mark := .skip (n.id ∈ excludedDirectDependencies) },
      chiefAlreadyNominated)

/-- `_mark_nodes_and_nominate_chief`. -/
def markNodesAndNominateChief (p : Pipeline) (nodeIdsToInclude : Finset String)
    (excludedDirectDependencies : Finset String)
    (chiefSettings : ChiefSettings) : Pipeline :=
  { p with
    nodes :=
      (p.nodes.foldl
        (fun (acc : List PipelineOrNode × Bool) pn =>
          match pn with
          | .subPipeline => (acc.1 ++ [.subPipeline], acc.2)
          | .pipelineNode n =>
              let r := markNode nodeIdsToInclude excludedDirectDependencies
                chiefSettings acc.2 n
              (acc.1 ++ [.pipelineNode r.1], r.2))
        ([], false)).1 }

/-- Structural restatement of the node-marking fold of
`_mark_nodes_and_nominate_chief`, threading the chief-nominated flag; used
to reason about the fold, and proved equal to it. -/
def markNodesGo (includeIds excludedDirectDependencies : Finset String)
    (chiefSettings : ChiefSettings) :
    List PipelineOrNode → Bool → List PipelineOrNode
  | [], _ => []
  | .subPipeline :: rest, chiefAlreadyNominated =>
      .subPipeline :: markNodesGo includeIds excludedDirectDependencies
        chiefSettings rest chiefAlreadyNominated
  | .pipelineNode n :: rest, chiefAlreadyNominated =>
      let r := markNode includeIds excludedDirectDependencies chiefSettings
        chiefAlreadyNominated n
      .pipelineNode r.1 :: markNodesGo includeIds excludedDirectDependencies
        chiefSettings rest r.2

/-- `mark_pipeline`. -/
def markPipeline (p : Pipeline) (fromNodes toNodes : String → Bool)
    (chiefSettings : ChiefSettings) : Except PErr Pipeline := do
  let _ ← ensureSyncPipeline p
  let _ ← ensureNoSubpipelineNodes p
  let _ ← ensureTopologicallySorted p
  let nodeMap := makeOrderedNodeMap p
  let fromNodeIds := (nodeMap.map Prod.fst).filter fromNodes
  let toNodeIds := (nodeMap.map Prod.fst).filter toNodes
  let nodeMap2 ← filterNodeMap nodeMap fromNodeIds toNodeIds
  let fixed := fixNodes nodeMap2
  pure (markNodesAndNominateChief p (nmKeys fixed.1) fixed.2 chiefSettings)

/-- Whether a partial-run marker is a `run` marker. -/
def isRunMark : NodeMark → Bool
  | .run _ => true
  | _ => false

/-- Whether a partial-run marker is a `run` marker carrying chief
settings. -/
def hasChiefMark : NodeMark → Bool
  | .run (some _) => true
  | _ => false

/-- Whether a pipeline element is a node carrying chief settings. -/
def nodeHasChief : PipelineOrNode → Bool
  | .pipelineNode n => hasChiefMark n.mark
  | .subPipeline => false

/-- A concrete one-node pipeline used to evaluate the marker on closed
inputs. -/
def samplePNode : PNode := ⟨"a", [], [], [], .unset⟩

/-- The sample pipeline wrapping `samplePNode`. -/
def samplePipeline : Pipeline :=
  ⟨[.pipelineNode samplePNode], .sync, "p", some "r2"⟩

/-- A concrete two-node pipeline (`a` upstream of `b`) used to evaluate
the marker on closed inputs. -/
def samplePNodeA : PNode := ⟨"a", [], ["b"], [], .unset⟩

/-- Second node of the two-node sample pipeline. -/
def samplePNodeB : PNode := ⟨"b", ["a"], [], [], .unset⟩

/-- The two-node sample pipeline. -/
def samplePipeline2 : Pipeline :=
  ⟨[.pipelineNode samplePNodeA, .pipelineNode samplePNodeB], .sync, "p",
    some "r2"⟩

/-- A node with an upstream reference (`a`) that is backed by no input
channel; used to evaluate `_fix_nodes` on closed inputs. -/
def c7Node : PNode := ⟨"b", ["a"], [], [], .unset⟩

/-- A one-entry node map holding `c7Node`. -/
def c7Map : List (String × PNode) := [("b", c7Node)]

/-- The ordered node map of `samplePipeline2`. -/
def sp2map : List (String × PNode) := [("a", samplePNodeA), ("b", samplePNodeB)]

/-- Spec-side definition (for the refinement claims about `mark_pipeline`):
one traversal step follows an edge of the node map in the given
direction. -/
def EdgeStep (m : List (String × PNode)) (d : Direction) (a b : String) : Prop :=
  ∃ n, nmLookup m a = some n ∧ b ∈ nodeNeighbors d n

/-- Spec-side definition: reflexive-transitive reachability along
`EdgeStep`. -/
def SpecReachable (m : List (String × PNode)) (d : Direction)
    (s x : String) : Prop :=
  Relation.ReflTransGen (EdgeStep m d) s x

/-- Spec-side definition: reachability from any of the given start
nodes. -/
def SpecReachableFrom (m : List (String × PNode)) (d : Direction)
    (starts : List String) (x : String) : Prop :=
  ∃ s ∈ starts, SpecReachable m d s x

/-- Well-formed node map for a direction: every neighbor id of every
mapped node is itself a key of the map. -/
def NeighborsClosed (m : List (String × PNode)) (d : Direction) : Prop :=
  ∀ k n, nmLookup m k = some n → ∀ b ∈ nodeNeighbors d n, b ∈ nmKeys m

end Pr

namespace Md

/-- MLMD execution states (`metadata_store_pb2.Execution.State`). -/
inductive MExecState
  | unknown | new | running | complete | failed | cached | canceled
deriving DecidableEq, Repr

/-- An MLMD execution: id, execution type id, and last known state. -/
structure MExec where
  id : Nat
  typeId : Nat
  lastKnownState : MExecState
deriving DecidableEq, Repr

/-- An MLMD context: id, context type id, name, and creation time. -/
structure MCtx where
  id : Nat
  typeId : Nat
  name : String
  createTimeSinceEpoch : Nat
deriving DecidableEq, Repr

/-- Modelled from the spec: the metadata store's persisted state as seen
by the partial-run utilities — contexts, executions,
execution-to-context associations, OUTPUT events (execution id, artifact
id), parent-context edges (parent ctx id, child ctx id), and the id
counters MLMD uses when creating executions and contexts. -/
structure Store where
  contexts : List MCtx
  executions : List MExec
  associations : List (Nat × Nat)
  outputEvents : List (Nat × Nat)
  parentContexts : List (Nat × Nat)
  nextExecutionId : Nat
  nextContextId : Nat
deriving DecidableEq, Repr

/-- Type id of the `pipeline` context type. -/
def pipelineContextTypeId : Nat := 0

/-- Type id of the `pipeline_run` context type
(`store.get_context_type(PIPELINE_RUN_CONTEXT_TYPE_NAME).id`). -/
def pipelineRunContextTypeId : Nat := 1

/-- Type id of the `node` context type. -/
def nodeContextTypeId : Nat := 2

/-- Modelled from the spec: `store.get_context_by_type_and_name` — MLMD
keeps (type, name) unique, so the first match is the context. -/
def getContextByTypeAndName (s : Store) (typeId : Nat) (name : String) :
    Option MCtx :=
  s.contexts.find? (fun c => c.typeId = typeId ∧ c.name = name)

/-- Modelled from the spec: `store.get_contexts_by_type`. -/
def getContextsByType (s : Store) (typeId : Nat) : List MCtx :=
  s.contexts.filter (fun c => c.typeId = typeId)

/-- Modelled from the spec: `context_lib.register_context_if_not_exists` —
return the existing context or create one with a fresh id. -/
def registerContextIfNotExists (s : Store) (typeId : Nat) (name : String) :
    MCtx × Store :=
  match getContextByTypeAndName s typeId name with
  | some c => (c, s)
  | none =>
      let c : MCtx := ⟨s.nextContextId, typeId, name, s.nextContextId⟩
      (c, { s with
        contexts := s.contexts ++ [c],
        nextContextId := s.nextContextId + 1 })

/-- Modelled from the spec: `execution_lib.is_execution_successful` — an
execution is successful iff its state is COMPLETE or CACHED. -/
def isExecutionSuccessfulM (e : MExec) : Bool :=
  match e.lastKnownState with
  | .complete => true
  | .cached => true
  | _ => false

/-- Modelled from the spec:
`execution_lib.get_executions_associated_with_all_contexts` — the
executions associated with every one of the given contexts, in store
(ascending id) order. -/
def getExecutionsAssociatedWithAllContexts (s : Store) (ctxs : List MCtx) :
    List MExec :=
  s.executions.filter
    (fun e => ctxs.all (fun c => s.associations.contains (e.id, c.id)))

/-- Insertion step for sorting executions newest first. -/
def insertDescById (e : MExec) : List MExec → List MExec
  | [] => [e]
  | e2 :: rest =>
      if e.id ≥ e2.id then e :: e2 :: rest else e2 :: insertDescById e rest

/-- Modelled from the spec:
`execution_lib.sort_executions_newest_to_oldest` (descending id). -/
def sortExecutionsNewestToOldest (execs : List MExec) : List MExec :=
  execs.foldr insertDescById []

/-- Modelled from the spec: `execution_publish_utils.register_execution` —
create a new RUNNING execution with a fresh id, associated with the given
contexts. -/
def registerExecution (s : Store) (typeId : Nat) (ctxs : List MCtx) :
    MExec × Store :=
  let e : MExec := ⟨s.nextExecutionId, typeId, .running⟩
  (e, { s with
    executions := s.executions ++ [e],
    associations := s.associations ++ ctxs.map (fun c => (e.id, c.id)),
    nextExecutionId := s.nextExecutionId + 1 })

/-- Association pairs are added only when missing (MLMD keeps
associations unique). -/
def addAssociationsIfMissing (assoc : List (Nat × Nat))
    (pairs : List (Nat × Nat)) : List (Nat × Nat) :=
  assoc ++ pairs.filter (fun pr => ! assoc.contains pr)

/-- Modelled from the spec:
`execution_publish_utils.publish_cached_execution` — set the execution's
state to CACHED, associate it with the given contexts, and attach the
given output artifacts via OUTPUT events. -/
def publishCachedExecution (s : Store) (ctxs : List MCtx)
    (executionId : Nat) (outputArtifacts : List Nat) : Store :=
  { s with
    executions := s.executions.map (fun e =>
      if e.id = executionId then { e with lastKnownState := .cached } else e),
    associations := addAssociationsIfMissing s.associations
      (ctxs.map (fun c => (executionId, c.id))),
    outputEvents := s.outputEvents ++
      outputArtifacts.map (fun a => (executionId, a)) }

/-- Modelled from the spec: `execution_lib.get_artifacts_dict` for OUTPUT
events — the artifact ids attached as outputs of the execution. -/
def getArtifactsDict (s : Store) (executionId : Nat) : List Nat :=
  (s.outputEvents.filter (fun pr => pr.1 = executionId)).map Prod.snd

/-- Modelled from the spec: `store.get_contexts_by_execution`. -/
def getContextsByExecution (s : Store) (executionId : Nat) : List MCtx :=
  s.contexts.filter (fun c => s.associations.contains (executionId, c.id))

/-- Modelled from the spec:
`context_lib.put_parent_context_if_not_exists`. -/
def putParentContextIfNotExists (s : Store) (parentId childId : Nat) :
    Store :=
  if s.parentContexts.contains (parentId, childId) then s
  else { s with parentContexts := s.parentContexts ++ [(parentId, childId)] }

/-- Modelled from the spec: `compiler_utils.node_context_name` — a
deterministic function of pipeline name and node id. -/
def nodeContextName (pipelineName nodeId : String) : String :=
  pipelineName ++ "." ++ nodeId

/-- The `_ArtifactRecycler` object state: pipeline name, the pipeline
context fetched at construction, and the new run id.  Its in-memory cache
of pipeline-run contexts is kept consistent with the store by
`_get_pipeline_run_context`, so the embedding reads run contexts from the
store directly. -/
structure Recycler where
  pipelineName : String
  pipelineContext : MCtx
  newRunId : String
deriving DecidableEq, Repr

/-- `_ArtifactRecycler.__init__` / `_get_pipeline_context`: fails when the
pipeline context does not exist. -/
def recyclerInit (s : Store) (pipelineName newRunId : String) :
    Except PErr Recycler :=
  match getContextByTypeAndName s pipelineContextTypeId pipelineName with
  | none => .error (.lookupError s!"pipeline {pipelineName} not found in MLMD.")
  | some c => .ok ⟨pipelineName, c, newRunId⟩

/-- `_ArtifactRecycler._get_pipeline_run_context` with
`register_if_not_found = False`. -/
def lookupPipelineRunContext (s : Store) (runId : String) :
    Except PErr MCtx :=
  match getContextByTypeAndName s pipelineRunContextTypeId runId with
  | some c => .ok c
  | none => .error (.lookupError s!"pipeline_run_id {runId} not found in MLMD.")

/-- `_ArtifactRecycler._get_pipeline_run_context` with
`register_if_not_found = True`. -/
def ensurePipelineRunContext (s : Store) (runId : String) : MCtx × Store :=
  registerContextIfNotExists s pipelineRunContextTypeId runId

/-- `_ArtifactRecycler.get_latest_pipeline_run_id`: the most recently
created pipeline-run context other than the new run id. -/
def getLatestPipelineRunId (r : Recycler) (s : Store) : Except PErr String :=
  let candidates :=
    (getContextsByType s pipelineRunContextTypeId).filter
      (fun c => c.name ≠ r.newRunId)
  match candidates.foldl
    (fun acc c =>
      match acc with
      | none => some c
      | some best =>
          if c.createTimeSinceEpoch > best.createTimeSinceEpoch then some c
          else some best)
    none with
  | none => .error (.lookupError "No previous pipeline_run_ids found.")
  | some c => .ok c.name

/-- `_ArtifactRecycler._get_node_context`. -/
def getNodeContext (r : Recycler) (s : Store) (nodeId : String) :
    Except PErr MCtx :=
  match getContextByTypeAndName s nodeContextTypeId
    (nodeContextName r.pipelineName nodeId) with
  | none => .error (.lookupError
      s!"node context {nodeContextName r.pipelineName nodeId} not found in MLMD.")
  | some c => .ok c

/-- `_ArtifactRecycler._get_successful_executions`: all successful
executions of the node in the given run, newest first; raises when there
are none. -/
def getSuccessfulExecutions (r : Recycler) (s : Store)
    (nodeId runId : String) : Except PErr (List MExec) := do
  let nodeContext ← getNodeContext r s nodeId
  let baseRunContext ← lookupPipelineRunContext s runId
  let allAssociatedExecutions := getExecutionsAssociatedWithAllContexts s
    [nodeContext, baseRunContext, r.pipelineContext]
  let prevSuccessfulExecutions :=
    allAssociatedExecutions.filter isExecutionSuccessfulM
  if prevSuccessfulExecutions.isEmpty then
    .error (.lookupError
      s!"No previous successful executions found for node_id {nodeId} in pipeline_run {runId}")
  else
    .ok (sortExecutionsNewestToOldest prevSuccessfulExecutions)

/-- `_ArtifactRecycler._get_cached_execution_contexts`: the contexts of
the existing execution, with every pipeline-run context replaced by the
new run's context (registered if absent). -/
def getCachedExecutionContexts (r : Recycler) (s : Store)
    (existingExecution : MExec) : List MCtx × Store :=
  (getContextsByExecution s existingExecution.id).foldl
    (fun (acc : List MCtx × Store) c =>
      if c.typeId = pipelineRunContextTypeId then
        let rc := ensurePipelineRunContext acc.2 r.newRunId
        (acc.1 ++ [rc.1], rc.2)
      else (acc.1 ++ [c], acc.2))
    ([], s)

/-- `_ArtifactRecycler._cache_and_publish`. -/
def cacheAndPublish (r : Recycler) (s : Store) (existingExecution : MExec) :
    Store :=
  let cc := getCachedExecutionContexts r s existingExecution
  let cachedExecutionContexts := cc.1
  let s1 := cc.2
  let prevCacheExecutions :=
    getExecutionsAssociatedWithAllContexts s1 cachedExecutionContexts
  match prevCacheExecutions.getLast? with
  | none =>
      let reg := registerExecution s1 existingExecution.typeId
        cachedExecutionContexts
      let outputArtifacts := getArtifactsDict reg.2 existingExecution.id
      publishCachedExecution reg.2 cachedExecutionContexts reg.1.id
        outputArtifacts
  | some lastExec =>
      if lastExec.lastKnownState = .cached then s1
      else
        let outputArtifacts := getArtifactsDict s1 existingExecution.id
        publishCachedExecution s1 cachedExecutionContexts lastExec.id
          outputArtifacts

/-- `_ArtifactRecycler.reuse_node_outputs`: look up the node's successful
executions in the base run (raising if none) and cache-and-publish each,
newest first. -/
def reuseNodeOutputs (r : Recycler) (s : Store) (nodeId baseRunId : String) :
    Except PErr Store := do
  let previousExecutions ← getSuccessfulExecutions r s nodeId baseRunId
  .ok (previousExecutions.foldl (fun acc e => cacheAndPublish r acc e) s)

/-- `_ArtifactRecycler.put_parent_context`. -/
def putParentContext (r : Recycler) (s : Store) (baseRunId : String) :
    Except PErr Store := do
  let baseRunContext ← lookupPipelineRunContext s baseRunId
  let nrc := ensurePipelineRunContext s r.newRunId
  .ok (putParentContextIfNotExists nrc.2 baseRunContext.id nrc.1.id)

/-- `_get_validated_new_run_id`. -/
def getValidatedNewRunId (p : Pr.Pipeline) (newRunId : Option String) :
    Except PErr String :=
  match p.runtimeSpecPipelineRunId, newRunId with
  | none, none =>
      .error (.valueError "Unable to infer new pipeline run id.")
  | some inferred, some given =>
      if given ≠ inferred then
        .error (.valueError "Conflicting new pipeline run ids found.")
      else .ok inferred
  | some inferred, none => .ok inferred
  | none, some given => .ok given

/-- `_compute_nodes_to_reuse`: all node ids minus the downstream closure
of run-marked nodes, after checking that this closure is disjoint from
the upstream closure of skipped-with-included-children nodes.  The Python
set is returned here as a list in node-map order. -/
def computeNodesToReuse (p : Pr.Pipeline) : Except PErr (List String) := do
  let nodeMap := Pr.makeOrderedNodeMap p
  let nodesToRun := p.nodes.filterMap (fun pn =>
    match pn with
    | .pipelineNode n =>
        match n.mark with
        | .run _ => some n.id
        | _ => none
    | .subPipeline => none)
  let skippedNodesWithIncludedChildren := p.nodes.filterMap (fun pn =>
    match pn with
    | .pipelineNode n =>
        match n.mark with
        | .skip true => some n.id
        | _ => none
    | .subPipeline => none)
  let exclusionSet ← Pr.traverse nodeMap .downstream nodesToRun
  let inclusionSet ← Pr.traverse nodeMap .upstream
    skippedNodesWithIncludedChildren
  if exclusionSet ∩ inclusionSet ≠ ∅ then
    .error (.valueError "This should never happen. Did you modify the outputs of filter_pipeline?")
  else
    .ok ((nodeMap.map Prod.fst).filter (fun k => k ∉ exclusionSet))

/-- The per-node loop of `reuse_pipeline_run_artifacts`.  An error aborts
the loop but (as in Python, where the exception propagates) leaves the
mutations already made to the store in place, so the result carries the
store alongside the outcome. -/
def reusePipelineRunArtifactsLoop (r : Recycler) (nodes : List String)
    (baseRunId : String) (s : Store) : Except PErr Unit × Store :=
  match nodes with
  | [] => (.ok (), s)
  | nodeId :: rest =>
      match reuseNodeOutputs r s nodeId baseRunId with
      | .error e => (.error e, s)
      | .ok s2 => reusePipelineRunArtifactsLoop r rest baseRunId s2

/-- `reuse_pipeline_run_artifacts`. -/
def reusePipelineRunArtifacts (s : Store) (markedPipeline : Pr.Pipeline)
    (baseRunId : Option String) (newRunId : Option String) :
    Except PErr Unit × Store :=
  match getValidatedNewRunId markedPipeline newRunId with
  | .error e => (.error e, s)
  | .ok validatedNewRunId =>
  match computeNodesToReuse markedPipeline with
  | .error e => (.error e, s)
  | .ok nodesToReuse =>
  match recyclerInit s markedPipeline.pipelineInfoId validatedNewRunId with
  | .error e => (.error e, s)
  | .ok r =>
  match (match baseRunId with
         | some b => Except.ok b
         | none => getLatestPipelineRunId r s) with
  | .error e => (.error e, s)
  | .ok base =>
  match reusePipelineRunArtifactsLoop r nodesToReuse base s with
  | (.error e, s2) => (.error e, s2)
  | (.ok _, s2) =>
      match putParentContext r s2 base with
      | .error e => (.error e, s2)
      | .ok s3 => (.ok (), s3)

/-- A one-node SYNC pipeline (node `a` marked skip) for exercising the
artifact recycler on closed inputs. -/
def sampleReusePipeline : Pr.Pipeline :=
  ⟨[.pipelineNode ⟨"a", [], [], [], .skip false⟩], .sync, "pipe", none⟩

/-- A store holding the pipeline context, the base-run context, node `a`'s
node context, and one COMPLETE execution of node `a` in the base run with
one output artifact. -/
def sampleReuseStore : Store :=
  ⟨[⟨0, 0, "pipe", 0⟩, ⟨1, 1, "base", 1⟩, ⟨2, 2, "pipe.a", 2⟩],
   [⟨0, 7, .complete⟩], [(0, 0), (0, 1), (0, 2)], [(0, 42)], [], 1, 3⟩

/-- The same contexts with no executions: node `a` has no successful
execution in the base run. -/
def sampleEmptyReuseStore : Store :=
  ⟨[⟨0, 0, "pipe", 0⟩, ⟨1, 1, "base", 1⟩, ⟨2, 2, "pipe.a", 2⟩],
   [], [], [], [], 0, 3⟩

/-- The empty metadata store. -/
def emptyStore : Store := ⟨[], [], [], [], [], 0, 0⟩

/-- The observable outcome of `snapshot`: not the chief (no-op, the
metadata store is never opened), a `ValueError` raised before opening the
metadata-store connection, or the store-backed artifact reuse performed
with the chosen base run id. -/
inductive SnapshotResult
  | notChief
  | invalidSettings (msg : String)
  | performed (result : Except PErr Unit × Store)
deriving Repr

/-- `snapshot`. -/
def snapshot (pipelineNode : Pr.PNode) (s : Store) (pipeline : Pr.Pipeline) :
    SnapshotResult :=
  match pipelineNode.mark with
  | .run (some chiefSettings) =>
      match chiefSettings.strategy with
      | some (.basePipelineRun baseRunId) =>
          .performed (reusePipelineRunArtifacts s pipeline (some baseRunId) none)
      | some .latestPipelineRun =>
          .performed (reusePipelineRunArtifacts s pipeline none none)
      | none => .invalidSettings "artifact_reuse_strategy not set in ChiefSettings."
  | _ => .notChief

end Md

namespace Md

/-- Well-formedness of a store: executions in strictly ascending id order
below the execution-id counter; context ids distinct and below the
context-id counter; association pairs referencing ids below the counters;
context (type, name) pairs unique. -/
def StoreWF (s : Store) : Prop :=
  s.executions.Pairwise (fun e1 e2 => e1.id < e2.id) ∧
  (∀ e ∈ s.executions, e.id < s.nextExecutionId) ∧
  ((s.contexts.map MCtx.id).Nodup) ∧
  (∀ c ∈ s.contexts, c.id < s.nextContextId) ∧
  (∀ pr ∈ s.associations, pr.1 < s.nextExecutionId ∧ pr.2 < s.nextContextId) ∧
  s.contexts.Pairwise (fun c1 c2 => c1.typeId = c2.typeId → c1.name ≠ c2.name)

/-- No execution is associated with both a base-run context and a new-run
context: the new pipeline run has not yet absorbed the base run's
executions. -/
def NoSharedRunAssoc (s : Store) (baseName newName : String) : Prop :=
  ∀ cb ∈ s.contexts, cb.typeId = pipelineRunContextTypeId → cb.name = baseName →
    ∀ cn ∈ s.contexts, cn.typeId = pipelineRunContextTypeId → cn.name = newName →
      ∀ pr ∈ s.associations, pr.2 = cb.id → (pr.1, cn.id) ∉ s.associations

/-- Relation between an execution of the earlier store and its image in
the later store: same id and type; the state is unchanged, or has moved to
CACHED and the execution was already associated (in the earlier store)
with a new-run context. -/
def ExecRel (S : Store) (newName : String) (e e2 : MExec) : Prop :=
  e2.id = e.id ∧ e2.typeId = e.typeId ∧
    (e2.lastKnownState = e.lastKnownState ∨
      (e2.lastKnownState = .cached ∧
        ∃ c ∈ S.contexts, c.typeId = pipelineRunContextTypeId ∧
          c.name = newName ∧ (e.id, c.id) ∈ S.associations))

/-- How a store may evolve across the artifact-recycling loop for fixed
base and new run names. -/
structure Ev (baseName newName : String) (S R : Store) : Prop where
  ctxExt : ∃ tail, R.contexts = S.contexts ++ tail ∧
    ∀ c ∈ tail, c.typeId = pipelineRunContextTypeId ∧ c.name = newName ∧
      S.nextContextId ≤ c.id
  execEvo : ∃ olds fresh, R.executions = olds ++ fresh ∧
    List.Forall₂ (ExecRel S newName) S.executions olds ∧
    ∀ e ∈ fresh, S.nextExecutionId ≤ e.id ∧ e.lastKnownState = .cached
  assocMono : ∀ pr ∈ S.associations, pr ∈ R.associations
  assocFresh : ∀ pr ∈ R.associations, pr ∉ S.associations →
    S.nextExecutionId ≤ pr.1
  assocNoBase : ∀ pr ∈ R.associations, pr ∉ S.associations →
    ∀ cb ∈ S.contexts, cb.typeId = pipelineRunContextTypeId →
      cb.name = baseName → pr.2 ≠ cb.id
  eventsMono : ∀ pr ∈ S.outputEvents, pr ∈ R.outputEvents
  nextExecLe : S.nextExecutionId ≤ R.nextExecutionId
  nextCtxLe : S.nextContextId ≤ R.nextContextId

/-- A base-run execution already handled by `_cache_and_publish` against
this store: computing the cached-execution contexts mutates nothing, and
the newest execution associated with them is CACHED (so a repeated
`_cache_and_publish` returns immediately). -/
structure ProcessedE (r : Recycler) (R : Store) (E : MExec) : Prop where
  noMutation : (getCachedExecutionContexts r R E).2 = R
  lastCached : ∃ last, (getExecutionsAssociatedWithAllContexts R
    (getCachedExecutionContexts r R E).1).getLast? = some last ∧
    last.lastKnownState = .cached

end Md

/-! ## Theorems -/

namespace Tg


theorem goodSt_classifyTask {st : GenState} (h : GoodSt st) (t : Task) :
    GoodSt (classifyTask st t) := by
  obtain ⟨h1, h2, h3⟩ := h
  cases t with
  | updateNodeState nodeId state status =>
      refine ⟨?_, h2, h3⟩
      intro u hu
      simp only [classifyTask, List.mem_append, List.mem_singleton] at hu
      rcases hu with hu | hu
      · exact h1 u hu
      · subst hu; rfl
  | execNode a b c d e f g i =>
      refine ⟨h1, ?_, h3⟩
      intro u hu
      simp only [classifyTask, List.mem_append, List.mem_singleton] at hu
      rcases hu with hu | hu
      · exact h2 u hu
      · subst hu; rfl
  | finalizePipeline status =>
      refine ⟨h1, h2, ?_⟩
      intro u hu
      simp only [classifyTask, Option.some.injEq] at hu
      subst hu; rfl

theorem goodSt_foldl_classifyTask (tasks : List Task) :
    ∀ st : GenState, GoodSt st → GoodSt (tasks.foldl classifyTask st) := by
  induction tasks with
  | nil => intro st h; exact h
  | cons t rest ih =>
      intro st h
      exact ih (classifyTask st t) (goodSt_classifyTask h t)

theorem goodSt_processNode (env : Env) {st : GenState} (h : GoodSt st)
    (node : Node) : GoodSt (processNode env st node) := by
  unfold processNode
  split
  · exact h
  · exact goodSt_foldl_classifyTask _ _ ⟨h.1, h.2.1, h.2.2⟩

theorem goodSt_processLayer (env : Env) {st : GenState} (h : GoodSt st)
    (layerNodes : List Node) : GoodSt (processLayer env st layerNodes) := by
  have h1 : GoodSt (layerNodes.foldl (processNode env) st) := by
    induction layerNodes generalizing st with
    | nil => exact h
    | cons n rest ih => exact ih (goodSt_processNode env h n)
  unfold processLayer
  dsimp only
  split
  · exact h1
  · exact ⟨h1.1, h1.2.1, h1.2.2⟩

theorem goodSt_runLayers (env : Env) (layers : List (List Node))
    {st : GenState} (h : GoodSt st) : GoodSt (runLayers env layers st) := by
  unfold runLayers
  induction layers generalizing st with
  | nil => exact h
  | cons l rest ih =>
      simp only [List.foldl_cons]
      by_cases hf : (st.finalizePipelineTask).isSome
      · simpa [hf] using ih h
      · simpa [hf] using ih (goodSt_processLayer env h l)

theorem task_kind_exclusive (t : Task) :
    (isUpdateNodeStateTask t = true → isExecNodeTask t = false ∧ isFinalizePipelineTask t = false) ∧
    (isExecNodeTask t = true → isFinalizePipelineTask t = false) ∧
    (isFinalizePipelineTask t = true → isExecNodeTask t = false) := by
  cases t <;> simp [isUpdateNodeStateTask, isExecNodeTask, isFinalizePipelineTask]

end Tg


namespace Tg

theorem getLast?_append_singleton {α : Type} (l : List α) (a : α) :
    (l ++ [a]).getLast? = some a := by
  induction l with
  | nil => rfl
  | cons x xs ih =>
      cases xs with
      | nil => rfl
      | cons y ys =>
          rw [List.cons_append, List.cons_append, List.getLast?_cons_cons,
            ← List.cons_append]
          exact ih

theorem generate_result_eq (env : Env) (pipelineNodes : List Node)
    (cache : List String) (layers : List (List Node)) (result : List Task)
    (hl : topsortedLayers pipelineNodes = .ok layers)
    (hr : generate env pipelineNodes cache = .ok result) :
    result =
      assembleResult (runLayers env layers (initGenState cache))
        (terminalNodeIds layers) := by
  unfold generate at hr
  rw [hl] at hr
  exact (Except.ok.inj hr).symm

end Tg

/-- C1: in every tick, (i) if `generate` returns any `FinalizePipelineTask`
then the returned task list contains no `ExecNodeTask`; (ii) every
`UpdateNodeStateTask` accumulated during the tick is included in the
result; (iii) if no per-node decision produced a finalize task and every
terminal node id is in `successful_node_ids`, the result ends with a
`FinalizePipelineTask` whose status code is OK. -/
theorem c1_tick_finalization (env : Tg.Env) (pipelineNodes : List Tg.Node)
    (cache : List String) (layers : List (List Tg.Node)) (result : List Tg.Task)
    (hl : Tg.topsortedLayers pipelineNodes = .ok layers)
    (hr : Tg.generate env pipelineNodes cache = .ok result) :
    ((∃ t ∈ result, Tg.isFinalizePipelineTask t = true) →
        ∀ t ∈ result, Tg.isExecNodeTask t = false) ∧
    (∀ t ∈ (Tg.runLayers env layers (Tg.initGenState cache)).updateNodeStateTasks,
        t ∈ result) ∧
    ((Tg.runLayers env layers (Tg.initGenState cache)).finalizePipelineTask = none →
      (Tg.terminalNodeIds layers).all
          ((Tg.runLayers env layers (Tg.initGenState cache)).successfulNodeIds.contains ·) = true →
      result.getLast? = some Tg.finalizeOkTask) := by
  set st := Tg.runLayers env layers (Tg.initGenState cache) with hst
  have hgood : Tg.GoodSt st := by
    apply Tg.goodSt_runLayers
    exact ⟨by simp [Tg.initGenState], by simp [Tg.initGenState], by simp [Tg.initGenState]⟩
  have hres := Tg.generate_result_eq env pipelineNodes cache layers result hl hr
  rw [← hst] at hres
  refine ⟨?_, ?_, ?_⟩
  · -- finalize exclusivity
    intro hprem t ht
    obtain ⟨f, hf, hff⟩ := hprem
    subst hres
    unfold Tg.assembleResult at ht hf
    rcases hfin : st.finalizePipelineTask with _ | g
    · rw [hfin] at ht hf
      by_cases hterm :
          (Tg.terminalNodeIds layers).all (st.successfulNodeIds.contains ·) = true
      · simp only [hterm, if_true] at ht
        rcases List.mem_append.1 ht with h | h
        · exact (Tg.task_kind_exclusive t).1 (hgood.1 t h) |>.1
        · rcases List.mem_singleton.1 h with rfl
          rfl
      · -- no finalize task exists in the exec-task branch, refuting the
        -- premise
        simp only [hterm, if_false, Bool.false_eq_true] at hf
        rcases List.mem_append.1 hf with h | h
        · have hk := ((Tg.task_kind_exclusive f).1 (hgood.1 f h)).2
          rw [hk] at hff
          exact Bool.noConfusion hff
        · have hk := (Tg.task_kind_exclusive f).2.1 (hgood.2.1 f h)
          rw [hk] at hff
          exact Bool.noConfusion hff
    · rw [hfin] at ht
      rcases List.mem_append.1 ht with h | h
      · exact (Tg.task_kind_exclusive t).1 (hgood.1 t h) |>.1
      · rcases List.mem_singleton.1 h with rfl
        exact (Tg.task_kind_exclusive t).2.2 (hgood.2.2 t hfin)
  · -- update tasks always surfaced
    intro t ht
    subst hres
    unfold Tg.assembleResult
    rcases st.finalizePipelineTask with _ | f
    · by_cases hterm :
          (Tg.terminalNodeIds layers).all (st.successfulNodeIds.contains ·) = true
      · simp only [hterm, if_true]
        exact List.mem_append_left _ ht
      · simp only [hterm, if_false, Bool.false_eq_true]
        exact List.mem_append_left _ ht
    · exact List.mem_append_left _ ht
  · -- terminal-complete finalization
    intro hfin hterm
    subst hres
    unfold Tg.assembleResult
    rw [hfin, hterm]
    simp only [if_true]
    exact Tg.getLast?_append_singleton _ _

/-- Witness for C1 at a concrete one-node pipeline. -/
theorem c1_tick_finalization_witness :
    Tg.generate Tg.sampleEnv [Tg.sampleNode] [] =
      .ok [Tg.Task.updateNodeState "a" .running none,
           Tg.Task.execNode "a" 42 [1, 99] 5 7 8 "uri" "dir"] ∧
    (((∃ t ∈ [Tg.Task.updateNodeState "a" Tg.NodeState.running none,
           Tg.Task.execNode "a" 42 [1, 99] 5 7 8 "uri" "dir"],
          Tg.isFinalizePipelineTask t = true) →
        ∀ t ∈ [Tg.Task.updateNodeState "a" Tg.NodeState.running none,
           Tg.Task.execNode "a" 42 [1, 99] 5 7 8 "uri" "dir"],
          Tg.isExecNodeTask t = false) ∧
    (∀ t ∈ (Tg.runLayers Tg.sampleEnv [[Tg.sampleNode]]
          (Tg.initGenState [])).updateNodeStateTasks,
        t ∈ [Tg.Task.updateNodeState "a" Tg.NodeState.running none,
           Tg.Task.execNode "a" 42 [1, 99] 5 7 8 "uri" "dir"]) ∧
    ((Tg.runLayers Tg.sampleEnv [[Tg.sampleNode]]
          (Tg.initGenState [])).finalizePipelineTask = none →
      (Tg.terminalNodeIds [[Tg.sampleNode]]).all
          ((Tg.runLayers Tg.sampleEnv [[Tg.sampleNode]]
            (Tg.initGenState [])).successfulNodeIds.contains ·) = true →
      ([Tg.Task.updateNodeState "a" Tg.NodeState.running none,
        Tg.Task.execNode "a" 42 [1, 99] 5 7 8 "uri" "dir"]).getLast? =
        some Tg.finalizeOkTask)) :=
  ⟨rfl,
   c1_tick_finalization Tg.sampleEnv [Tg.sampleNode] [] [[Tg.sampleNode]] _
     rfl rfl⟩

/-- C2: if a node's most recent execution (by id) exists and is terminal
and non-successful, then (i) when the node state is not STARTING the
per-node decision emits exactly an `UpdateNodeStateTask(FAILED, ABORTED)`
whose message is the execution's `__execution_error_msg__` custom property
(empty when absent) plus a `FinalizePipelineTask(ABORTED)`; (ii) when the
node state is STARTING this branch is skipped and (in the absence of any
active execution) fresh input resolution proceeds instead. -/
theorem c2_failed_execution_aborts (env : Tg.Env) (cache : List String)
    (node : Tg.Node) (succ : List String) (latestExec : Tg.Exec)
    (hcache : cache.contains node.id = false)
    (hup : node.upstreamNodes.all (succ.contains ·) = true)
    (hstop : env.getNodeState node.id ≠ .stopping)
    (hstop2 : env.getNodeState node.id ≠ .stopped)
    (hpure : env.isPureServiceNode node.id = false)
    (htracked : env.isTaskIdTracked node.id = false)
    (hlatest : Tg.getLatestExecution (env.getExecutions node.id) = some latestExec)
    (hns : Tg.isExecutionSuccessful latestExec = false)
    (hna : Tg.isExecutionActive latestExec = false) :
    (env.getNodeState node.id ≠ .starting →
      Tg.generateTasksForNode env cache node succ =
        (let errorMsg := latestExec.errorMsg.getD ""
         ([.updateNodeState node.id .failed (some ⟨.aborted, errorMsg⟩),
           Tg.abortTask
             s!"node failed; node uid: {node.id}; error: {errorMsg}"],
          succ)))
    ∧ (env.getNodeState node.id = .starting →
      (∀ e ∈ env.getExecutions node.id, Tg.isExecutionActive e = false) →
      Tg.generateTasksForNode env cache node succ =
        Tg.resolveInputsAndGenerateTasksForNode env node
          (env.getExecutions node.id) succ) := by
  have hstopfact :
      ¬(env.getNodeState node.id = Tg.NodeState.stopping ∨
        env.getNodeState node.id = Tg.NodeState.stopped) := by
    rintro (h | h)
    · exact hstop h
    · exact hstop2 h
  constructor
  · intro hstarting
    simp only [Tg.generateTasksForNode, Tg.ensureNodeServicesIfPure, hcache,
      hup, hpure, htracked, hlatest, hns, hna, hstopfact, hstarting,
      Bool.false_eq_true, Bool.not_true, Bool.not_false, if_false, if_true,
      ite_false, ite_true, not_false_eq_true, and_true, and_self, ne_eq,
      not_false_iff]
  · intro hstarting hnoactive
    have hfind : (env.getExecutions node.id).find?
        (fun e => Tg.isExecutionActive e) = none := by
      rw [List.find?_eq_none]
      intro e he
      simp [hnoactive e he]
    simp only [Tg.generateTasksForNode, Tg.ensureNodeServicesIfPure,
      Tg.generateTasksForNodeAfterLatest, Tg.generateTaskFromActiveExecution,
      hcache, hup, hpure, htracked, hlatest, hns, hna, hstopfact, hstarting,
      hfind, Bool.false_eq_true, Bool.not_true, Bool.not_false, if_false,
      if_true, ite_false, ite_true, not_true_eq_false, false_and, and_false,
      ne_eq, not_false_iff]
    simp

/-- Witness for C2 at a concrete node with one failed prior execution and
node state RUNNING. -/
theorem c2_failed_execution_aborts_witness :
    (Tg.sampleEnvFailedExec.getNodeState "a" ≠ Tg.NodeState.starting →
      Tg.generateTasksForNode Tg.sampleEnvFailedExec [] Tg.sampleNode [] =
        ([.updateNodeState "a" .failed (some ⟨.aborted, "boom"⟩),
          Tg.abortTask "node failed; node uid: a; error: boom"], []))
    ∧ (Tg.sampleEnvFailedExec.getNodeState "a" = Tg.NodeState.starting →
      (∀ e ∈ Tg.sampleEnvFailedExec.getExecutions "a",
          Tg.isExecutionActive e = false) →
      Tg.generateTasksForNode Tg.sampleEnvFailedExec [] Tg.sampleNode [] =
        Tg.resolveInputsAndGenerateTasksForNode Tg.sampleEnvFailedExec
          Tg.sampleNode (Tg.sampleEnvFailedExec.getExecutions "a") []) :=
  c2_failed_execution_aborts Tg.sampleEnvFailedExec [] Tg.sampleNode []
    ⟨3, .failed, some "boom"⟩ rfl rfl (by decide) (by decide) rfl rfl rfl rfl rfl

/-- C3: if fresh input resolution returns nothing for a node, the decision
emits exactly one `UpdateNodeStateTask(SKIPPED)` — no finalize task, no
exec-node task — and adds the node's id to `successful_node_ids`, so
downstream nodes treat the node as successful within the same tick. -/
theorem c3_no_resolved_info_skips (env : Tg.Env) (node : Tg.Node)
    (execs : List Tg.Exec) (succ : List String)
    (h : env.generateResolvedInfo node.id = none) :
    Tg.resolveInputsAndGenerateTasksForNode env node execs succ =
      ([.updateNodeState node.id .skipped none], succ.insert node.id)
    ∧ node.id ∈ succ.insert node.id := by
  constructor
  · unfold Tg.resolveInputsAndGenerateTasksForNode
    dsimp only
    rw [h]
  · exact List.mem_insert_self _ _

/-- Witness for C3 at a concrete node whose input resolution returns
nothing. -/
theorem c3_no_resolved_info_skips_witness :
    Tg.resolveInputsAndGenerateTasksForNode
        { Tg.sampleEnv with generateResolvedInfo := fun _ => none }
        Tg.sampleNode [] ["x"] =
      ([.updateNodeState "a" .skipped none], (["x"] : List String).insert "a")
    ∧ "a" ∈ (["x"] : List String).insert "a" :=
  c3_no_resolved_info_skips
    { Tg.sampleEnv with generateResolvedInfo := fun _ => none }
    Tg.sampleNode [] ["x"] rfl

/-- C4 counterexample: for the concrete node `sampleNode` with
`enable_cache = false` (and cached outputs available), fresh resolution
still computes the cache context (`99`) and attaches it to the emitted
`ExecNodeTask`'s context list `[1, 99]` — refuting the claim that when
caching is disabled no cache context is computed or attached. -/
theorem c4_cache_context_counterexample :
    Tg.sampleNode.enableCache = false ∧
    Tg.sampleEnvCached.getCacheContext "a" = 99 ∧
    (Tg.sampleEnvCached.getCachedOutputs 99).isSome = true ∧
    (Tg.resolveInputsAndGenerateTasksForNode Tg.sampleEnvCached
        Tg.sampleNode [] []).1 =
      [.updateNodeState "a" .running none,
       .execNode "a" 42 [1, 99] 5 7 8 "uri" "dir"] ∧
    (99 : Nat) ∈ [1, 99] :=
  ⟨rfl, rfl, rfl, rfl, by decide⟩

/-- C4 (amended): during fresh resolution the cache-context fingerprint is
computed and attached to the execution's context list unconditionally;
`enable_cache` gates only the cached-outputs lookup (and the resulting
cached-execution publication).  In particular, with caching disabled the
emitted `ExecNodeTask` still carries the cache context as the last element
of its context list. -/
theorem c4_cache_context_always_attached (env : Tg.Env) (node : Tg.Node)
    (execs : List Tg.Exec) (succ : List String) (resolvedInfo : Tg.ResolvedInfo)
    (inputArtifacts : Nat)
    (hri : env.generateResolvedInfo node.id = some resolvedInfo)
    (hia : resolvedInfo.inputArtifacts = some inputArtifacts)
    (hcache : node.enableCache = false)
    (hmixed : Tg.ensureNodeServicesIfMixed env node.id ≠ some .failed) :
    Tg.resolveInputsAndGenerateTasksForNode env node execs succ =
      ([.updateNodeState node.id .running none,
        .execNode node.id (env.registerExecutionId node.id)
          (resolvedInfo.contexts ++ [env.getCacheContext node.id])
          inputArtifacts resolvedInfo.execProperties
          (env.generateOutputArtifacts node.id (env.registerExecutionId node.id))
          (env.executorOutputUri node.id (env.registerExecutionId node.id))
          (env.statefulWorkingDir node.id (env.registerExecutionId node.id))],
        succ) := by
  unfold Tg.resolveInputsAndGenerateTasksForNode
  dsimp only
  rw [hri]
  dsimp only
  rw [hia]
  dsimp only
  rw [hcache]
  simp only [Bool.false_and, Bool.false_eq_true, if_false]
  rw [if_neg hmixed]

/-- Witness for the amended C4 at a concrete node with caching disabled
but cached outputs available. -/
theorem c4_cache_context_always_attached_witness :
    Tg.resolveInputsAndGenerateTasksForNode Tg.sampleEnvCached
        Tg.sampleNode [] [] =
      ([.updateNodeState "a" .running none,
        .execNode "a" 42 ([1] ++ [99]) 5 7 8 "uri" "dir"], []) :=
  c4_cache_context_always_attached Tg.sampleEnvCached Tg.sampleNode [] []
    ⟨[1], some 5, 7⟩ 5 rfl rfl rfl (by decide)

namespace Pr

theorem traverseLoop_nil (m : List (String × PNode)) (d : Direction)
    (result : Finset String) : traverseLoop m d result [] = .ok result := by
  simp [traverseLoop]

theorem traverseLoop_cons_mem {m : List (String × PNode)} {d : Direction}
    {result : Finset String} {c : String} {rest : List String}
    (h : c ∈ result) :
    traverseLoop m d result (c :: rest) = traverseLoop m d result rest := by
  rw [traverseLoop]
  simp [h]

theorem traverseLoop_cons_some {m : List (String × PNode)} {d : Direction}
    {result : Finset String} {c : String} {rest : List String} {n : PNode}
    (h : c ∉ result) (hl : nmLookup m c = some n) :
    traverseLoop m d result (c :: rest) =
      traverseLoop m d (insert c result) (nodeNeighbors d n ++ rest) := by
  rw [traverseLoop]
  simp only [dif_neg h]
  split
  · rename_i heq
    rw [hl] at heq
    cases heq
  · rename_i n2 heq
    rw [hl] at heq
    injection heq with hn
    subst hn
    rfl

theorem mem_nmKeys_of_nmLookup {m : List (String × PNode)} {c : String}
    {n : PNode} (h : nmLookup m c = some n) : c ∈ nmKeys m := by
  unfold nmLookup at h
  cases hf : m.find? (fun p => p.1 = c) with
  | none => rw [hf] at h; cases h
  | some pr =>
      have hprm : pr ∈ m := List.mem_of_find?_eq_some hf
      have hprc : pr.1 = c := by simpa using List.find?_some hf
      unfold nmKeys
      rw [List.mem_toFinset]
      exact hprc ▸ List.mem_map_of_mem Prod.fst hprm

theorem nmLookup_exists_of_mem_nmKeys {m : List (String × PNode)} {c : String}
    (h : c ∈ nmKeys m) : ∃ n, nmLookup m c = some n := by
  unfold nmKeys at h
  rw [List.mem_toFinset] at h
  unfold nmLookup
  cases hf : m.find? (fun p => p.1 = c) with
  | some pr => exact ⟨pr.2, rfl⟩
  | none =>
      exfalso
      obtain ⟨pr, hpr, hc⟩ := List.mem_map.1 h
      have := List.find?_eq_none.1 hf pr hpr
      simp [hc] at this


/-- Correctness of `_traverse`'s inner loop: under a neighbor-closed node
map, the loop succeeds, its result contains the prior result and every
stack element, stays inside the key set, is closed under edges, and is
sound (every new element is reachable from some stack element). -/
theorem traverseLoop_spec (m : List (String × PNode)) (d : Direction)
    (hclosed : NeighborsClosed m d) :
    ∀ (result : Finset String) (stack : List String),
      (∀ s ∈ stack, s ∈ nmKeys m) →
      (∀ x ∈ result, x ∈ nmKeys m) →
      (∀ x ∈ result, ∀ b, EdgeStep m d x b → b ∈ result ∨ b ∈ stack) →
      ∃ R, traverseLoop m d result stack = .ok R ∧
        result ⊆ R ∧ (∀ s ∈ stack, s ∈ R) ∧
        (∀ x ∈ R, x ∈ nmKeys m) ∧
        (∀ x ∈ R, ∀ b, EdgeStep m d x b → b ∈ R) ∧
        (∀ x ∈ R, x ∈ result ∨ ∃ s ∈ stack, SpecReachable m d s x) := by
  intro result stack
  induction result, stack using traverseLoop.induct m d with
  | case1 result =>
      intro _ hreskeys hinv
      refine ⟨result, traverseLoop_nil m d result, le_refl _, ?_, hreskeys, ?_, ?_⟩
      · intro s hs; cases hs
      · intro x hx b hb
        rcases hinv x hx b hb with h | h
        · exact h
        · cases h
      · intro x hx; exact Or.inl hx
  | case2 result c rest hc ih =>
      intro hstack hreskeys hinv
      obtain ⟨R, hrun, hsub, hstackR, hkeys, hclosedR, hsound⟩ :=
        ih (fun s hs => hstack s (List.mem_cons_of_mem _ hs)) hreskeys
          (by
            intro x hx b hb
            rcases hinv x hx b hb with h | h
            · exact Or.inl h
            · rcases List.mem_cons.1 h with rfl | h
              · exact Or.inl hc
              · exact Or.inr h)
      refine ⟨R, ?_, hsub, ?_, hkeys, hclosedR, ?_⟩
      · rw [traverseLoop_cons_mem hc]; exact hrun
      · intro s hs
        rcases List.mem_cons.1 hs with rfl | hs
        · exact hsub hc
        · exact hstackR s hs
      · intro x hx
        rcases hsound x hx with h | ⟨s, hs, hr⟩
        · exact Or.inl h
        · exact Or.inr ⟨s, List.mem_cons_of_mem _ hs, hr⟩
  | case3 result c rest hc hnone =>
      intro hstack _ _
      exfalso
      obtain ⟨n, hn⟩ :=
        nmLookup_exists_of_mem_nmKeys (hstack c (List.mem_cons_self _ _))
      rw [hnone] at hn
      cases hn
  | case4 result c rest hc n hl ih =>
      intro hstack hreskeys hinv
      have hckeys : c ∈ nmKeys m := mem_nmKeys_of_nmLookup hl
      obtain ⟨R, hrun, hsub, hstackR, hkeys, hclosedR, hsound⟩ :=
        ih
          (by
            intro s hs
            rcases List.mem_append.1 hs with hs | hs
            · exact hclosed c n hl s hs
            · exact hstack s (List.mem_cons_of_mem _ hs))
          (by
            intro x hx
            rcases Finset.mem_insert.1 hx with rfl | hx
            · exact hckeys
            · exact hreskeys x hx)
          (by
            intro x hx b hb
            rcases Finset.mem_insert.1 hx with rfl | hx
            · obtain ⟨n2, hn2, hbmem⟩ := hb
              rw [hl] at hn2
              injection hn2 with hn2
              subst hn2
              exact Or.inr (List.mem_append_left _ hbmem)
            · rcases hinv x hx b hb with h | h
              · exact Or.inl (Finset.mem_insert_of_mem h)
              · rcases List.mem_cons.1 h with rfl | h
                · exact Or.inl (Finset.mem_insert_self _ _)
                · exact Or.inr (List.mem_append_right _ h))
      refine ⟨R, ?_, ?_, ?_, hkeys, hclosedR, ?_⟩
      · rw [traverseLoop_cons_some hc hl]; exact hrun
      · exact fun x hx => hsub (Finset.mem_insert_of_mem hx)
      · intro s hs
        rcases List.mem_cons.1 hs with rfl | hs
        · exact hsub (Finset.mem_insert_self _ _)
        · exact hstackR s (List.mem_append_right _ hs)
      · intro x hx
        rcases hsound x hx with h | ⟨s, hs, hr⟩
        · rcases Finset.mem_insert.1 h with rfl | h
          · exact Or.inr ⟨x, List.mem_cons_self _ _, Relation.ReflTransGen.refl⟩
          · exact Or.inl h
        · rcases List.mem_append.1 hs with hs | hs
          · -- s is a neighbor of c, so x is reachable from c
            exact Or.inr ⟨c, List.mem_cons_self _ _,
              Relation.ReflTransGen.head ⟨n, hl, hs⟩ hr⟩
          · exact Or.inr ⟨s, List.mem_cons_of_mem _ hs, hr⟩

end Pr

namespace Pr

theorem reach_mem_of_closed {m : List (String × PNode)} {d : Direction}
    {R : Finset String}
    (hclosedR : ∀ x ∈ R, ∀ b, EdgeStep m d x b → b ∈ R) {s x : String}
    (hs : s ∈ R) (hr : SpecReachable m d s x) : x ∈ R := by
  induction hr with
  | refl => exact hs
  | tail _ hstep ih => exact hclosedR _ ih _ hstep

theorem traverse_fold_spec (m : List (String × PNode)) (d : Direction)
    (hclosed : NeighborsClosed m d) :
    ∀ (startNodes : List String) (result : Finset String),
      (∀ s ∈ startNodes, s ∈ nmKeys m) →
      (∀ x ∈ result, x ∈ nmKeys m) →
      (∀ x ∈ result, ∀ b, EdgeStep m d x b → b ∈ result) →
      ∃ R,
        startNodes.foldlM
          (fun result startNode => traverseLoop m d result [startNode])
          result = .ok R ∧
        (∀ x ∈ R, x ∈ nmKeys m) ∧
        (∀ x ∈ R, ∀ b, EdgeStep m d x b → b ∈ R) ∧
        (∀ x, x ∈ R ↔ x ∈ result ∨ SpecReachableFrom m d startNodes x) := by
  intro startNodes
  induction startNodes with
  | nil =>
      intro result _ hkeys hclosedRes
      refine ⟨result, rfl, hkeys, hclosedRes, ?_⟩
      intro x
      constructor
      · exact fun hx => Or.inl hx
      · rintro (hx | ⟨s, hs, -⟩)
        · exact hx
        · cases hs
  | cons s ss ih =>
      intro result hstarts hkeys hclosedRes
      obtain ⟨R1, hloop, hsub1, hstack1, hkeys1, hclosed1, hsound1⟩ :=
        traverseLoop_spec m d hclosed result [s]
          (by intro t ht
              rcases List.mem_singleton.1 ht with rfl
              exact hstarts _ (List.mem_cons_self _ _))
          hkeys
          (fun x hx b hb => Or.inl (hclosedRes x hx b hb))
      obtain ⟨R, hfold, hkeysR, hclosedR, hiff⟩ :=
        ih R1 (fun t ht => hstarts t (List.mem_cons_of_mem _ ht)) hkeys1
          hclosed1
      refine ⟨R, ?_, hkeysR, hclosedR, ?_⟩
      · rw [List.foldlM_cons, hloop]
        exact hfold
      · intro x
        rw [hiff x]
        constructor
        · rintro (hx | ⟨t, ht, hr⟩)
          · rcases hsound1 x hx with hx | ⟨t, ht, hr⟩
            · exact Or.inl hx
            · rcases List.mem_singleton.1 ht with rfl
              exact Or.inr ⟨t, List.mem_cons_self _ _, hr⟩
          · exact Or.inr ⟨t, List.mem_cons_of_mem _ ht, hr⟩
        · rintro (hx | ⟨t, ht, hr⟩)
          · exact Or.inl (hsub1 hx)
          · rcases List.mem_cons.1 ht with rfl | ht
            · exact Or.inl
                (reach_mem_of_closed hclosed1
                  (hstack1 t (List.mem_singleton_self _)) hr)
            · exact Or.inr ⟨t, ht, hr⟩

/-- Correctness of `_traverse`: under a neighbor-closed node map and
start nodes drawn from its keys, the traversal succeeds and returns
exactly the set of reachable node ids (reachability is reflexive). -/
theorem traverse_spec (m : List (String × PNode)) (d : Direction)
    (hclosed : NeighborsClosed m d) (startNodes : List String)
    (hstarts : ∀ s ∈ startNodes, s ∈ nmKeys m) :
    ∃ R, traverse m d startNodes = .ok R ∧
      (∀ x ∈ R, x ∈ nmKeys m) ∧
      (∀ x, x ∈ R ↔ SpecReachableFrom m d startNodes x) := by
  obtain ⟨R, hfold, hkeys, _, hiff⟩ :=
    traverse_fold_spec m d hclosed startNodes ∅
      hstarts (by intro x hx; cases hx) (by intro x hx; cases hx)
  refine ⟨R, hfold, hkeys, ?_⟩
  intro x
  rw [hiff x]
  simp

end Pr

namespace Pr

theorem nmLookup_mem {m : List (String × PNode)} {k : String} {n : PNode}
    (h : nmLookup m k = some n) : (k, n) ∈ m := by
  unfold nmLookup at h
  cases hf : m.find? (fun p => p.1 = k) with
  | none => rw [hf] at h; cases h
  | some pr =>
      rw [hf] at h
      have hprm : pr ∈ m := List.mem_of_find?_eq_some hf
      have hprc : pr.1 = k := by simpa using List.find?_some hf
      have hn : pr.2 = n := by simpa using h
      have : (k, n) = pr := by
        cases pr
        simp_all
      rw [this]
      exact hprm

theorem odInsert_entries {m : List (String × PNode)} {k : String} {v : PNode} :
    ∀ pr ∈ odInsert m k v, pr ∈ m ∨ pr = (k, v) := by
  intro pr hpr
  unfold odInsert at hpr
  split at hpr
  · obtain ⟨q, hq, hfq⟩ := List.mem_map.1 hpr
    by_cases hqk : q.1 = k
    · right
      rw [← hfq]
      simp [hqk]
    · left
      rw [← hfq]
      simpa [hqk] using hq
  · rcases List.mem_append.1 hpr with h | h
    · exact Or.inl h
    · exact Or.inr (List.mem_singleton.1 h)

theorem mem_nmKeys_odInsert {m : List (String × PNode)} {k : String}
    {v : PNode} {x : String} :
    x ∈ nmKeys (odInsert m k v) ↔ x ∈ nmKeys m ∨ x = k := by
  unfold nmKeys odInsert
  split
  · rename_i hany
    rw [List.map_map]
    have hmap : m.map (Prod.fst ∘ fun p => if p.1 = k then (k, v) else p) =
        m.map Prod.fst := by
      apply List.map_congr_left
      intro p _
      by_cases hpk : p.1 = k
      · simp [hpk]
      · simp [hpk]
    rw [hmap]
    constructor
    · exact Or.inl
    · rintro (h | rfl)
      · exact h
      · obtain ⟨p, hp, hpk⟩ := List.any_eq_true.1 hany
        rw [List.mem_toFinset, List.mem_map]
        exact ⟨p, hp, by simpa using hpk⟩
  · simp [List.mem_toFinset]

theorem foldl_odInsert_entries (P : String × PNode → Prop) :
    ∀ (nodes : List PipelineOrNode) (m0 : List (String × PNode)),
      (∀ pr ∈ m0, P pr) →
      (∀ pn ∈ nodes, P ((getPipelineNode pn).id, getPipelineNode pn)) →
      ∀ pr ∈ nodes.foldl
        (fun m pn => odInsert m (getPipelineNode pn).id (getPipelineNode pn))
        m0, P pr := by
  intro nodes
  induction nodes with
  | nil => intro m0 h0 _ pr hpr; exact h0 pr hpr
  | cons pn0 rest ih =>
      intro m0 h0 hn pr hpr
      refine ih _ ?_ (fun pn hpn => hn pn (List.mem_cons_of_mem _ hpn)) pr hpr
      intro q hq
      rcases odInsert_entries q hq with h | rfl
      · exact h0 q h
      · exact hn pn0 (List.mem_cons_self _ _)

theorem makeOrderedNodeMap_entries (p : Pipeline) :
    ∀ pr ∈ makeOrderedNodeMap p,
      ∃ pn ∈ p.nodes, pr = ((getPipelineNode pn).id, getPipelineNode pn) := by
  unfold makeOrderedNodeMap
  exact foldl_odInsert_entries _ p.nodes [] (by intro pr hpr; cases hpr)
    (fun pn hpn => ⟨pn, hpn, rfl⟩)

theorem mem_nmKeys_foldl_odInsert :
    ∀ (nodes : List PipelineOrNode) (m0 : List (String × PNode)) (x : String),
      x ∈ nmKeys (nodes.foldl
        (fun m pn => odInsert m (getPipelineNode pn).id (getPipelineNode pn))
        m0) ↔
      x ∈ nmKeys m0 ∨ ∃ pn ∈ nodes, (getPipelineNode pn).id = x := by
  intro nodes
  induction nodes with
  | nil => intro m0 x; simp
  | cons pn0 rest ih =>
      intro m0 x
      rw [List.foldl_cons, ih]
      rw [mem_nmKeys_odInsert]
      constructor
      · rintro ((h | rfl) | ⟨pn, hpn, rfl⟩)
        · exact Or.inl h
        · exact Or.inr ⟨pn0, List.mem_cons_self _ _, rfl⟩
        · exact Or.inr ⟨pn, List.mem_cons_of_mem _ hpn, rfl⟩
      · rintro (h | ⟨pn, hpn, rfl⟩)
        · exact Or.inl (Or.inl h)
        · rcases List.mem_cons.1 hpn with rfl | hpn
          · exact Or.inl (Or.inr rfl)
          · exact Or.inr ⟨pn, hpn, rfl⟩

theorem mem_nmKeys_makeOrderedNodeMap {p : Pipeline} {x : String} :
    x ∈ nmKeys (makeOrderedNodeMap p) ↔
      ∃ pn ∈ p.nodes, (getPipelineNode pn).id = x := by
  unfold makeOrderedNodeMap
  rw [mem_nmKeys_foldl_odInsert]
  simp [nmKeys]

theorem checkTopologicallySortedUp_spec :
    ∀ (nodes : List PipelineOrNode) (visited : List String),
      checkTopologicallySortedUp nodes visited = .ok () →
      ∀ pn ∈ nodes, ∀ u ∈ (getPipelineNode pn).upstreamNodes,
        u ∈ visited ∨ ∃ pn2 ∈ nodes, (getPipelineNode pn2).id = u := by
  intro nodes
  induction nodes with
  | nil => intro visited _ pn hpn; cases hpn
  | cons pn0 rest ih =>
      intro visited h pn hpn u hu
      unfold checkTopologicallySortedUp at h
      dsimp only at h
      split at h
      case isFalse => cases h
      case isTrue hall =>
        rcases List.mem_cons.1 hpn with rfl | hpn
        · have := List.all_eq_true.1 hall u hu
          left
          simpa using this
        · rcases ih (visited ++ [(getPipelineNode pn0).id]) h pn hpn u hu with
            hv | ⟨pn2, hpn2, rfl⟩
          · rcases List.mem_append.1 hv with hv | hv
            · exact Or.inl hv
            · exact Or.inr ⟨pn0, List.mem_cons_self _ _,
                (List.mem_singleton.1 hv).symm⟩
          · exact Or.inr ⟨pn2, List.mem_cons_of_mem _ hpn2, rfl⟩

theorem checkTopologicallySortedDown_spec :
    ∀ (nodes : List PipelineOrNode) (visited : List String),
      checkTopologicallySortedDown nodes visited = .ok () →
      ∀ pn ∈ nodes, ∀ u ∈ (getPipelineNode pn).downstreamNodes,
        u ∈ visited ∨ ∃ pn2 ∈ nodes, (getPipelineNode pn2).id = u := by
  intro nodes
  induction nodes with
  | nil => intro visited _ pn hpn; cases hpn
  | cons pn0 rest ih =>
      intro visited h pn hpn u hu
      unfold checkTopologicallySortedDown at h
      dsimp only at h
      split at h
      case isFalse => cases h
      case isTrue hall =>
        rcases List.mem_cons.1 hpn with rfl | hpn
        · have := List.all_eq_true.1 hall u hu
          left
          simpa using this
        · rcases ih (visited ++ [(getPipelineNode pn0).id]) h pn hpn u hu with
            hv | ⟨pn2, hpn2, rfl⟩
          · rcases List.mem_append.1 hv with hv | hv
            · exact Or.inl hv
            · exact Or.inr ⟨pn0, List.mem_cons_self _ _,
                (List.mem_singleton.1 hv).symm⟩
          · exact Or.inr ⟨pn2, List.mem_cons_of_mem _ hpn2, rfl⟩

theorem neighborsClosed_of_topsorted {p : Pipeline}
    (h : ensureTopologicallySorted p = .ok ()) (d : Direction) :
    NeighborsClosed (makeOrderedNodeMap p) d := by
  have hup : checkTopologicallySortedUp p.nodes [] = .ok () := by
    unfold ensureTopologicallySorted at h
    cases hu : checkTopologicallySortedUp p.nodes [] with
    | error e => rw [hu] at h; simp [Bind.bind, Except.bind] at h
    | ok u => cases u; rfl
  have hdown : checkTopologicallySortedDown p.nodes.reverse [] = .ok () := by
    unfold ensureTopologicallySorted at h
    rw [hup] at h
    simpa [Bind.bind, Except.bind] using h
  intro k n hkn b hb
  have hmem := nmLookup_mem hkn
  obtain ⟨pn, hpn, hpr⟩ := makeOrderedNodeMap_entries p _ hmem
  have hn : n = getPipelineNode pn := congrArg Prod.snd hpr
  rw [mem_nmKeys_makeOrderedNodeMap]
  cases d with
  | upstream =>
      have := checkTopologicallySortedUp_spec p.nodes [] hup pn hpn b
        (by rw [← hn]; exact hb)
      rcases this with hv | ⟨pn2, hpn2, rfl⟩
      · cases hv
      · exact ⟨pn2, hpn2, rfl⟩
  | downstream =>
      have := checkTopologicallySortedDown_spec p.nodes.reverse [] hdown pn
        (List.mem_reverse.2 hpn) b (by rw [← hn]; exact hb)
      rcases this with hv | ⟨pn2, hpn2, rfl⟩
      · cases hv
      · exact ⟨pn2, List.mem_reverse.1 hpn2, rfl⟩

end Pr

namespace Pr

theorem markNode_id (inc excl : Finset String) (cs : ChiefSettings) (b : Bool)
    (n : PNode) : ((markNode inc excl cs b n).1).id = n.id := by
  unfold markNode
  split
  · split
    · split <;> rfl
    · rfl
  · rfl

theorem markNode_run {inc : Finset String} {n : PNode} (excl : Finset String)
    (cs : ChiefSettings) (b : Bool) (h : n.id ∈ inc) :
    ∃ c, ((markNode inc excl cs b n).1).mark = .run c := by
  unfold markNode
  rw [if_pos h]
  split
  · split
    · rename_i cs2 heq
      exact ⟨cs2, rfl⟩
    · exact ⟨none, rfl⟩
  · exact ⟨some cs, rfl⟩

theorem markNode_skip {inc : Finset String} {n : PNode} (excl : Finset String)
    (cs : ChiefSettings) (b : Bool) (h : n.id ∉ inc) :
    ((markNode inc excl cs b n).1).mark = .skip (n.id ∈ excl) := by
  unfold markNode
  rw [if_neg h]

theorem markNodes_fold_mem (inc excl : Finset String) (cs : ChiefSettings) :
    ∀ (nodes : List PipelineOrNode) (acc : List PipelineOrNode × Bool),
      ∀ x ∈ (nodes.foldl
        (fun (acc : List PipelineOrNode × Bool) pn =>
          match pn with
          | .subPipeline => (acc.1 ++ [.subPipeline], acc.2)
          | .pipelineNode n =>
              let r := markNode inc excl cs acc.2 n
              (acc.1 ++ [.pipelineNode r.1], r.2))
        acc).1,
        x ∈ acc.1 ∨ x = .subPipeline ∨
          ∃ n b, .pipelineNode n ∈ nodes ∧
            x = .pipelineNode (markNode inc excl cs b n).1 := by
  intro nodes
  induction nodes with
  | nil => intro acc x hx; exact Or.inl hx
  | cons pn rest ih =>
      intro acc x hx
      rw [List.foldl_cons] at hx
      cases pn with
      | subPipeline =>
          rcases ih _ x hx with h | h | ⟨n, b, hn, hxe⟩
          · rcases List.mem_append.1 h with h | h
            · exact Or.inl h
            · exact Or.inr (Or.inl (List.mem_singleton.1 h))
          · exact Or.inr (Or.inl h)
          · exact Or.inr (Or.inr ⟨n, b, List.mem_cons_of_mem _ hn, hxe⟩)
      | pipelineNode n0 =>
          rcases ih _ x hx with h | h | ⟨n, b, hn, hxe⟩
          · rcases List.mem_append.1 h with h | h
            · exact Or.inl h
            · exact Or.inr (Or.inr ⟨n0, acc.2, List.mem_cons_self _ _,
                List.mem_singleton.1 h⟩)
          · exact Or.inr (Or.inl h)
          · exact Or.inr (Or.inr ⟨n, b, List.mem_cons_of_mem _ hn, hxe⟩)

theorem markNodesAndNominateChief_mem {p : Pipeline} {inc excl : Finset String}
    {cs : ChiefSettings} :
    ∀ x ∈ (markNodesAndNominateChief p inc excl cs).nodes,
      x = .subPipeline ∨
        ∃ n b, .pipelineNode n ∈ p.nodes ∧
          x = .pipelineNode (markNode inc excl cs b n).1 := by
  intro x hx
  unfold markNodesAndNominateChief at hx
  dsimp only at hx
  rcases markNodes_fold_mem inc excl cs p.nodes ([], false) x hx with h | h
  · cases h
  · exact h

theorem fixNodes_fold_fst (keep : List String) :
    ∀ (l : List (String × PNode)) (acc : List (String × PNode) × Finset String),
      ((l.foldl
        (fun (acc : List (String × PNode) × Finset String) p =>
          let n1 := removeDanglingDownstreamNodes p.2 keep
          let fixed := handleMissingInputs n1 keep
          (acc.1 ++ [(p.1, fixed.1)], acc.2 ∪ fixed.2))
        acc).1).map Prod.fst = acc.1.map Prod.fst ++ l.map Prod.fst := by
  intro l
  induction l with
  | nil => intro acc; simp
  | cons p rest ih =>
      intro acc
      rw [List.foldl_cons, ih]
      simp

theorem fixNodes_fst (m : List (String × PNode)) :
    ((fixNodes m).1).map Prod.fst = m.map Prod.fst := by
  unfold fixNodes
  rw [fixNodes_fold_fst]
  simp

theorem nmKeys_fixNodes (m : List (String × PNode)) :
    nmKeys (fixNodes m).1 = nmKeys m := by
  unfold nmKeys
  rw [fixNodes_fst]

theorem mem_nmKeys_filter {m : List (String × PNode)} {keep : Finset String}
    {x : String} :
    x ∈ nmKeys (m.filter (fun p => p.1 ∈ keep)) ↔
      x ∈ nmKeys m ∧ x ∈ keep := by
  unfold nmKeys
  simp only [List.mem_toFinset, List.mem_map, List.mem_filter]
  constructor
  · rintro ⟨pr, ⟨hpr, hkeep⟩, rfl⟩
    exact ⟨⟨pr, hpr, rfl⟩, by simpa using hkeep⟩
  · rintro ⟨⟨pr, hpr, rfl⟩, hkeep⟩
    exact ⟨pr, ⟨hpr, by simpa using hkeep⟩, rfl⟩

theorem filterNodeMap_ok_elim {m : List (String × PNode)}
    {fromNodeIds toNodeIds : List String} {nm2 : List (String × PNode)}
    (h : filterNodeMap m fromNodeIds toNodeIds = .ok nm2) :
    ∃ anc desc, traverse m .upstream toNodeIds = .ok anc ∧
      traverse m .downstream fromNodeIds = .ok desc ∧
      nm2 = m.filter (fun p => p.1 ∈ anc ∩ desc) := by
  unfold filterNodeMap at h
  cases ha : traverse m .upstream toNodeIds with
  | error e => rw [ha] at h; simp [Bind.bind, Except.bind] at h
  | ok anc =>
      rw [ha] at h
      cases hd : traverse m .downstream fromNodeIds with
      | error e => rw [hd] at h; simp [Bind.bind, Except.bind] at h
      | ok desc =>
          rw [hd] at h
          simp only [Bind.bind, Except.bind, pure, Except.pure] at h
          exact ⟨anc, desc, rfl, rfl, (Except.ok.inj h).symm⟩

theorem markPipeline_ok_elim {p : Pipeline} {f t : String → Bool}
    {cs : ChiefSettings} {p2 : Pipeline}
    (h : markPipeline p f t cs = .ok p2) :
    ensureTopologicallySorted p = .ok () ∧
    ∃ nm2,
      filterNodeMap (makeOrderedNodeMap p)
        (((makeOrderedNodeMap p).map Prod.fst).filter f)
        (((makeOrderedNodeMap p).map Prod.fst).filter t) = .ok nm2 ∧
      p2 = markNodesAndNominateChief p (nmKeys (fixNodes nm2).1)
        (fixNodes nm2).2 cs := by
  unfold markPipeline at h
  cases h1 : ensureSyncPipeline p with
  | error e => rw [h1] at h; simp [Bind.bind, Except.bind] at h
  | ok u1 =>
  cases u1
  rw [h1] at h
  cases h2 : ensureNoSubpipelineNodes p with
  | error e => rw [h2] at h; simp [Bind.bind, Except.bind] at h
  | ok u2 =>
  cases u2
  rw [h2] at h
  cases h3 : ensureTopologicallySorted p with
  | error e => rw [h3] at h; simp [Bind.bind, Except.bind] at h
  | ok u3 =>
  cases u3
  rw [h3] at h
  simp only [Bind.bind, Except.bind] at h
  cases h4 : filterNodeMap (makeOrderedNodeMap p)
      (((makeOrderedNodeMap p).map Prod.fst).filter f)
      (((makeOrderedNodeMap p).map Prod.fst).filter t) with
  | error e => rw [h4] at h; simp at h
  | ok nm2 =>
      rw [h4] at h
      simp only [pure, Except.pure] at h
      exact ⟨rfl, nm2, rfl, (Except.ok.inj h).symm⟩

end Pr

/-- C5: for every valid SYNC pipeline and predicates, the set of nodes
marked `run` by `mark_pipeline` equals the intersection of the nodes
downstream-reachable from the nodes satisfying `from_nodes` with the nodes
upstream-reachable from the nodes satisfying `to_nodes` (reachability is
reflexive); all other nodes are marked `skip`. -/
theorem c5_mark_pipeline_run_set (p : Pr.Pipeline)
    (fromPred toPred : String → Bool) (cs : Pr.ChiefSettings)
    (p2 : Pr.Pipeline) (h : Pr.markPipeline p fromPred toPred cs = .ok p2) :
    ∀ pn ∈ p2.nodes, ∀ n2, pn = .pipelineNode n2 →
      (Pr.isRunMark n2.mark = true ↔
        (Pr.SpecReachableFrom (Pr.makeOrderedNodeMap p) .downstream
            (((Pr.makeOrderedNodeMap p).map Prod.fst).filter fromPred) n2.id ∧
         Pr.SpecReachableFrom (Pr.makeOrderedNodeMap p) .upstream
            (((Pr.makeOrderedNodeMap p).map Prod.fst).filter toPred) n2.id))
      ∧ (Pr.isRunMark n2.mark = false → ∃ b, n2.mark = .skip b) := by
  obtain ⟨htopo, nm2, hfilter, hp2⟩ := Pr.markPipeline_ok_elim h
  obtain ⟨anc, desc, hanc, hdesc, hnm2⟩ := Pr.filterNodeMap_ok_elim hfilter
  have hclosedu := Pr.neighborsClosed_of_topsorted htopo .upstream
  have hclosedd := Pr.neighborsClosed_of_topsorted htopo .downstream
  have hto : ∀ s ∈ ((Pr.makeOrderedNodeMap p).map Prod.fst).filter toPred,
      s ∈ Pr.nmKeys (Pr.makeOrderedNodeMap p) := fun s hs =>
    List.mem_toFinset.2 (List.mem_of_mem_filter hs)
  have hfrom : ∀ s ∈ ((Pr.makeOrderedNodeMap p).map Prod.fst).filter fromPred,
      s ∈ Pr.nmKeys (Pr.makeOrderedNodeMap p) := fun s hs =>
    List.mem_toFinset.2 (List.mem_of_mem_filter hs)
  obtain ⟨Ru, hRu, hRukeys, hRuiff⟩ :=
    Pr.traverse_spec (Pr.makeOrderedNodeMap p) .upstream hclosedu _ hto
  obtain ⟨Rd, hRd, hRdkeys, hRdiff⟩ :=
    Pr.traverse_spec (Pr.makeOrderedNodeMap p) .downstream hclosedd _ hfrom
  rw [hanc] at hRu
  rw [hdesc] at hRd
  have hancRu : anc = Ru := Except.ok.inj hRu
  have hdescRd : desc = Rd := Except.ok.inj hRd
  subst hancRu
  subst hdescRd
  -- membership in the include set
  have hinc : ∀ x, (x ∈ Pr.nmKeys (Pr.fixNodes nm2).1) ↔
      (Pr.SpecReachableFrom (Pr.makeOrderedNodeMap p) .downstream
          (((Pr.makeOrderedNodeMap p).map Prod.fst).filter fromPred) x ∧
       Pr.SpecReachableFrom (Pr.makeOrderedNodeMap p) .upstream
          (((Pr.makeOrderedNodeMap p).map Prod.fst).filter toPred) x) := by
    intro x
    rw [Pr.nmKeys_fixNodes, hnm2, Pr.mem_nmKeys_filter]
    constructor
    · rintro ⟨-, hx⟩
      rw [Finset.mem_inter] at hx
      exact ⟨(hRdiff x).1 hx.2, (hRuiff x).1 hx.1⟩
    · rintro ⟨hd, hu⟩
      have hxu : x ∈ anc := (hRuiff x).2 hu
      have hxd : x ∈ desc := (hRdiff x).2 hd
      exact ⟨hRukeys x hxu, Finset.mem_inter.2 ⟨hxu, hxd⟩⟩
  intro pn hpn n2 hn2
  subst hn2
  subst hp2
  rcases Pr.markNodesAndNominateChief_mem _ hpn with hsub | ⟨n, b, hmem, heq⟩
  · cases hsub
  · have hn2n : n2 = (Pr.markNode (Pr.nmKeys (Pr.fixNodes nm2).1)
        (Pr.fixNodes nm2).2 cs b n).1 := by
      injection heq
    have hid : n2.id = n.id := by rw [hn2n]; exact Pr.markNode_id _ _ _ _ _
    constructor
    · constructor
      · intro hrun
        rw [← hinc n2.id]
        rw [hid]
        by_contra hnotin
        rw [hn2n, Pr.markNode_skip _ _ _ hnotin] at hrun
        simp [Pr.isRunMark] at hrun
      · intro hreach
        rw [← hinc n2.id, hid] at hreach
        obtain ⟨c, hc⟩ := Pr.markNode_run (Pr.fixNodes nm2).2 cs b hreach
        rw [hn2n, hc]
        rfl
    · intro hnotrun
      by_cases hin : n.id ∈ Pr.nmKeys (Pr.fixNodes nm2).1
      · obtain ⟨c, hc⟩ := Pr.markNode_run (Pr.fixNodes nm2).2 cs b hin
        rw [hn2n, hc] at hnotrun
        simp [Pr.isRunMark] at hnotrun
      · exact ⟨_, by rw [hn2n, Pr.markNode_skip _ _ _ hin]⟩

namespace Pr

theorem samplePipeline_traverse (d : Direction) :
    traverse [("a", samplePNode)] d ["a"] = .ok {"a"} := by
  unfold traverse
  rw [List.foldlM_cons]
  rw [traverseLoop_cons_some (by decide)
    (show nmLookup [("a", samplePNode)] "a" = some samplePNode from rfl)]
  cases d
  · rw [show nodeNeighbors Direction.upstream samplePNode ++ ([] : List String) = []
      from rfl]
    rw [traverseLoop_nil]
    rfl
  · rw [show nodeNeighbors Direction.downstream samplePNode ++ ([] : List String) = []
      from rfl]
    rw [traverseLoop_nil]
    rfl

theorem samplePipeline_filterNodeMap :
    filterNodeMap [("a", samplePNode)] ["a"] ["a"] = .ok [("a", samplePNode)] := by
  unfold filterNodeMap
  rw [samplePipeline_traverse, samplePipeline_traverse]
  simp only [Bind.bind, Except.bind]
  rfl

theorem samplePipeline_mark :
    markPipeline samplePipeline (fun _ => true) (fun _ => true)
        defaultChiefSettings =
      .ok ⟨[.pipelineNode ⟨"a", [], [], [], .run (some defaultChiefSettings)⟩],
        .sync, "p", some "r2"⟩ := by
  unfold markPipeline
  rw [show ensureSyncPipeline samplePipeline = .ok () from rfl]
  rw [show ensureNoSubpipelineNodes samplePipeline = .ok () from rfl]
  rw [show ensureTopologicallySorted samplePipeline = .ok () from rfl]
  simp only [Bind.bind, Except.bind]
  rw [show ((makeOrderedNodeMap samplePipeline).map Prod.fst).filter
    (fun _ => true) = ["a"] from rfl]
  rw [show makeOrderedNodeMap samplePipeline = [("a", samplePNode)] from rfl]
  rw [samplePipeline_filterNodeMap]
  rfl

end Pr

/-- Witness for C5 at a concrete one-node pipeline. -/
theorem c5_mark_pipeline_run_set_witness :
    (Pr.isRunMark (Pr.NodeMark.run (some Pr.defaultChiefSettings)) = true ↔
      (Pr.SpecReachableFrom (Pr.makeOrderedNodeMap Pr.samplePipeline)
          .downstream
          (((Pr.makeOrderedNodeMap Pr.samplePipeline).map Prod.fst).filter
            (fun _ => true)) "a" ∧
       Pr.SpecReachableFrom (Pr.makeOrderedNodeMap Pr.samplePipeline)
          .upstream
          (((Pr.makeOrderedNodeMap Pr.samplePipeline).map Prod.fst).filter
            (fun _ => true)) "a"))
    ∧ (Pr.isRunMark (Pr.NodeMark.run (some Pr.defaultChiefSettings)) = false →
        ∃ b, Pr.NodeMark.run (some Pr.defaultChiefSettings)
          = Pr.NodeMark.skip b) :=
  c5_mark_pipeline_run_set Pr.samplePipeline (fun _ => true) (fun _ => true)
    Pr.defaultChiefSettings _ Pr.samplePipeline_mark
    (.pipelineNode ⟨"a", [], [], [], .run (some Pr.defaultChiefSettings)⟩)
    (by simp)
    ⟨"a", [], [], [], .run (some Pr.defaultChiefSettings)⟩ rfl

namespace Pr

theorem markNodes_foldl_eq_go (inc excl : Finset String) (cs : ChiefSettings) :
    ∀ (nodes : List PipelineOrNode) (acc : List PipelineOrNode × Bool),
      (nodes.foldl
        (fun (acc : List PipelineOrNode × Bool) pn =>
          match pn with
          | .subPipeline => (acc.1 ++ [.subPipeline], acc.2)
          | .pipelineNode n =>
              let r := markNode inc excl cs acc.2 n
              (acc.1 ++ [.pipelineNode r.1], r.2))
        acc).1 = acc.1 ++ markNodesGo inc excl cs nodes acc.2 := by
  intro nodes
  induction nodes with
  | nil => intro acc; simp [markNodesGo]
  | cons pn rest ih =>
      intro acc
      cases pn with
      | subPipeline =>
          rw [List.foldl_cons]
          rw [ih]
          simp [markNodesGo]
      | pipelineNode n =>
          rw [List.foldl_cons]
          rw [ih]
          simp [markNodesGo]

theorem markNodesAndNominateChief_nodes (p : Pipeline)
    (inc excl : Finset String) (cs : ChiefSettings) :
    (markNodesAndNominateChief p inc excl cs).nodes =
      markNodesGo inc excl cs p.nodes false := by
  unfold markNodesAndNominateChief
  dsimp only
  rw [markNodes_foldl_eq_go]
  simp

theorem markNode_chief_of_false {inc : Finset String} {n : PNode}
    (excl : Finset String) (cs : ChiefSettings) (h : n.id ∈ inc) :
    (markNode inc excl cs false n).1.mark = .run (some cs) ∧
    (markNode inc excl cs false n).2 = true := by
  unfold markNode
  rw [if_pos h]
  exact ⟨rfl, rfl⟩

theorem markNode_flag_notinc {inc : Finset String} {n : PNode}
    (excl : Finset String) (cs : ChiefSettings) (b : Bool) (h : n.id ∉ inc) :
    (markNode inc excl cs b n).2 = b := by
  unfold markNode
  rw [if_neg h]

theorem markNode_inc_true {inc : Finset String} {n : PNode}
    (excl : Finset String) (cs : ChiefSettings) (h : n.id ∈ inc)
    (hclean : ∀ c, n.mark ≠ .run (some c)) :
    hasChiefMark (markNode inc excl cs true n).1.mark = false ∧
    (markNode inc excl cs true n).2 = true := by
  unfold markNode
  rw [if_pos h]
  simp only [if_true]
  cases hm : n.mark with
  | run cs2 =>
      cases cs2 with
      | none => exact ⟨rfl, trivial⟩
      | some c => exact absurd hm (hclean c)
  | unset => exact ⟨rfl, trivial⟩
  | skip b2 => exact ⟨rfl, trivial⟩

theorem hasChiefMark_skip_false {b : Bool} : hasChiefMark (.skip b) = false := rfl

theorem go_true_no_chief (inc excl : Finset String) (cs : ChiefSettings) :
    ∀ nodes : List PipelineOrNode,
      (∀ n, .pipelineNode n ∈ nodes → ∀ c, n.mark ≠ .run (some c)) →
      ∀ x ∈ markNodesGo inc excl cs nodes true, nodeHasChief x = false := by
  intro nodes
  induction nodes with
  | nil => intro _ x hx; cases hx
  | cons pn rest ih =>
      intro hclean x hx
      cases pn with
      | subPipeline =>
          rw [markNodesGo] at hx
          rcases List.mem_cons.1 hx with rfl | hx
          · rfl
          · exact ih (fun n hn => hclean n (List.mem_cons_of_mem _ hn)) x hx
      | pipelineNode n0 =>
          rw [markNodesGo] at hx
          by_cases hin : n0.id ∈ inc
          · obtain ⟨hchief, hflag⟩ := markNode_inc_true excl cs hin
              (hclean n0 (List.mem_cons_self _ _))
            rw [hflag] at hx
            rcases List.mem_cons.1 hx with rfl | hx
            · exact hchief
            · exact ih (fun n hn => hclean n (List.mem_cons_of_mem _ hn)) x hx
          · rw [markNode_flag_notinc excl cs true hin] at hx
            rcases List.mem_cons.1 hx with rfl | hx
            · show hasChiefMark (markNode inc excl cs true n0).1.mark = false
              rw [markNode_skip excl cs true hin]
              rfl
            · exact ih (fun n hn => hclean n (List.mem_cons_of_mem _ hn)) x hx

theorem go_false_decomp (inc excl : Finset String) (cs : ChiefSettings) :
    ∀ nodes : List PipelineOrNode,
      (∀ n, .pipelineNode n ∈ nodes → ∀ c, n.mark ≠ .run (some c)) →
      (∃ x ∈ markNodesGo inc excl cs nodes false,
        isRunMark (getPipelineNode x).mark = true) →
      ∃ pre n post,
        markNodesGo inc excl cs nodes false = pre ++ .pipelineNode n :: post ∧
        n.mark = .run (some cs) ∧
        (∀ y ∈ pre, isRunMark (getPipelineNode y).mark = false) ∧
        (∀ y ∈ post, nodeHasChief y = false) := by
  intro nodes
  induction nodes with
  | nil =>
      rintro _ ⟨x, hx, -⟩
      rw [markNodesGo] at hx
      cases hx
  | cons pn rest ih =>
      intro hclean hex
      cases pn with
      | subPipeline =>
          rw [markNodesGo] at hex ⊢
          obtain ⟨x, hx, hrun⟩ := hex
          rcases List.mem_cons.1 hx with rfl | hx
          · cases hrun
          · obtain ⟨pre, n, post, heq, hmark, hpre, hpost⟩ :=
              ih (fun n hn => hclean n (List.mem_cons_of_mem _ hn)) ⟨x, hx, hrun⟩
            refine ⟨.subPipeline :: pre, n, post, ?_, hmark, ?_, hpost⟩
            · rw [heq]; rfl
            · intro y hy
              rcases List.mem_cons.1 hy with rfl | hy
              · rfl
              · exact hpre y hy
      | pipelineNode n0 =>
          rw [markNodesGo] at hex ⊢
          by_cases hin : n0.id ∈ inc
          · obtain ⟨hchief, hflag⟩ := markNode_chief_of_false excl cs hin
            refine ⟨[], (markNode inc excl cs false n0).1,
              markNodesGo inc excl cs rest (markNode inc excl cs false n0).2,
              rfl, hchief, ?_, ?_⟩
            · intro y hy; cases hy
            · rw [hflag]
              exact go_true_no_chief inc excl cs rest
                (fun n hn => hclean n (List.mem_cons_of_mem _ hn))
          · obtain ⟨x, hx, hrun⟩ := hex
            rw [markNode_flag_notinc excl cs false hin] at hx
            rcases List.mem_cons.1 hx with rfl | hx
            · rw [show getPipelineNode
                  (.pipelineNode (markNode inc excl cs false n0).1) =
                  (markNode inc excl cs false n0).1 from rfl,
                markNode_skip excl cs false hin] at hrun
              cases hrun
            · obtain ⟨pre, n, post, heq, hmark, hpre, hpost⟩ :=
                ih (fun n hn => hclean n (List.mem_cons_of_mem _ hn))
                  ⟨x, hx, hrun⟩
              refine ⟨.pipelineNode (markNode inc excl cs false n0).1 :: pre,
                n, post, ?_, hmark, ?_, hpost⟩
              · rw [markNode_flag_notinc excl cs false hin, heq]
                rfl
              · intro y hy
                rcases List.mem_cons.1 hy with rfl | hy
                · show isRunMark (getPipelineNode
                    (.pipelineNode (markNode inc excl cs false n0).1)).mark = false
                  rw [show getPipelineNode
                      (.pipelineNode (markNode inc excl cs false n0).1) =
                      (markNode inc excl cs false n0).1 from rfl,
                    markNode_skip excl cs false hin]
                  rfl
                · exact hpre y hy

end Pr

namespace Pr

theorem isRunMark_of_hasChiefMark {mk : NodeMark} (h : hasChiefMark mk = true) :
    isRunMark mk = true := by
  cases mk with
  | run cs => rfl
  | unset => cases h
  | skip b => cases h

end Pr

/-- C6: after `mark_pipeline` on a (previously unmarked) pipeline whose
`to_keep` set is non-empty (equivalently, some node of the result is
marked `run`), exactly one node of the marked pipeline carries
`chief_settings` in its `execution_options.run` — namely the supplied
chief settings — and it is the first `to_keep` (run-marked) node in the
pipeline's node sequence: every node before it is not run-marked. -/
theorem c6_chief_uniqueness (p : Pr.Pipeline) (fromPred toPred : String → Bool)
    (cs : Pr.ChiefSettings) (p2 : Pr.Pipeline)
    (h : Pr.markPipeline p fromPred toPred cs = .ok p2)
    (hclean : ∀ n, .pipelineNode n ∈ p.nodes → ∀ c, n.mark ≠ .run (some c))
    (hne : ∃ x ∈ p2.nodes, Pr.isRunMark (Pr.getPipelineNode x).mark = true) :
    p2.nodes.countP Pr.nodeHasChief = 1 ∧
    ∃ pre n post, p2.nodes = pre ++ .pipelineNode n :: post ∧
      n.mark = .run (some cs) ∧
      ∀ y ∈ pre, Pr.isRunMark (Pr.getPipelineNode y).mark = false := by
  obtain ⟨-, nm2, -, hp2⟩ := Pr.markPipeline_ok_elim h
  have hnodes : p2.nodes =
      Pr.markNodesGo (Pr.nmKeys (Pr.fixNodes nm2).1) (Pr.fixNodes nm2).2 cs
        p.nodes false := by
    rw [hp2, Pr.markNodesAndNominateChief_nodes]
  rw [hnodes] at hne
  obtain ⟨pre, n, post, heq, hmark, hpre, hpost⟩ :=
    Pr.go_false_decomp _ _ cs p.nodes hclean hne
  constructor
  · rw [hnodes, heq, List.countP_append, List.countP_cons]
    have hpre0 : pre.countP Pr.nodeHasChief = 0 := by
      rw [List.countP_eq_zero]
      intro y hy
      intro hcy
      have : Pr.isRunMark (Pr.getPipelineNode y).mark = true := by
        cases y with
        | pipelineNode ny => exact Pr.isRunMark_of_hasChiefMark hcy
        | subPipeline => cases hcy
      rw [hpre y hy] at this
      cases this
    have hpost0 : post.countP Pr.nodeHasChief = 0 := by
      rw [List.countP_eq_zero]
      intro y hy hcy
      rw [hpost y hy] at hcy
      cases hcy
    rw [hpre0, hpost0]
    have : Pr.nodeHasChief (.pipelineNode n) = true := by
      show Pr.hasChiefMark n.mark = true
      rw [hmark]
      rfl
    rw [this]
    decide
  · exact ⟨pre, n, post, by rw [hnodes, heq], hmark, hpre⟩

/-- Witness for C6 at a concrete one-node pipeline. -/
theorem c6_chief_uniqueness_witness :
    (Pr.Pipeline.mk
        [.pipelineNode ⟨"a", [], [], [], .run (some Pr.defaultChiefSettings)⟩]
        .sync "p" (some "r2")).nodes.countP Pr.nodeHasChief = 1 ∧
    ∃ pre n post,
      (Pr.Pipeline.mk
        [.pipelineNode ⟨"a", [], [], [], .run (some Pr.defaultChiefSettings)⟩]
        .sync "p" (some "r2")).nodes = pre ++ .pipelineNode n :: post ∧
      n.mark = .run (some Pr.defaultChiefSettings) ∧
      ∀ y ∈ pre, Pr.isRunMark (Pr.getPipelineNode y).mark = false :=
  c6_chief_uniqueness Pr.samplePipeline (fun _ => true) (fun _ => true)
    Pr.defaultChiefSettings _ Pr.samplePipeline_mark
    (by
      intro n hn c
      have hh := List.mem_singleton.1 hn
      have hn2 : n = Pr.samplePNode := by injection hh
      rw [hn2]
      simp [Pr.samplePNode])
    ⟨.pipelineNode ⟨"a", [], [], [], .run (some Pr.defaultChiefSettings)⟩,
      List.mem_singleton_self _, rfl⟩

namespace Pr

theorem removeDangling_upstream (n : PNode) (keep : List String) :
    (removeDanglingDownstreamNodes n keep).upstreamNodes = n.upstreamNodes := by
  unfold removeDanglingDownstreamNodes
  dsimp only
  split <;> rfl

theorem removeDangling_channels (n : PNode) (keep : List String) :
    (removeDanglingDownstreamNodes n keep).channelProducerIds =
      n.channelProducerIds := by
  unfold removeDanglingDownstreamNodes
  dsimp only
  split <;> rfl

theorem handleMissingInputs_upstream (n : PNode) (keep : List String) :
    ((handleMissingInputs n keep).1).upstreamNodes =
      n.upstreamNodes.filter (keep.contains ·) := by
  unfold handleMissingInputs
  dsimp only
  split
  · rename_i hempty
    have hnil : n.upstreamNodes.filter (fun u => ! keep.contains u) = [] :=
      List.isEmpty_iff.1 hempty
    have hall : ∀ u ∈ n.upstreamNodes, keep.contains u = true := by
      intro u hu
      by_contra hcu
      have : u ∈ n.upstreamNodes.filter (fun u => ! keep.contains u) :=
        List.mem_filter.2 ⟨hu, by simpa using hcu⟩
      rw [hnil] at this
      cases this
    exact (List.filter_eq_self.2 hall).symm
  · rfl

theorem handleMissingInputs_snd (n : PNode) (keep : List String) (u : String) :
    u ∈ (handleMissingInputs n keep).2 ↔
      u ∈ n.channelProducerIds ∧ u ∈ n.upstreamNodes ∧
        ¬ keep.contains u = true := by
  unfold handleMissingInputs
  dsimp only
  split
  · rename_i hempty
    have hnil : n.upstreamNodes.filter (fun u => ! keep.contains u) = [] :=
      List.isEmpty_iff.1 hempty
    simp only [Finset.not_mem_empty, false_iff]
    rintro ⟨-, hup, hcu⟩
    have : u ∈ n.upstreamNodes.filter (fun u => ! keep.contains u) :=
      List.mem_filter.2 ⟨hup, by simpa using hcu⟩
    rw [hnil] at this
    cases this
  · rw [List.mem_toFinset, List.mem_filter]
    constructor
    · rintro ⟨hch, hrem⟩
      have := List.mem_filter.1 (List.mem_of_elem_eq_true hrem)
      exact ⟨hch, this.1, by simpa using this.2⟩
    · rintro ⟨hch, hup, hcu⟩
      refine ⟨hch, List.elem_eq_true_of_mem ?_⟩
      exact List.mem_filter.2 ⟨hup, by simpa using hcu⟩

theorem foldl_union_init (g : (String × PNode) → Finset String) :
    ∀ (l : List (String × PNode)) (s1 s2 : Finset String),
      l.foldl (fun s pr => s ∪ g pr) (s1 ∪ s2) =
        s1 ∪ l.foldl (fun s pr => s ∪ g pr) s2 := by
  intro l
  induction l with
  | nil => intro s1 s2; rfl
  | cons q qs ihq =>
      intro s1 s2
      rw [List.foldl_cons, List.foldl_cons, Finset.union_assoc, ihq]

theorem fixNodes_fold_eq (keep : List String) :
    ∀ (l : List (String × PNode)) (acc : List (String × PNode) × Finset String),
      (l.foldl
        (fun (acc : List (String × PNode) × Finset String) p =>
          let n1 := removeDanglingDownstreamNodes p.2 keep
          let fixed := handleMissingInputs n1 keep
          (acc.1 ++ [(p.1, fixed.1)], acc.2 ∪ fixed.2))
        acc) =
      (acc.1 ++ l.map (fun p =>
          (p.1, (handleMissingInputs
            (removeDanglingDownstreamNodes p.2 keep) keep).1)),
        acc.2 ∪ l.foldl (fun s p =>
          s ∪ (handleMissingInputs
            (removeDanglingDownstreamNodes p.2 keep) keep).2) ∅) := by
  intro l
  induction l with
  | nil => intro acc; simp
  | cons p rest ih =>
      intro acc
      rw [List.foldl_cons, ih, List.foldl_cons]
      have hsets := foldl_union_init (fun pr =>
        (handleMissingInputs
          (removeDanglingDownstreamNodes pr.2 keep) keep).2) rest
      rw [Prod.ext_iff]
      dsimp only
      constructor
      · simp
      · rw [Finset.empty_union]
        rw [← Finset.union_empty ((handleMissingInputs
          (removeDanglingDownstreamNodes p.2 keep) keep).2)]
        rw [hsets]
        rw [Finset.union_empty]
        rw [Finset.union_assoc]

theorem fixNodes_eq (m : List (String × PNode)) :
    fixNodes m =
      (m.map (fun p =>
          (p.1, (handleMissingInputs
            (removeDanglingDownstreamNodes p.2 (m.map Prod.fst))
            (m.map Prod.fst)).1)),
       m.foldl (fun s p =>
          s ∪ (handleMissingInputs
            (removeDanglingDownstreamNodes p.2 (m.map Prod.fst))
            (m.map Prod.fst)).2) ∅) := by
  unfold fixNodes
  rw [fixNodes_fold_eq]
  simp

theorem mem_fixNodes_snd (m : List (String × PNode)) (u : String) :
    u ∈ (fixNodes m).2 ↔
      ∃ pr ∈ m, u ∈ pr.2.upstreamNodes ∧
        ¬ (m.map Prod.fst).contains u = true ∧
        u ∈ pr.2.channelProducerIds := by
  rw [fixNodes_eq]
  dsimp only
  have hfold : ∀ (l : List (String × PNode)) (s : Finset String),
      u ∈ l.foldl (fun s p =>
        s ∪ (handleMissingInputs
          (removeDanglingDownstreamNodes p.2 (m.map Prod.fst))
          (m.map Prod.fst)).2) s ↔
      u ∈ s ∨ ∃ pr ∈ l, u ∈ (handleMissingInputs
        (removeDanglingDownstreamNodes pr.2 (m.map Prod.fst))
        (m.map Prod.fst)).2 := by
    intro l
    induction l with
    | nil => intro s; simp
    | cons p rest ih =>
        intro s
        rw [List.foldl_cons, ih]
        rw [Finset.mem_union]
        constructor
        · rintro ((h | h) | ⟨pr, hpr, hu⟩)
          · exact Or.inl h
          · exact Or.inr ⟨p, List.mem_cons_self _ _, h⟩
          · exact Or.inr ⟨pr, List.mem_cons_of_mem _ hpr, hu⟩
        · rintro (h | ⟨pr, hpr, hu⟩)
          · exact Or.inl (Or.inl h)
          · rcases List.mem_cons.1 hpr with rfl | hpr
            · exact Or.inl (Or.inr hu)
            · exact Or.inr ⟨pr, hpr, hu⟩
  rw [hfold]
  simp only [Finset.not_mem_empty, false_or]
  constructor
  · rintro ⟨pr, hpr, hu⟩
    rw [handleMissingInputs_snd] at hu
    rw [removeDangling_channels, removeDangling_upstream] at hu
    exact ⟨pr, hpr, hu.2.1, hu.2.2, hu.1⟩
  · rintro ⟨pr, hpr, hup, hcu, hch⟩
    refine ⟨pr, hpr, ?_⟩
    rw [handleMissingInputs_snd, removeDangling_channels,
      removeDangling_upstream]
    exact ⟨hch, hup, hcu⟩

end Pr

/-- C7 counterexample: in the one-node map `c7Map`, the kept node `b` has
the upstream reference `a` pointing outside the map's key set; `_fix_nodes`
drops it from `b`'s upstream list, but — because `a` backs no input
channel of `b` — it is *not* recorded in the returned
`excluded_direct_dependencies` set, refuting the claim that each removed
upstream reference appears there. -/
theorem c7_excluded_deps_counterexample :
    "a" ∈ Pr.c7Node.upstreamNodes ∧
    ("a" ∈ Pr.c7Map.map Prod.fst → False) ∧
    (Pr.fixNodes Pr.c7Map).1 = [("b", ⟨"b", [], [], [], .unset⟩)] ∧
    ("a" ∈ (Pr.fixNodes Pr.c7Map).2 → False) := by
  refine ⟨by decide, by decide, ?_, by decide⟩
  decide

/-- C7 (amended): for every node map, (i) every upstream reference of a
kept node pointing outside the key set is dropped from its upstream list
by the node-fixing step; (ii) the excluded-direct-dependencies set it
returns holds exactly those dropped upstream references that appear among
the node's input-channel producer ids; and (iii) in a marked pipeline,
skipped nodes get `skip.child_in_partial_run = true` exactly when their id
is in that set. -/
theorem c7_excluded_direct_dependencies :
    (∀ (m : List (String × Pr.PNode)) (k : String) (n : Pr.PNode),
      Pr.nmLookup m k = some n →
      ∃ n2, Pr.nmLookup (Pr.fixNodes m).1 k = some n2 ∧
        n2.upstreamNodes =
          n.upstreamNodes.filter ((m.map Prod.fst).contains ·)) ∧
    (∀ (m : List (String × Pr.PNode)) (u : String),
      u ∈ (Pr.fixNodes m).2 ↔
        ∃ pr ∈ m, u ∈ pr.2.upstreamNodes ∧
          ¬ (m.map Prod.fst).contains u = true ∧
          u ∈ pr.2.channelProducerIds) ∧
    (∀ (p : Pr.Pipeline) (fromPred toPred : String → Bool)
        (cs : Pr.ChiefSettings) (p2 : Pr.Pipeline),
      Pr.markPipeline p fromPred toPred cs = .ok p2 →
      ∃ nm2, Pr.filterNodeMap (Pr.makeOrderedNodeMap p)
          (((Pr.makeOrderedNodeMap p).map Prod.fst).filter fromPred)
          (((Pr.makeOrderedNodeMap p).map Prod.fst).filter toPred) = .ok nm2 ∧
        ∀ pn ∈ p2.nodes, ∀ n2 b2, pn = .pipelineNode n2 →
          n2.mark = .skip b2 →
          (b2 = true ↔ n2.id ∈ (Pr.fixNodes nm2).2)) := by
  refine ⟨?_, ?_, ?_⟩
  · intro m k n h
    have hf : ∃ pr, m.find? (fun p => p.1 = k) = some pr ∧ pr.2 = n := by
      unfold Pr.nmLookup at h
      cases hf : m.find? (fun p => p.1 = k) with
      | none => rw [hf] at h; cases h
      | some pr => rw [hf] at h; exact ⟨pr, rfl, by simpa using h⟩
    obtain ⟨pr, hpr, hpr2⟩ := hf
    refine ⟨(Pr.handleMissingInputs
      (Pr.removeDanglingDownstreamNodes pr.2 (m.map Prod.fst))
      (m.map Prod.fst)).1, ?_, ?_⟩
    · unfold Pr.nmLookup
      rw [Pr.fixNodes_eq]
      dsimp only
      rw [List.find?_map]
      rw [show ((fun (q : String × Pr.PNode) => decide (q.1 = k)) ∘
          (fun p => (p.1, (Pr.handleMissingInputs
            (Pr.removeDanglingDownstreamNodes p.2 (m.map Prod.fst))
            (m.map Prod.fst)).1))) =
          (fun (p : String × Pr.PNode) => decide (p.1 = k)) from rfl]
      rw [hpr]
      rfl
    · rw [hpr2, Pr.handleMissingInputs_upstream, Pr.removeDangling_upstream]
  · intro m u
    exact Pr.mem_fixNodes_snd m u
  · intro p fromPred toPred cs p2 h
    obtain ⟨-, nm2, hfilter, hp2⟩ := Pr.markPipeline_ok_elim h
    refine ⟨nm2, hfilter, ?_⟩
    intro pn hpn n2 b2 hpn2 hmark
    subst hp2
    subst hpn2
    rcases Pr.markNodesAndNominateChief_mem _ hpn with hsub | ⟨n, b, hmem, heq⟩
    · cases hsub
    · have hn2 : n2 = (Pr.markNode (Pr.nmKeys (Pr.fixNodes nm2).1)
          (Pr.fixNodes nm2).2 cs b n).1 := by injection heq
      by_cases hin : n.id ∈ Pr.nmKeys (Pr.fixNodes nm2).1
      · obtain ⟨c, hc⟩ := Pr.markNode_run (Pr.fixNodes nm2).2 cs b hin
        rw [hn2, hc] at hmark
        cases hmark
      · have hskip := Pr.markNode_skip (Pr.fixNodes nm2).2 cs b hin
        rw [hn2, hskip] at hmark
        injection hmark with hb
        have hid : n2.id = n.id := by
          rw [hn2]
          exact Pr.markNode_id _ _ _ _ _
        rw [hid, ← hb]
        exact decide_eq_true_iff

namespace Pr

theorem sp2_traverse_up :
    traverse sp2map .upstream ["a", "b"] = .ok (insert "b" (insert "a" ∅)) := by
  unfold traverse
  rw [List.foldlM_cons]
  rw [traverseLoop_cons_some (by decide)
    (show nmLookup sp2map "a" = some samplePNodeA from rfl)]
  rw [show nodeNeighbors Direction.upstream samplePNodeA ++ ([] : List String) = []
    from rfl]
  rw [traverseLoop_nil]
  simp only [Bind.bind, Except.bind]
  rw [List.foldlM_cons]
  rw [traverseLoop_cons_some (by decide)
    (show nmLookup sp2map "b" = some samplePNodeB from rfl)]
  rw [show nodeNeighbors Direction.upstream samplePNodeB ++ ([] : List String) = ["a"]
    from rfl]
  rw [traverseLoop_cons_mem (by decide)]
  rw [traverseLoop_nil]
  simp only [Bind.bind, Except.bind]
  rfl

theorem sp2_traverse_down :
    traverse sp2map .downstream ["b"] = .ok (insert "b" ∅) := by
  unfold traverse
  rw [List.foldlM_cons]
  rw [traverseLoop_cons_some (by decide)
    (show nmLookup sp2map "b" = some samplePNodeB from rfl)]
  rw [show nodeNeighbors Direction.downstream samplePNodeB ++ ([] : List String) = []
    from rfl]
  rw [traverseLoop_nil]
  simp only [Bind.bind, Except.bind]
  rfl

theorem sp2_filter :
    filterNodeMap sp2map ["b"] ["a", "b"] = .ok [("b", samplePNodeB)] := by
  unfold filterNodeMap
  rw [sp2_traverse_up, sp2_traverse_down]
  simp only [Bind.bind, Except.bind]
  rfl

theorem sp2_mark :
    markPipeline samplePipeline2 (fun s => s == "b") (fun _ => true)
        defaultChiefSettings =
      .ok ⟨[.pipelineNode ⟨"a", [], ["b"], [], .skip false⟩,
            .pipelineNode ⟨"b", ["a"], [], [], .run (some defaultChiefSettings)⟩],
        .sync, "p", some "r2"⟩ := by
  unfold markPipeline
  rw [show ensureSyncPipeline samplePipeline2 = .ok () from rfl]
  rw [show ensureNoSubpipelineNodes samplePipeline2 = .ok () from rfl]
  rw [show ensureTopologicallySorted samplePipeline2 = .ok () from rfl]
  simp only [Bind.bind, Except.bind]
  rw [show ((makeOrderedNodeMap samplePipeline2).map Prod.fst).filter
    (fun s => s == "b") = ["b"] from rfl]
  rw [show ((makeOrderedNodeMap samplePipeline2).map Prod.fst).filter
    (fun _ => true) = ["a", "b"] from rfl]
  rw [show makeOrderedNodeMap samplePipeline2 = sp2map from rfl]
  rw [sp2_filter]
  rfl

end Pr

/-- Witness for the amended C7 at concrete inputs: the one-entry node map
`c7Map` and the marked two-node pipeline `samplePipeline2`. -/
theorem c7_excluded_direct_dependencies_witness :
    (∃ n2, Pr.nmLookup (Pr.fixNodes Pr.c7Map).1 "b" = some n2 ∧
      n2.upstreamNodes =
        Pr.c7Node.upstreamNodes.filter ((Pr.c7Map.map Prod.fst).contains ·)) ∧
    ("a" ∈ (Pr.fixNodes Pr.c7Map).2 ↔
      ∃ pr ∈ Pr.c7Map, "a" ∈ pr.2.upstreamNodes ∧
        ¬ (Pr.c7Map.map Prod.fst).contains "a" = true ∧
        "a" ∈ pr.2.channelProducerIds) ∧
    (∃ nm2, Pr.filterNodeMap (Pr.makeOrderedNodeMap Pr.samplePipeline2)
        (((Pr.makeOrderedNodeMap Pr.samplePipeline2).map Prod.fst).filter
          (fun s => s == "b"))
        (((Pr.makeOrderedNodeMap Pr.samplePipeline2).map Prod.fst).filter
          (fun _ => true)) = .ok nm2 ∧
      ∀ pn ∈ (Pr.Pipeline.mk
          [.pipelineNode ⟨"a", [], ["b"], [], .skip false⟩,
           .pipelineNode ⟨"b", ["a"], [], [],
             .run (some Pr.defaultChiefSettings)⟩]
          .sync "p" (some "r2")).nodes,
        ∀ n2 b2, pn = .pipelineNode n2 → n2.mark = .skip b2 →
          (b2 = true ↔ n2.id ∈ (Pr.fixNodes nm2).2)) :=
  ⟨c7_excluded_direct_dependencies.1 Pr.c7Map "b" Pr.c7Node rfl,
   c7_excluded_direct_dependencies.2.1 Pr.c7Map "a",
   c7_excluded_direct_dependencies.2.2 Pr.samplePipeline2 (fun s => s == "b")
     (fun _ => true) Pr.defaultChiefSettings _ Pr.sp2_mark⟩

/-- C9: if a pipeline node's `execution_options.run` has `chief_settings`
set but the settings carry neither `base_pipeline_run_strategy` nor
`latest_pipeline_run_strategy`, `snapshot` raises `ValueError` before
opening any metadata-store connection; if `chief_settings` is absent,
`snapshot` returns without touching the metadata store.  Both outcomes
are distinct from `performed`, the only outcome that opens a connection
and runs the artifact reuse. -/
theorem c9_snapshot_guard (node : Pr.PNode) (s : Md.Store) (p : Pr.Pipeline) :
    (∀ cs, node.mark = .run (some cs) → cs.strategy = none →
      Md.snapshot node s p =
        .invalidSettings "artifact_reuse_strategy not set in ChiefSettings.") ∧
    ((∀ cs, node.mark ≠ Pr.NodeMark.run (some cs)) →
      Md.snapshot node s p = .notChief) := by
  constructor
  · intro cs hmark hstrat
    unfold Md.snapshot
    rw [hmark]
    dsimp only
    rw [hstrat]
  · intro hnochief
    unfold Md.snapshot
    cases hm : node.mark with
    | run cs2 =>
        cases cs2 with
        | none => rfl
        | some c => exact absurd hm (hnochief c)
    | unset => rfl
    | skip b => rfl

/-- Witness for C9 at two concrete nodes: one whose chief settings lack a
strategy, one that is not the chief. -/
theorem c9_snapshot_guard_witness :
    Md.snapshot ⟨"n", [], [], [], .run (some ⟨none⟩)⟩ Md.emptyStore
        Pr.samplePipeline =
      .invalidSettings "artifact_reuse_strategy not set in ChiefSettings." ∧
    Md.snapshot ⟨"n", [], [], [], .skip false⟩ Md.emptyStore
        Pr.samplePipeline = .notChief :=
  ⟨(c9_snapshot_guard ⟨"n", [], [], [], .run (some ⟨none⟩)⟩ Md.emptyStore
      Pr.samplePipeline).1 ⟨none⟩ rfl rfl,
   (c9_snapshot_guard ⟨"n", [], [], [], .skip false⟩ Md.emptyStore
      Pr.samplePipeline).2 (fun cs h => Pr.NodeMark.noConfusion h)⟩

namespace Md

theorem find?_append_some {α : Type} {p : α → Bool} {l1 l2 : List α} {x : α}
    (h : l1.find? p = some x) : (l1 ++ l2).find? p = some x := by
  induction l1 with
  | nil => simp [List.find?] at h
  | cons a t ih =>
      rw [List.cons_append, List.find?]
      rw [List.find?] at h
      cases hp : p a with
      | true => simpa [hp] using h
      | false =>
          simp only [hp] at h ⊢
          exact ih h

theorem find?_append_none {α : Type} {p : α → Bool} {l1 l2 : List α}
    (h : l1.find? p = none) : (l1 ++ l2).find? p = l2.find? p := by
  induction l1 with
  | nil => simp
  | cons a t ih =>
      rw [List.cons_append, List.find?]
      rw [List.find?] at h
      cases hp : p a with
      | true => simp [hp] at h
      | false =>
          simp only [hp] at h ⊢
          exact ih h

theorem all_congr {α : Type} {p q : α → Bool} {l : List α}
    (h : ∀ x ∈ l, p x = q x) : l.all p = l.all q := by
  induction l with
  | nil => rfl
  | cons a t ih =>
      simp only [List.all_cons]
      rw [h a (List.mem_cons_self a t), ih (fun x hx => h x (List.mem_cons_of_mem a hx))]

theorem getLast?_append_right {α : Type} {l1 l2 : List α} (h : l2 ≠ []) :
    (l1 ++ l2).getLast? = l2.getLast? := by
  cases l2 with
  | nil => exact absurd rfl h
  | cons c v =>
      induction l1 with
      | nil => rfl
      | cons a t ih =>
          rw [List.cons_append, List.getLast?_cons, ih, List.getLast?_cons]
          rfl

theorem getLast?_map {α β : Type} (f : α → β) (l : List α) :
    (l.map f).getLast? = (l.getLast?).map f := by
  induction l with
  | nil => rfl
  | cons a t ih =>
      rw [List.map_cons, List.getLast?_cons, List.getLast?_cons, ih]
      cases t.getLast? <;> rfl

theorem mem_insertDescById {x e : MExec} {l : List MExec} :
    x ∈ insertDescById e l ↔ x = e ∨ x ∈ l := by
  induction l with
  | nil => simp [insertDescById]
  | cons a t ih =>
      rw [insertDescById]
      by_cases h : e.id ≥ a.id
      · simp [h]
      · simp only [if_neg h, List.mem_cons, ih]
        try tauto

theorem mem_sortExecutions {x : MExec} {l : List MExec} :
    x ∈ sortExecutionsNewestToOldest l ↔ x ∈ l := by
  induction l with
  | nil => simp [sortExecutionsNewestToOldest]
  | cons a t ih =>
      rw [sortExecutionsNewestToOldest, List.foldr_cons]
      rw [sortExecutionsNewestToOldest] at ih
      rw [mem_insertDescById, ih, List.mem_cons]
      try tauto

theorem lookup_facts {s : Store} {t : Nat} {nm : String} {c : MCtx}
    (h : getContextByTypeAndName s t nm = some c) :
    c ∈ s.contexts ∧ c.typeId = t ∧ c.name = nm := by
  unfold getContextByTypeAndName at h
  refine ⟨List.mem_of_find?_eq_some h, ?_⟩
  have := List.find?_some h
  exact of_decide_eq_true this

theorem lookup_mem_of_pred {s : Store} {t : Nat} {nm : String} {c : MCtx}
    (hc : c ∈ s.contexts) (ht : c.typeId = t) (hn : c.name = nm) :
    ∃ c2, getContextByTypeAndName s t nm = some c2 := by
  unfold getContextByTypeAndName
  rcases hfind : s.contexts.find? (fun c2 => c2.typeId = t ∧ c2.name = nm) with - | c2
  · have hno := List.find?_eq_none.1 hfind c hc
    exact absurd (by simp [ht, hn]) hno
  · exact ⟨c2, hfind⟩

theorem ctx_id_inj {l : List MCtx} (hnd : (l.map MCtx.id).Nodup)
    {c1 c2 : MCtx} (h1 : c1 ∈ l) (h2 : c2 ∈ l) (h : c1.id = c2.id) :
    c1 = c2 :=
  List.inj_on_of_nodup_map hnd h1 h2 h

end Md

namespace Md

theorem contains_iff {α : Type} [BEq α] [LawfulBEq α] {l : List α} {x : α} :
    l.contains x = true ↔ x ∈ l :=
  List.elem_iff

theorem bool_eq_of_iff {a b : Bool} (h : a = true ↔ b = true) : a = b := by
  cases a <;> cases b <;> simp_all

theorem forall₂_strengthen {α β : Type} {r : α → β → Prop} {s : α → Prop} :
    ∀ {l1 : List α} {l2 : List β}, List.Forall₂ r l1 l2 → (∀ a ∈ l1, s a) →
      List.Forall₂ (fun a b => r a b ∧ s a) l1 l2 := by
  intro l1 l2 h hs
  induction h with
  | nil => exact List.Forall₂.nil
  | cons hr hrest ih =>
      exact List.Forall₂.cons ⟨hr, hs _ (List.mem_cons_self _ _)⟩
        (ih (fun a ha => hs a (List.mem_cons_of_mem _ ha)))

theorem forall₂_comp {α β γ : Type} {r1 : α → β → Prop} {r2 : β → γ → Prop}
    {r3 : α → γ → Prop} (h : ∀ a b c, r1 a b → r2 b c → r3 a c) :
    ∀ {l1 : List α} {l2 : List β} {l3 : List γ},
      List.Forall₂ r1 l1 l2 → List.Forall₂ r2 l2 l3 → List.Forall₂ r3 l1 l3 := by
  intro l1 l2 l3 h12
  induction h12 generalizing l3 with
  | nil =>
      intro h23
      cases h23
      exact List.Forall₂.nil
  | cons hr hrest ih =>
      intro h23
      cases h23 with
      | cons hr2 hrest2 => exact List.Forall₂.cons (h _ _ _ hr hr2) (ih hrest2)

theorem forall₂_filter {α β : Type} {r : α → β → Prop} (p : α → Bool)
    (q : β → Bool) (hpq : ∀ a b, r a b → p a = q b) :
    ∀ {l1 : List α} {l2 : List β}, List.Forall₂ r l1 l2 →
      List.Forall₂ r (l1.filter p) (l2.filter q) := by
  intro l1 l2 h
  induction h with
  | nil => exact List.Forall₂.nil
  | @cons a b t1 t2 hr hrest ih =>
      rw [List.filter_cons, List.filter_cons]
      cases hp : p a with
      | true =>
          rw [← hpq a b hr, hp]
          exact List.Forall₂.cons hr ih
      | false =>
          rw [← hpq a b hr, hp]
          exact ih

theorem forall₂_getLast? {α β : Type} {r : α → β → Prop} :
    ∀ {l1 : List α} {l2 : List β}, List.Forall₂ r l1 l2 →
      ∀ {x : α}, l1.getLast? = some x →
        ∃ y, l2.getLast? = some y ∧ r x y := by
  intro l1 l2 h
  induction h with
  | nil => intro x hx; simp at hx
  | @cons a b t1 t2 hr hrest ih =>
      intro x hx
      cases hrest with
      | nil =>
          simp only [List.getLast?_singleton, Option.some.injEq] at hx
          subst hx
          exact ⟨b, rfl, hr⟩
      | @cons a2 b2 u1 u2 hr2 hrest2 =>
          rw [List.getLast?_cons_cons] at hx
          rw [List.getLast?_cons_cons]
          exact ih hx

theorem execRel_refl (S : Store) (nm : String) (e : MExec) : ExecRel S nm e e :=
  ⟨rfl, rfl, Or.inl rfl⟩

theorem ev_refl (b n : String) (S : Store) : Ev b n S S := by
  refine ⟨⟨[], by simp, by simp⟩,
    ⟨S.executions, [], by simp, List.forall₂_same.2 (fun e _ => execRel_refl S n e), by simp⟩,
    fun pr hpr => hpr, fun pr hpr hnot => absurd hpr hnot,
    fun pr hpr hnot => absurd hpr hnot,
    fun pr hpr => hpr, Nat.le_refl _, Nat.le_refl _⟩

theorem ev_ctx_mono {b n : String} {S R : Store} (h : Ev b n S R)
    {c : MCtx} (hc : c ∈ S.contexts) : c ∈ R.contexts := by
  obtain ⟨tail, hR, -⟩ := h.ctxExt
  rw [hR]
  exact List.mem_append_left _ hc

theorem ev_lookup_found {b n : String} {S R : Store} (h : Ev b n S R)
    {t : Nat} {nm : String} {c : MCtx}
    (hc : getContextByTypeAndName S t nm = some c) :
    getContextByTypeAndName R t nm = some c := by
  obtain ⟨tail, hR, -⟩ := h.ctxExt
  unfold getContextByTypeAndName at hc ⊢
  rw [hR]
  exact find?_append_some hc

theorem ev_lookup_stable {b n : String} {S R : Store} (h : Ev b n S R)
    {t : Nat} {nm : String} (hdiff : t ≠ pipelineRunContextTypeId ∨ nm ≠ n) :
    getContextByTypeAndName R t nm = getContextByTypeAndName S t nm := by
  rcases hS : getContextByTypeAndName S t nm with - | c
  · obtain ⟨tail, hR, htail⟩ := h.ctxExt
    unfold getContextByTypeAndName at hS ⊢
    rw [hR, find?_append_none hS]
    apply List.find?_eq_none.2
    intro c hc
    obtain ⟨h1, h2, -⟩ := htail c hc
    simp only [decide_eq_true_eq]
    rintro ⟨he1, he2⟩
    rcases hdiff with hd | hd
    · exact hd (by rw [← he1]; exact h1)
    · exact hd (by rw [← he2]; exact h2)
  · exact ev_lookup_found h hS

theorem ev_assoc_old {b n : String} {S R : Store} (h : Ev b n S R)
    {pr : Nat × Nat} (hid : pr.1 < S.nextExecutionId) :
    pr ∈ R.associations ↔ pr ∈ S.associations := by
  constructor
  · intro hm
    by_contra hnot
    exact absurd (h.assocFresh pr hm hnot) (by omega)
  · exact h.assocMono pr

theorem ev_ctxsOf_stable {b n : String} {S R : Store} (h : Ev b n S R)
    (hWFS : StoreWF S) {eid : Nat} (hid : eid < S.nextExecutionId) :
    getContextsByExecution R eid = getContextsByExecution S eid := by
  obtain ⟨tail, hR, htail⟩ := h.ctxExt
  obtain ⟨-, -, -, -, hab, -⟩ := hWFS
  unfold getContextsByExecution
  rw [hR, List.filter_append]
  have h2 : tail.filter (fun c => R.associations.contains (eid, c.id)) = [] := by
    apply List.filter_eq_nil.2
    intro c hc
    obtain ⟨-, -, hcid⟩ := htail c hc
    intro hcont
    have hmem : (eid, c.id) ∈ R.associations := contains_iff.1 hcont
    have hmemS : (eid, c.id) ∈ S.associations := (ev_assoc_old h hid).1 hmem
    have := (hab _ hmemS).2
    simp only at this
    omega
  have h1 : S.contexts.filter (fun c => R.associations.contains (eid, c.id)) =
      S.contexts.filter (fun c => S.associations.contains (eid, c.id)) := by
    apply List.filter_congr
    intro c hc
    apply bool_eq_of_iff
    rw [contains_iff, contains_iff]
    exact ev_assoc_old h hid
  rw [h1, h2, List.append_nil]

end Md

namespace Md

theorem forall₂_mem_right {α β : Type} {r : α → β → Prop} :
    ∀ {l1 : List α} {l2 : List β}, List.Forall₂ r l1 l2 →
      ∀ y ∈ l2, ∃ x ∈ l1, r x y := by
  intro l1 l2 h
  induction h with
  | nil => intro y hy; simp at hy
  | @cons a b t1 t2 hr hrest ih =>
      intro y hy
      rcases List.mem_cons.1 hy with rfl | hy
      · exact ⟨a, List.mem_cons_self _ _, hr⟩
      · obtain ⟨x, hx, hxy⟩ := ih y hy
        exact ⟨x, List.mem_cons_of_mem _ hx, hxy⟩

theorem execRel_comp_pt {b n : String} {S R : Store} (hWFS : StoreWF S)
    (h1 : Ev b n S R) (e e1 e2 : MExec)
    (ha : ExecRel S n e e1 ∧ e.id < S.nextExecutionId)
    (hb : ExecRel R n e1 e2) : ExecRel S n e e2 := by
  obtain ⟨⟨hid1, hty1, hst1⟩, hlt⟩ := ha
  obtain ⟨hid2, hty2, hst2⟩ := hb
  refine ⟨hid2.trans hid1, hty2.trans hty1, ?_⟩
  rcases hst2 with hsame | ⟨hcached, c, hcR, hct, hcn, hpair⟩
  · rw [hsame]
    exact hst1
  · refine Or.inr ⟨hcached, c, ?_, hct, hcn, ?_⟩
    · have hpairS : (e.id, c.id) ∈ S.associations := by
        rw [hid1] at hpair
        exact (ev_assoc_old h1 (by simpa using hlt)).1 hpair
      obtain ⟨tail, hR, htail⟩ := h1.ctxExt
      rw [hR] at hcR
      rcases List.mem_append.1 hcR with hmem | hmem
      · exact hmem
      · exfalso
        obtain ⟨-, -, -, -, hab, -⟩ := hWFS
        have := (hab _ hpairS).2
        have := (htail c hmem).2.2
        simp only at *
        omega
    · rw [hid1] at hpair
      exact (ev_assoc_old h1 (by simpa using hlt)).1 hpair

theorem ev_trans {b n : String} {S R T : Store} (hWFS : StoreWF S)
    (h1 : Ev b n S R) (h2 : Ev b n R T) : Ev b n S T := by
  refine ⟨?_, ?_, ?_, ?_, ?_, ?_, h1.nextExecLe.trans h2.nextExecLe,
    h1.nextCtxLe.trans h2.nextCtxLe⟩
  · obtain ⟨t1, hR, ht1⟩ := h1.ctxExt
    obtain ⟨t2, hT, ht2⟩ := h2.ctxExt
    refine ⟨t1 ++ t2, by rw [hT, hR, List.append_assoc], ?_⟩
    intro c hc
    rcases List.mem_append.1 hc with hm | hm
    · exact ht1 c hm
    · obtain ⟨x1, x2, x3⟩ := ht2 c hm
      exact ⟨x1, x2, h1.nextCtxLe.trans x3⟩
  · obtain ⟨olds1, fresh1, hRe, hf2s, hfr1⟩ := h1.execEvo
    obtain ⟨olds2, fresh2, hTe, hf2r, hfr2⟩ := h2.execEvo
    rw [hRe] at hf2r
    have hflip := List.Forall₂.flip hf2r
    have htake := List.forall₂_take_append olds2 olds1 fresh1 hflip
    have hdrop := List.forall₂_drop_append olds2 olds1 fresh1 hflip
    have ho2a := List.Forall₂.flip htake
    have ho2b := List.Forall₂.flip hdrop
    refine ⟨olds2.take olds1.length, olds2.drop olds1.length ++ fresh2, ?_, ?_, ?_⟩
    · rw [hTe, ← List.append_assoc, List.take_append_drop]
    · have hbound : ∀ e ∈ S.executions, e.id < S.nextExecutionId := hWFS.2.1
      have hstr := forall₂_strengthen hf2s hbound
      exact forall₂_comp (execRel_comp_pt hWFS h1) hstr ho2a
    · intro e he
      rcases List.mem_append.1 he with hm | hm
      · obtain ⟨x, hx, hrel⟩ := forall₂_mem_right ho2b e hm
        obtain ⟨hid, -, hst⟩ := hrel
        obtain ⟨hxid, hxst⟩ := hfr1 x hx
        refine ⟨by omega, ?_⟩
        rcases hst with hsame | ⟨hc, -⟩
        · rw [hsame, hxst]
        · exact hc
      · obtain ⟨hid, hst⟩ := hfr2 e hm
        exact ⟨h1.nextExecLe.trans hid, hst⟩
  · exact fun pr hpr => h2.assocMono pr (h1.assocMono pr hpr)
  · intro pr hpr hnot
    by_cases hR : pr ∈ R.associations
    · exact h1.assocFresh pr hR hnot
    · exact h1.nextExecLe.trans (h2.assocFresh pr hpr hR)
  · intro pr hpr hnot cb hcb hcbt hcbn
    by_cases hR : pr ∈ R.associations
    · exact h1.assocNoBase pr hR hnot cb hcb hcbt hcbn
    · exact h2.assocNoBase pr hpr hR cb (ev_ctx_mono h1 hcb) hcbt hcbn
  · exact fun pr hpr => h2.eventsMono pr (h1.eventsMono pr hpr)

theorem noShared_ev {b n : String} {S R : Store} (hWFS : StoreWF S)
    (hH : NoSharedRunAssoc S b n) (hne : b ≠ n) (h : Ev b n S R) :
    NoSharedRunAssoc R b n := by
  obtain ⟨-, -, -, -, hab, -⟩ := hWFS
  obtain ⟨tail, hR, htail⟩ := h.ctxExt
  intro cb hcb hcbt hcbn cn hcn hcnt hcnn pr hpr hpr2 hmem2
  have hcbS : cb ∈ S.contexts := by
    rw [hR] at hcb
    rcases List.mem_append.1 hcb with hm | hm
    · exact hm
    · exfalso
      have hx := (htail cb hm).2.1
      rw [hcbn] at hx
      exact hne hx
  have hprS : pr ∈ S.associations := by
    by_contra hnot
    exact h.assocNoBase pr hpr hnot cb hcbS hcbt hcbn hpr2
  have hpr1 : pr.1 < S.nextExecutionId := (hab pr hprS).1
  rcases List.mem_append.1 (hR ▸ hcn) with hm | hm
  · by_cases hS2 : (pr.1, cn.id) ∈ S.associations
    · exact hH cb hcbS hcbt hcbn cn hm hcnt hcnn pr hprS hpr2 hS2
    · have := h.assocFresh _ hmem2 hS2
      simp only at this
      omega
  · have hcnid := (htail cn hm).2.2
    by_cases hS2 : (pr.1, cn.id) ∈ S.associations
    · have := (hab _ hS2).2
      simp only at this
      omega
    · have := h.assocFresh _ hmem2 hS2
      simp only at this
      omega

end Md

namespace Md

theorem query_eq_aux {b n : String} {S R : Store} (hWFS : StoreWF S)
    (hH : NoSharedRunAssoc S b n) (hEv : Ev b n S R)
    {cb : MCtx} (hcbS : cb ∈ S.contexts)
    (hcbt : cb.typeId = pipelineRunContextTypeId) (hcbn : cb.name = b)
    {ctxs : List MCtx} (hcbmem : cb ∈ ctxs) :
    ∀ {l1 l2 : List MExec}, List.Forall₂ (ExecRel S n) l1 l2 →
      (∀ e ∈ l1, e.id < S.nextExecutionId) →
      l2.filter (fun e => ctxs.all (fun c => R.associations.contains (e.id, c.id))) =
      l1.filter (fun e => ctxs.all (fun c => S.associations.contains (e.id, c.id))) := by
  intro l1 l2 h
  induction h with
  | nil => intro hb; rfl
  | @cons a b2 t1 t2 hrel hrest ih =>
      intro hbound
      have hhead := hbound a (List.mem_cons_self _ _)
      have htail : ∀ e ∈ t1, e.id < S.nextExecutionId :=
        fun e he => hbound e (List.mem_cons_of_mem _ he)
      obtain ⟨hid, hty, hst⟩ := hrel
      have hconds :
          (ctxs.all (fun c => R.associations.contains (b2.id, c.id))) =
          (ctxs.all (fun c => S.associations.contains (a.id, c.id))) := by
        apply all_congr
        intro c hc
        apply bool_eq_of_iff
        rw [contains_iff, contains_iff, hid]
        exact ev_assoc_old hEv (by simpa using hhead)
      rw [List.filter_cons, List.filter_cons, hconds]
      cases hcond : (ctxs.all (fun c => S.associations.contains (a.id, c.id))) with
      | false => simp only [Bool.false_eq_true, if_false]; exact ih htail
      | true =>
          simp only [if_true]
          have hpaircb : (a.id, cb.id) ∈ S.associations :=
            contains_iff.1 (List.all_eq_true.1 hcond cb hcbmem)
          have hb2a : b2 = a := by
            rcases hst with hs | ⟨hc2, c, hcS, hct, hcn2, hpair⟩
            · cases a; cases b2
              simp only [MExec.mk.injEq]
              exact ⟨hid, hty, hs⟩
            · exact absurd hpair
                (hH cb hcbS hcbt hcbn c hcS hct hcn2 (a.id, cb.id) hpaircb rfl)
          rw [hb2a, ih htail]

theorem query_eq {b n : String} {S R : Store} (hWFS : StoreWF S)
    (hH : NoSharedRunAssoc S b n) (hEv : Ev b n S R)
    {cb : MCtx} (hcbS : cb ∈ S.contexts)
    (hcbt : cb.typeId = pipelineRunContextTypeId) (hcbn : cb.name = b)
    (ctxs : List MCtx) (hcbmem : cb ∈ ctxs) :
    getExecutionsAssociatedWithAllContexts R ctxs =
      getExecutionsAssociatedWithAllContexts S ctxs := by
  obtain ⟨olds, fresh, hRe, hf2, hfr⟩ := hEv.execEvo
  unfold getExecutionsAssociatedWithAllContexts
  rw [hRe, List.filter_append]
  have hfr_nil : fresh.filter
      (fun e => ctxs.all fun c => R.associations.contains (e.id, c.id)) = [] := by
    apply List.filter_eq_nil_iff.2
    intro e he hcond
    have hcb2 := List.all_eq_true.1 hcond cb hcbmem
    have hmem : (e.id, cb.id) ∈ R.associations := contains_iff.1 hcb2
    by_cases hS : (e.id, cb.id) ∈ S.associations
    · have h1 := (hWFS.2.2.2.2.1 _ hS).1
      have h2 := (hfr e he).1
      simp only at h1
      omega
    · exact hEv.assocNoBase _ hmem hS cb hcbS hcbt hcbn rfl
  rw [hfr_nil, List.append_nil]
  exact query_eq_aux hWFS hH hEv hcbS hcbt hcbn hcbmem hf2 hWFS.2.1

theorem lookupRun_facts {s : Store} {rid : String} {c : MCtx}
    (h : lookupPipelineRunContext s rid = .ok c) :
    c ∈ s.contexts ∧ c.typeId = pipelineRunContextTypeId ∧ c.name = rid := by
  unfold lookupPipelineRunContext at h
  cases hx : getContextByTypeAndName s pipelineRunContextTypeId rid with
  | none => rw [hx] at h; exact absurd h (by simp)
  | some c2 =>
      rw [hx] at h
      have hc2 : c2 = c := by
        simp only [Except.ok.injEq] at h
        exact h
      subst hc2
      exact lookup_facts hx

theorem getSuccess_ev {b n : String} {S R : Store} (hWFS : StoreWF S)
    (hH : NoSharedRunAssoc S b n) (hne : b ≠ n) (hEv : Ev b n S R)
    (r : Recycler) (nodeId : String) :
    getSuccessfulExecutions r R nodeId b = getSuccessfulExecutions r S nodeId b := by
  unfold getSuccessfulExecutions
  have hnode : getNodeContext r R nodeId = getNodeContext r S nodeId := by
    unfold getNodeContext
    rw [ev_lookup_stable hEv (Or.inl (by decide))]
  have hbase : lookupPipelineRunContext R b = lookupPipelineRunContext S b := by
    unfold lookupPipelineRunContext
    rw [ev_lookup_stable hEv (Or.inr hne)]
  rw [hnode, hbase]
  cases hn : getNodeContext r S nodeId with
  | error e => simp [Bind.bind, Except.bind, hn]
  | ok nc =>
      cases hb : lookupPipelineRunContext S b with
      | error e => simp [Bind.bind, Except.bind, hn, hb]
      | ok cbv =>
          obtain ⟨h1, h2, h3⟩ := lookupRun_facts hb
          have hq := query_eq hWFS hH hEv h1 h2 h3
            [nc, cbv, r.pipelineContext] (by simp)
          simp only [Bind.bind, Except.bind, hn, hb, hq]

theorem getSuccess_error_shape {r : Recycler} {s : Store}
    {nodeId rid : String} {e : PErr}
    (h : getSuccessfulExecutions r s nodeId rid = .error e) :
    ∃ msg, e = .lookupError msg := by
  unfold getSuccessfulExecutions at h
  cases hn : getNodeContext r s nodeId with
  | error e2 =>
      rw [hn] at h
      simp only [Bind.bind, Except.bind] at h
      have he : e2 = e := by simp only [Except.error.injEq] at h; exact h
      subst he
      unfold getNodeContext at hn
      cases hx : getContextByTypeAndName s nodeContextTypeId
          (nodeContextName r.pipelineName nodeId) with
      | none => rw [hx] at hn; exact ⟨_, by simp only [Except.error.injEq] at hn; exact hn.symm⟩
      | some c => rw [hx] at hn; exact absurd hn (by simp)
  | ok nc =>
      rw [hn] at h
      simp only [Bind.bind, Except.bind] at h
      cases hb : lookupPipelineRunContext s rid with
      | error e2 =>
          rw [hb] at h
          have he : e2 = e := by simp only [Except.error.injEq] at h; exact h
          subst he
          unfold lookupPipelineRunContext at hb
          cases hx : getContextByTypeAndName s pipelineRunContextTypeId rid with
          | none => rw [hx] at hb; exact ⟨_, by simp only [Except.error.injEq] at hb; exact hb.symm⟩
          | some c => rw [hx] at hb; exact absurd hb (by simp)
      | ok cbv =>
          rw [hb] at h
          dsimp only at h
          by_cases hemp : ((getExecutionsAssociatedWithAllContexts s
              [nc, cbv, r.pipelineContext]).filter isExecutionSuccessfulM).isEmpty = true
          · rw [if_pos hemp] at h
            exact ⟨_, by simp only [Except.error.injEq] at h; exact h.symm⟩
          · rw [if_neg hemp] at h
            exact absurd h (by simp)

theorem getSuccess_ok_facts {r : Recycler} {S : Store} {nodeId rid : String}
    {execs : List MExec}
    (h : getSuccessfulExecutions r S nodeId rid = .ok execs) :
    ∃ cbv, lookupPipelineRunContext S rid = .ok cbv ∧
      ∀ E ∈ execs, E ∈ S.executions ∧ (E.id, cbv.id) ∈ S.associations ∧
        isExecutionSuccessfulM E = true := by
  unfold getSuccessfulExecutions at h
  cases hn : getNodeContext r S nodeId with
  | error e2 => rw [hn] at h; simp [Bind.bind, Except.bind] at h
  | ok nc =>
      rw [hn] at h
      simp only [Bind.bind, Except.bind] at h
      cases hb : lookupPipelineRunContext S rid with
      | error e2 => rw [hb] at h; simp at h
      | ok cbv =>
          rw [hb] at h
          dsimp only at h
          refine ⟨cbv, rfl, ?_⟩
          by_cases hemp : ((getExecutionsAssociatedWithAllContexts S
              [nc, cbv, r.pipelineContext]).filter isExecutionSuccessfulM).isEmpty = true
          · rw [if_pos hemp] at h; exact absurd h (by simp)
          · rw [if_neg hemp] at h
            have hexecs : execs = sortExecutionsNewestToOldest
                ((getExecutionsAssociatedWithAllContexts S
                  [nc, cbv, r.pipelineContext]).filter isExecutionSuccessfulM) := by
              simp only [Except.ok.injEq] at h
              exact h.symm
            intro E hE
            rw [hexecs] at hE
            have hE2 := mem_sortExecutions.1 hE
            have hE3 := List.mem_filter.1 hE2
            have hE4 := List.mem_filter.1 hE3.1
            refine ⟨hE4.1, ?_, hE3.2⟩
            have hall := List.all_eq_true.1 hE4.2 cbv (by simp)
            exact contains_iff.1 hall

end Md

namespace Md

theorem ensure_lookup (s : Store) (nm : String) :
    getContextByTypeAndName (ensurePipelineRunContext s nm).2
      pipelineRunContextTypeId nm = some (ensurePipelineRunContext s nm).1 := by
  unfold ensurePipelineRunContext registerContextIfNotExists
  cases hx : getContextByTypeAndName s pipelineRunContextTypeId nm with
  | some c => simpa using hx
  | none =>
      dsimp only
      unfold getContextByTypeAndName at hx ⊢
      rw [find?_append_none hx]
      simp [List.find?]

theorem ensure_cases (s : Store) (nm : String) :
    ((ensurePipelineRunContext s nm).2 = s ∧
      (ensurePipelineRunContext s nm).1 ∈ s.contexts) ∨
    (getContextByTypeAndName s pipelineRunContextTypeId nm = none ∧
      (ensurePipelineRunContext s nm).1 =
        ⟨s.nextContextId, pipelineRunContextTypeId, nm, s.nextContextId⟩ ∧
      (ensurePipelineRunContext s nm).2 =
        ⟨s.contexts ++ [⟨s.nextContextId, pipelineRunContextTypeId, nm, s.nextContextId⟩],
         s.executions, s.associations, s.outputEvents, s.parentContexts,
         s.nextExecutionId, s.nextContextId + 1⟩) := by
  unfold ensurePipelineRunContext registerContextIfNotExists
  cases hx : getContextByTypeAndName s pipelineRunContextTypeId nm with
  | some c => exact Or.inl ⟨rfl, (lookup_facts hx).1⟩
  | none => exact Or.inr ⟨rfl, rfl, rfl⟩

theorem ensure_mem (s : Store) (nm : String) :
    (ensurePipelineRunContext s nm).1 ∈ (ensurePipelineRunContext s nm).2.contexts :=
  (lookup_facts (ensure_lookup s nm)).1

theorem ensure_fst_props (s : Store) (nm : String) :
    (ensurePipelineRunContext s nm).1.typeId = pipelineRunContextTypeId ∧
    (ensurePipelineRunContext s nm).1.name = nm :=
  (lookup_facts (ensure_lookup s nm)).2

theorem ensure_frame (s : Store) (nm : String) :
    (ensurePipelineRunContext s nm).2.executions = s.executions ∧
    (ensurePipelineRunContext s nm).2.associations = s.associations ∧
    (ensurePipelineRunContext s nm).2.outputEvents = s.outputEvents ∧
    (ensurePipelineRunContext s nm).2.parentContexts = s.parentContexts ∧
    (ensurePipelineRunContext s nm).2.nextExecutionId = s.nextExecutionId := by
  unfold ensurePipelineRunContext registerContextIfNotExists
  cases getContextByTypeAndName s pipelineRunContextTypeId nm <;>
    exact ⟨rfl, rfl, rfl, rfl, rfl⟩

theorem ensure_ev (b : String) (s : Store) (nm : String) :
    Ev b nm s (ensurePipelineRunContext s nm).2 := by
  rcases ensure_cases s nm with ⟨heq, -⟩ | ⟨hx, -, heq⟩
  · rw [heq]; exact ev_refl b nm s
  · rw [heq]
    refine ⟨⟨[⟨s.nextContextId, pipelineRunContextTypeId, nm, s.nextContextId⟩],
        rfl, by simp⟩,
      ⟨s.executions, [], by simp,
        List.forall₂_same.2 (fun e _ => execRel_refl s nm e), by simp⟩,
      fun pr hpr => hpr, fun pr hpr hnot => absurd hpr hnot,
      fun pr hpr hnot => absurd hpr hnot,
      fun pr hpr => hpr, Nat.le_refl _, Nat.le_succ _⟩

theorem ensure_wf {s : Store} (h : StoreWF s) (nm : String) :
    StoreWF (ensurePipelineRunContext s nm).2 := by
  rcases ensure_cases s nm with ⟨heq, -⟩ | ⟨hx, -, heq⟩
  · rw [heq]; exact h
  · rw [heq]
    obtain ⟨h1, h2, h3, h4, h5, h6⟩ := h
    refine ⟨h1, h2, ?_, ?_, ?_, ?_⟩
    · rw [List.map_append]
      rw [List.nodup_append]
      refine ⟨h3, by simp, ?_⟩
      intro x hx2 hy
      simp only [List.map_cons, List.map_nil, List.mem_singleton] at hy
      obtain ⟨c, hc, hcid⟩ := List.mem_map.1 hx2
      have hlt := h4 c hc
      subst hy
      omega
    · intro c hc
      rcases List.mem_append.1 hc with hm | hm
      · have hlt := h4 c hm
        show c.id < s.nextContextId + 1
        omega
      · simp only [List.mem_singleton] at hm
        subst hm
        show s.nextContextId < s.nextContextId + 1
        omega
    · intro pr hpr
      have h7 := h5 pr hpr
      exact ⟨h7.1, Nat.lt_succ_of_lt h7.2⟩
    · rw [List.pairwise_append]
      refine ⟨h6, by simp, ?_⟩
      intro c1 hc1 c2 hc2
      simp only [List.mem_singleton] at hc2
      subst hc2
      intro hty hnm
      have hno := List.find?_eq_none.1 hx c1 hc1
      simp only [decide_eq_true_eq, not_and] at hno
      exact hno (by simpa using hty) (by simpa using hnm)

theorem gcec_loop_found (r : Recycler) {st : Store} {nc : MCtx}
    (hf : getContextByTypeAndName st pipelineRunContextTypeId r.newRunId = some nc) :
    ∀ (l : List MCtx) (acc : List MCtx),
      l.foldl (fun (acc2 : List MCtx × Store) c =>
        if c.typeId = pipelineRunContextTypeId then
          let rc := ensurePipelineRunContext acc2.2 r.newRunId
          (acc2.1 ++ [rc.1], rc.2)
        else (acc2.1 ++ [c], acc2.2)) (acc, st) =
      (acc ++ l.map (fun c =>
        if c.typeId = pipelineRunContextTypeId then nc else c), st) := by
  intro l
  induction l with
  | nil => intro acc; simp
  | cons c t ih =>
      intro acc
      rw [List.foldl_cons, List.map_cons]
      have hens : ensurePipelineRunContext st r.newRunId = (nc, st) := by
        unfold ensurePipelineRunContext registerContextIfNotExists
        rw [hf]
      by_cases hc : c.typeId = pipelineRunContextTypeId
      · simp only [if_pos hc, hens]
        rw [ih (acc ++ [nc])]
        simp
      · simp only [if_neg hc]
        rw [ih (acc ++ [c])]
        simp

theorem gcec_loop_general (r : Recycler) (s : Store) :
    ∀ (l : List MCtx) (acc : List MCtx),
      l.foldl (fun (acc2 : List MCtx × Store) c =>
        if c.typeId = pipelineRunContextTypeId then
          let rc := ensurePipelineRunContext acc2.2 r.newRunId
          (acc2.1 ++ [rc.1], rc.2)
        else (acc2.1 ++ [c], acc2.2)) (acc, s) =
      (acc ++ l.map (fun c =>
        if c.typeId = pipelineRunContextTypeId
          then (ensurePipelineRunContext s r.newRunId).1 else c),
       if l.any (fun c => decide (c.typeId = pipelineRunContextTypeId))
         then (ensurePipelineRunContext s r.newRunId).2 else s) := by
  intro l
  induction l with
  | nil => intro acc; simp
  | cons c t ih =>
      intro acc
      rw [List.foldl_cons, List.map_cons, List.any_cons]
      by_cases hc : c.typeId = pipelineRunContextTypeId
      · simp only [if_pos hc, hc, decide_True, Bool.true_or, if_true]
        have hrest := gcec_loop_found r (ensure_lookup s r.newRunId) t
          (acc ++ [(ensurePipelineRunContext s r.newRunId).1])
        rw [hrest]
        simp
      · simp only [hc, decide_False, Bool.false_or, if_false]
        rw [ih (acc ++ [c])]
        simp

theorem gcec_eq (r : Recycler) (s : Store) (E : MExec) :
    getCachedExecutionContexts r s E =
      ((getContextsByExecution s E.id).map
        (fun c => if c.typeId = pipelineRunContextTypeId
          then (ensurePipelineRunContext s r.newRunId).1 else c),
       if (getContextsByExecution s E.id).any
            (fun c => decide (c.typeId = pipelineRunContextTypeId))
         then (ensurePipelineRunContext s r.newRunId).2 else s) := by
  unfold getCachedExecutionContexts
  rw [gcec_loop_general r s (getContextsByExecution s E.id) []]
  simp

end Md

namespace Md

theorem register_wf {s : Store} (h : StoreWF s) {t : Nat} {ctxs : List MCtx}
    (hsub : ∀ c ∈ ctxs, c ∈ s.contexts) :
    StoreWF (registerExecution s t ctxs).2 := by
  obtain ⟨h1, h2, h3, h4, h5, h6⟩ := h
  unfold registerExecution
  dsimp only
  refine ⟨?_, ?_, h3, h4, ?_, h6⟩
  · rw [List.pairwise_append]
    refine ⟨h1, by simp, ?_⟩
    intro e1 he1 e2 he2
    simp only [List.mem_singleton] at he2
    subst he2
    exact h2 e1 he1
  · intro e he
    rcases List.mem_append.1 he with hm | hm
    · exact Nat.lt_succ_of_lt (h2 e hm)
    · simp only [List.mem_singleton] at hm
      subst hm
      exact Nat.lt_succ_self _
  · intro pr hpr
    rcases List.mem_append.1 hpr with hm | hm
    · obtain ⟨x, y⟩ := h5 pr hm
      exact ⟨Nat.lt_succ_of_lt x, y⟩
    · obtain ⟨c, hc, hpr2⟩ := List.mem_map.1 hm
      subst hpr2
      exact ⟨Nat.lt_succ_self _, h4 c (hsub c hc)⟩

theorem publish_wf {s : Store} (h : StoreWF s) {ctxs : List MCtx} {eid : Nat}
    {arts : List Nat} (hsub : ∀ c ∈ ctxs, c ∈ s.contexts)
    (heid : eid < s.nextExecutionId) :
    StoreWF (publishCachedExecution s ctxs eid arts) := by
  obtain ⟨h1, h2, h3, h4, h5, h6⟩ := h
  have hid : ∀ e : MExec,
      (if e.id = eid then { e with lastKnownState := MExecState.cached } else e).id
        = e.id := by
    intro e
    split <;> rfl
  unfold publishCachedExecution
  refine ⟨?_, ?_, h3, h4, ?_, h6⟩
  · apply List.pairwise_map.2
    exact List.Pairwise.imp (fun hab => by rw [hid, hid]; exact hab) h1
  · intro e he
    obtain ⟨e0, he0, heq⟩ := List.mem_map.1 he
    rw [← heq, hid e0]
    exact h2 e0 he0
  · intro pr hpr
    unfold addAssociationsIfMissing at hpr
    rcases List.mem_append.1 hpr with hm | hm
    · exact h5 pr hm
    · obtain ⟨c, hc, hpr2⟩ := List.mem_map.1 (List.mem_filter.1 hm).1
      subst hpr2
      exact ⟨heid, h4 c (hsub c hc)⟩

theorem register_parent (s : Store) (t : Nat) (ctxs : List MCtx) :
    (registerExecution s t ctxs).2.parentContexts = s.parentContexts := rfl

theorem publish_parent (s : Store) (ctxs : List MCtx) (eid : Nat)
    (arts : List Nat) :
    (publishCachedExecution s ctxs eid arts).parentContexts = s.parentContexts :=
  rfl

theorem cacheAndPublish_parent (r : Recycler) (s : Store) (E : MExec) :
    (cacheAndPublish r s E).parentContexts = s.parentContexts := by
  have hens := (ensure_frame s r.newRunId).2.2.2.1
  have hs1 : (if (getContextsByExecution s E.id).any
        (fun c => decide (c.typeId = pipelineRunContextTypeId))
      then (ensurePipelineRunContext s r.newRunId).2 else s).parentContexts
      = s.parentContexts := by
    split
    · exact hens
    · rfl
  unfold cacheAndPublish
  rw [gcec_eq]
  dsimp only
  split
  · rw [publish_parent, register_parent]
    exact hs1
  · split
    · exact hs1
    · rw [publish_parent]
      exact hs1

theorem fold_parent (r : Recycler) :
    ∀ (l : List MExec) (s : Store),
      (l.foldl (fun acc e => cacheAndPublish r acc e) s).parentContexts
        = s.parentContexts := by
  intro l
  induction l with
  | nil => intro s; rfl
  | cons e t ih =>
      intro s
      rw [List.foldl_cons, ih, cacheAndPublish_parent]

theorem reuseNodeOutputs_parent {r : Recycler} {s : Store} {n b : String}
    {s2 : Store} (h : reuseNodeOutputs r s n b = .ok s2) :
    s2.parentContexts = s.parentContexts := by
  unfold reuseNodeOutputs at h
  cases hq : getSuccessfulExecutions r s n b with
  | error e => rw [hq] at h; simp [Bind.bind, Except.bind] at h
  | ok execs =>
      rw [hq] at h
      simp only [Bind.bind, Except.bind, Except.ok.injEq] at h
      rw [← h]
      exact fold_parent r execs s

theorem loop_parent (r : Recycler) (b : String) :
    ∀ (nodes : List String) (s : Store),
      (reusePipelineRunArtifactsLoop r nodes b s).2.parentContexts
        = s.parentContexts := by
  intro nodes
  induction nodes with
  | nil => intro s; rfl
  | cons n t ih =>
      intro s
      unfold reusePipelineRunArtifactsLoop
      cases hr : reuseNodeOutputs r s n b with
      | error e => rfl
      | ok s2 =>
          dsimp only
          rw [ih s2, reuseNodeOutputs_parent hr]

end Md

namespace Md

theorem addMissing_of_present {assoc pairs : List (Nat × Nat)}
    (h : ∀ pr ∈ pairs, pr ∈ assoc) :
    addAssociationsIfMissing assoc pairs = assoc := by
  unfold addAssociationsIfMissing
  have hnil : pairs.filter (fun pr => ! assoc.contains pr) = [] := by
    apply List.filter_eq_nil_iff.2
    intro pr hpr
    simp only [Bool.not_eq_true', Bool.not_eq_false]
    exact contains_iff.2 (h pr hpr)
  rw [hnil, List.append_nil]

theorem filter_map_comm {f : MExec → MExec} {p : MExec → Bool}
    (hf : ∀ e, p (f e) = p e) :
    ∀ l : List MExec, (l.map f).filter p = (l.filter p).map f := by
  intro l
  induction l with
  | nil => rfl
  | cons a t ih =>
      rw [List.map_cons, List.filter_cons, List.filter_cons, hf a]
      cases hp : p a <;> simp [hp, ih]

theorem map_setcached_id {fid : Nat} {l : List MExec}
    (h : ∀ e ∈ l, e.id ≠ fid) :
    l.map (fun e => if e.id = fid
      then { e with lastKnownState := MExecState.cached } else e) = l := by
  conv_rhs => rw [← List.map_id l]
  apply List.map_congr_left
  intro e he
  rw [if_neg (h e he)]
  rfl

theorem repl_mem_cases {ctxs : List MCtx} {nc c : MCtx}
    (hc : c ∈ ctxs.map (fun c0 =>
      if c0.typeId = pipelineRunContextTypeId then nc else c0)) :
    c = nc ∨ (c ∈ ctxs ∧ c.typeId ≠ pipelineRunContextTypeId) := by
  obtain ⟨c0, hc0, heq⟩ := List.mem_map.1 hc
  by_cases ht : c0.typeId = pipelineRunContextTypeId
  · rw [if_pos ht] at heq
    exact Or.inl heq.symm
  · rw [if_neg ht] at heq
    rw [← heq]
    exact Or.inr ⟨hc0, ht⟩

theorem ccl_id_ne_base {s1 : Store} (hWF1 : StoreWF s1) {b nm : String}
    (hne : b ≠ nm) {nc : MCtx} (hncmem : nc ∈ s1.contexts)
    (hnct : nc.typeId = pipelineRunContextTypeId) (hncn : nc.name = nm)
    {ctxs : List MCtx} (hsub : ∀ c ∈ ctxs, c ∈ s1.contexts)
    {c : MCtx} (hc : c ∈ ctxs.map (fun c0 =>
      if c0.typeId = pipelineRunContextTypeId then nc else c0))
    {cb : MCtx} (hcbmem : cb ∈ s1.contexts)
    (hcbt : cb.typeId = pipelineRunContextTypeId) (hcbn : cb.name = b) :
    c.id ≠ cb.id := by
  intro hid
  rcases repl_mem_cases hc with rfl | ⟨hmem, hty⟩
  · have heq := ctx_id_inj hWF1.2.2.1 hncmem hcbmem hid
    rw [heq] at hncn
    rw [hcbn] at hncn
    exact hne hncn
  · have heq := ctx_id_inj hWF1.2.2.1 (hsub c hmem) hcbmem hid
    rw [heq] at hty
    exact hty hcbt

theorem ctxsOf_sub {s : Store} {eid : Nat} :
    ∀ c ∈ getContextsByExecution s eid, c ∈ s.contexts :=
  fun c hc => (List.mem_filter.1 hc).1

theorem ctxsOf_assoc {s : Store} {eid : Nat} {c : MCtx}
    (hc : c ∈ getContextsByExecution s eid) :
    (eid, c.id) ∈ s.associations :=
  contains_iff.1 (by simpa using (List.mem_filter.1 hc).2)

end Md

namespace Md

theorem getLast?_filter_append_pos {α : Type} {p : α → Bool} {l : List α}
    {a : α} (ha : p a = true) : ((l ++ [a]).filter p).getLast? = some a := by
  rw [List.filter_append, List.filter_cons_of_pos ha, List.filter_nil]
  rw [getLast?_append_right (by simp)]
  rfl

theorem processedE_establish {r : Recycler} {R2 : Store} {E : MExec} {nc : MCtx}
    (hlook : getContextByTypeAndName R2 pipelineRunContextTypeId r.newRunId
      = some nc) {last : MExec}
    (hq : (getExecutionsAssociatedWithAllContexts R2
      ((getContextsByExecution R2 E.id).map
        (fun c => if c.typeId = pipelineRunContextTypeId then nc else c))).getLast?
      = some last)
    (hc : last.lastKnownState = MExecState.cached) :
    ProcessedE r R2 E := by
  have hens : ensurePipelineRunContext R2 r.newRunId = (nc, R2) := by
    unfold ensurePipelineRunContext registerContextIfNotExists
    rw [hlook]
  constructor
  · rw [gcec_eq]
    simp only [hens]
    split <;> rfl
  · rw [gcec_eq]
    simp only [hens]
    exact ⟨last, hq, hc⟩

theorem step_none (b : String) (r : Recycler) {s1 : Store} (hWF1 : StoreWF s1)
    (hne : b ≠ r.newRunId) {nc : MCtx}
    (hlook1 : getContextByTypeAndName s1 pipelineRunContextTypeId r.newRunId
      = some nc)
    {E : MExec} (hE1 : E.id < s1.nextExecutionId)
    {ccl : List MCtx}
    (hccl : ccl = (getContextsByExecution s1 E.id).map
      (fun c => if c.typeId = pipelineRunContextTypeId then nc else c))
    (arts : List Nat) {R2 : Store}
    (hR2 : R2 = publishCachedExecution (registerExecution s1 E.typeId ccl).2 ccl
      (registerExecution s1 E.typeId ccl).1.id arts) :
    StoreWF R2 ∧ Ev b r.newRunId s1 R2 ∧ ProcessedE r R2 E := by
  have hncmem : nc ∈ s1.contexts := (lookup_facts hlook1).1
  have hncp := (lookup_facts hlook1).2
  have hsub : ∀ c ∈ ccl, c ∈ s1.contexts := by
    intro c hc
    rw [hccl] at hc
    rcases repl_mem_cases hc with rfl | ⟨hm, -⟩
    · exact hncmem
    · exact ctxsOf_sub c hm
  have hexecs : R2.executions
      = s1.executions ++ [⟨s1.nextExecutionId, E.typeId, MExecState.cached⟩] := by
    rw [hR2]
    show (s1.executions ++ [(⟨s1.nextExecutionId, E.typeId, MExecState.running⟩ : MExec)]).map
      (fun e => if e.id = s1.nextExecutionId
        then { e with lastKnownState := MExecState.cached } else e)
      = s1.executions ++ [(⟨s1.nextExecutionId, E.typeId, MExecState.cached⟩ : MExec)]
    rw [List.map_append, map_setcached_id (fun e he => Nat.ne_of_lt (hWF1.2.1 e he))]
    simp
  have hassoc : R2.associations
      = s1.associations ++ ccl.map (fun c => (s1.nextExecutionId, c.id)) := by
    rw [hR2]
    show addAssociationsIfMissing
      (s1.associations ++ ccl.map (fun c => (s1.nextExecutionId, c.id)))
      (ccl.map (fun c => (s1.nextExecutionId, c.id))) = _
    exact addMissing_of_present (fun pr hpr => List.mem_append_right _ hpr)
  have hctx : R2.contexts = s1.contexts := by rw [hR2]; rfl
  have hWFreg : StoreWF (registerExecution s1 E.typeId ccl).2 :=
    register_wf hWF1 hsub
  have hWFpub : StoreWF R2 := by
    rw [hR2]
    exact publish_wf hWFreg hsub (Nat.lt_succ_self s1.nextExecutionId)
  have hEv2 : Ev b r.newRunId s1 R2 := by
    refine ⟨⟨[], by rw [hctx, List.append_nil], by simp⟩, ?_, ?_, ?_, ?_, ?_, ?_, ?_⟩
    · refine ⟨s1.executions, [⟨s1.nextExecutionId, E.typeId, MExecState.cached⟩],
        hexecs, List.forall₂_same.2 (fun e _ => execRel_refl _ _ e), ?_⟩
      intro e he
      simp only [List.mem_singleton] at he
      subst he
      exact ⟨Nat.le_refl _, rfl⟩
    · intro pr hpr
      rw [hassoc]
      exact List.mem_append_left _ hpr
    · intro pr hpr hnot
      rw [hassoc] at hpr
      rcases List.mem_append.1 hpr with hm | hm
      · exact absurd hm hnot
      · obtain ⟨c, hc, heq⟩ := List.mem_map.1 hm
        rw [← heq]
    · intro pr hpr hnot cb hcbmem hcbt hcbn
      rw [hassoc] at hpr
      rcases List.mem_append.1 hpr with hm | hm
      · exact absurd hm hnot
      · obtain ⟨c, hc, heq⟩ := List.mem_map.1 hm
        rw [← heq]
        dsimp only
        rw [hccl] at hc
        exact ccl_id_ne_base hWF1 hne hncmem hncp.1 hncp.2
          (fun c2 hc2 => ctxsOf_sub c2 hc2) hc hcbmem hcbt hcbn
    · intro pr hpr
      rw [hR2]
      show pr ∈ s1.outputEvents ++ _
      exact List.mem_append_left _ hpr
    · rw [hR2]
      exact Nat.le_succ _
    · rw [hR2]
      exact Nat.le_refl _
  have hlookR2 : getContextByTypeAndName R2 pipelineRunContextTypeId r.newRunId
      = some nc := by
    unfold getContextByTypeAndName at hlook1 ⊢
    rw [hctx]
    exact hlook1
  have hctxsOfR2 : getContextsByExecution R2 E.id
      = getContextsByExecution s1 E.id := ev_ctxsOf_stable hEv2 hWF1 hE1
  have hq : (getExecutionsAssociatedWithAllContexts R2
      ((getContextsByExecution R2 E.id).map
        (fun c => if c.typeId = pipelineRunContextTypeId then nc else c))).getLast?
      = some ⟨s1.nextExecutionId, E.typeId, MExecState.cached⟩ := by
    rw [hctxsOfR2, ← hccl]
    unfold getExecutionsAssociatedWithAllContexts
    rw [hexecs]
    have hcondfc : (fun (e : MExec) => ccl.all (fun c =>
        R2.associations.contains (e.id, c.id)))
        ⟨s1.nextExecutionId, E.typeId, MExecState.cached⟩ = true := by
      apply List.all_eq_true.2
      intro c hc
      apply contains_iff.2
      rw [hassoc]
      exact List.mem_append_right _ (List.mem_map.2 ⟨c, hc, rfl⟩)
    exact getLast?_filter_append_pos hcondfc
  exact ⟨hWFpub, hEv2, processedE_establish hlookR2 hq rfl⟩

end Md

namespace Md

theorem step_stale (b : String) (r : Recycler) {s1 : Store} (hWF1 : StoreWF s1)
    {nc : MCtx}
    (hlook1 : getContextByTypeAndName s1 pipelineRunContextTypeId r.newRunId
      = some nc)
    {E : MExec} (hE1 : E.id < s1.nextExecutionId)
    {ccl : List MCtx}
    (hccl : ccl = (getContextsByExecution s1 E.id).map
      (fun c => if c.typeId = pipelineRunContextTypeId then nc else c))
    (hncm : nc ∈ ccl)
    {lastExec : MExec}
    (hl : (getExecutionsAssociatedWithAllContexts s1 ccl).getLast? = some lastExec)
    (arts : List Nat) {R2 : Store}
    (hR2 : R2 = publishCachedExecution s1 ccl lastExec.id arts) :
    StoreWF R2 ∧ Ev b r.newRunId s1 R2 ∧ ProcessedE r R2 E := by
  have hncmem : nc ∈ s1.contexts := (lookup_facts hlook1).1
  have hncp := (lookup_facts hlook1).2
  have hsub : ∀ c ∈ ccl, c ∈ s1.contexts := by
    intro c hc
    rw [hccl] at hc
    rcases repl_mem_cases hc with rfl | ⟨hm, -⟩
    · exact hncmem
    · exact ctxsOf_sub c hm
  have hlastmem : lastExec ∈ getExecutionsAssociatedWithAllContexts s1 ccl :=
    List.mem_of_mem_getLast? hl
  have hlast2 := List.mem_filter.1 hlastmem
  have hpairs : ∀ c ∈ ccl, (lastExec.id, c.id) ∈ s1.associations := by
    intro c hc
    exact contains_iff.1 (List.all_eq_true.1 hlast2.2 c hc)
  have hlid : lastExec.id < s1.nextExecutionId := hWF1.2.1 _ hlast2.1
  have hassoc : R2.associations = s1.associations := by
    rw [hR2]
    show addAssociationsIfMissing s1.associations
      (ccl.map (fun c => (lastExec.id, c.id))) = _
    apply addMissing_of_present
    intro pr hpr
    obtain ⟨c, hc, heq⟩ := List.mem_map.1 hpr
    rw [← heq]
    exact hpairs c hc
  have hexecs : R2.executions = s1.executions.map (fun e =>
      if e.id = lastExec.id then { e with lastKnownState := MExecState.cached }
      else e) := by
    rw [hR2]
    rfl
  have hctx : R2.contexts = s1.contexts := by
    rw [hR2]
    rfl
  have hidp : ∀ e : MExec, ((fun e2 => if e2.id = lastExec.id
      then { e2 with lastKnownState := MExecState.cached } else e2) e).id = e.id := by
    intro e
    dsimp only
    split <;> rfl
  have hWFpub : StoreWF R2 := by
    rw [hR2]
    exact publish_wf hWF1 hsub hlid
  have hEv2 : Ev b r.newRunId s1 R2 := by
    refine ⟨⟨[], by rw [hctx, List.append_nil], by simp⟩, ?_, ?_, ?_, ?_, ?_, ?_, ?_⟩
    · refine ⟨R2.executions, [], by simp, ?_, by simp⟩
      rw [hexecs]
      rw [List.forall₂_map_right_iff]
      apply List.forall₂_same.2
      intro e he
      by_cases h : e.id = lastExec.id
      · refine ⟨hidp e, by split <;> rfl, ?_⟩
        rw [if_pos h]
        exact Or.inr ⟨rfl, nc, hncmem, hncp.1, hncp.2, by rw [h]; exact hpairs nc hncm⟩
      · rw [if_neg h]
        exact execRel_refl _ _ e
    · intro pr hpr
      rw [hassoc]
      exact hpr
    · intro pr hpr hnot
      rw [hassoc] at hpr
      exact absurd hpr hnot
    · intro pr hpr hnot
      rw [hassoc] at hpr
      exact absurd hpr hnot
    · intro pr hpr
      rw [hR2]
      show pr ∈ s1.outputEvents ++ _
      exact List.mem_append_left _ hpr
    · rw [hR2]
      exact Nat.le_refl _
    · rw [hR2]
      exact Nat.le_refl _
  have hlookR2 : getContextByTypeAndName R2 pipelineRunContextTypeId r.newRunId
      = some nc := by
    unfold getContextByTypeAndName at hlook1 ⊢
    rw [hctx]
    exact hlook1
  have hctxsOfR2 : getContextsByExecution R2 E.id
      = getContextsByExecution s1 E.id := ev_ctxsOf_stable hEv2 hWF1 hE1
  have hl2 : (s1.executions.filter (fun e => ccl.all fun c =>
      s1.associations.contains (e.id, c.id))).getLast? = some lastExec := hl
  have hq : (getExecutionsAssociatedWithAllContexts R2
      ((getContextsByExecution R2 E.id).map
        (fun c => if c.typeId = pipelineRunContextTypeId then nc else c))).getLast?
      = some { lastExec with lastKnownState := MExecState.cached } := by
    rw [hctxsOfR2, ← hccl]
    unfold getExecutionsAssociatedWithAllContexts
    rw [hexecs]
    simp only [hassoc]
    rw [filter_map_comm (fun e => by simp only [hidp])]
    rw [getLast?_map, hl2]
    simp
  exact ⟨hWFpub, hEv2, processedE_establish hlookR2 hq rfl⟩

end Md

namespace Md

theorem cacheAndPublish_shape (r : Recycler) (R : Store) (E : MExec)
    (hErun : ∃ cb ∈ getContextsByExecution R E.id,
      cb.typeId = pipelineRunContextTypeId) :
    cacheAndPublish r R E =
      (let s1 := (ensurePipelineRunContext R r.newRunId).2
       let ccl := (getContextsByExecution R E.id).map
         (fun c => if c.typeId = pipelineRunContextTypeId
           then (ensurePipelineRunContext R r.newRunId).1 else c)
       match (getExecutionsAssociatedWithAllContexts s1 ccl).getLast? with
       | none =>
           publishCachedExecution (registerExecution s1 E.typeId ccl).2 ccl
             (registerExecution s1 E.typeId ccl).1.id
             (getArtifactsDict (registerExecution s1 E.typeId ccl).2 E.id)
       | some lastExec =>
           if lastExec.lastKnownState = MExecState.cached then s1
           else publishCachedExecution s1 ccl lastExec.id
             (getArtifactsDict s1 E.id)) := by
  obtain ⟨cb, hcb, hcbt⟩ := hErun
  have hany : (getContextsByExecution R E.id).any
      (fun c => decide (c.typeId = pipelineRunContextTypeId)) = true :=
    List.any_eq_true.2 ⟨cb, hcb, by simpa using hcbt⟩
  unfold cacheAndPublish
  rw [gcec_eq]
  dsimp only
  rw [hany]
  rw [if_pos rfl]

theorem cacheAndPublish_step {b : String} (r : Recycler) {R : Store}
    (hWFR : StoreWF R) (hne : b ≠ r.newRunId) {E : MExec}
    (hEid : E.id < R.nextExecutionId)
    (hErun : ∃ cb ∈ getContextsByExecution R E.id,
      cb.typeId = pipelineRunContextTypeId) :
    StoreWF (cacheAndPublish r R E) ∧
    Ev b r.newRunId R (cacheAndPublish r R E) ∧
    ProcessedE r (cacheAndPublish r R E) E := by
  have hWF1 := ensure_wf hWFR r.newRunId
  have hEv1 := ensure_ev b R r.newRunId
  have hlook1 := ensure_lookup R r.newRunId
  have hframe := ensure_frame R r.newRunId
  have hE1 : E.id < (ensurePipelineRunContext R r.newRunId).2.nextExecutionId := by
    rw [hframe.2.2.2.2]
    exact hEid
  have hctxsOf1 : getContextsByExecution (ensurePipelineRunContext R r.newRunId).2
      E.id = getContextsByExecution R E.id := ev_ctxsOf_stable hEv1 hWFR hEid
  have hncm : (ensurePipelineRunContext R r.newRunId).1 ∈
      (getContextsByExecution (ensurePipelineRunContext R r.newRunId).2 E.id).map
        (fun c => if c.typeId = pipelineRunContextTypeId
          then (ensurePipelineRunContext R r.newRunId).1 else c) := by
    obtain ⟨cb, hcb, hcbt⟩ := hErun
    rw [hctxsOf1]
    exact List.mem_map.2 ⟨cb, hcb, by rw [if_pos hcbt]⟩
  rw [cacheAndPublish_shape r R E hErun]
  dsimp only
  rw [← hctxsOf1]
  cases hl : (getExecutionsAssociatedWithAllContexts
      (ensurePipelineRunContext R r.newRunId).2
      ((getContextsByExecution (ensurePipelineRunContext R r.newRunId).2 E.id).map
        (fun c => if c.typeId = pipelineRunContextTypeId
          then (ensurePipelineRunContext R r.newRunId).1 else c))).getLast? with
  | none =>
      obtain ⟨w1, w2, w3⟩ := step_none b r hWF1 hne hlook1 hE1 rfl
        (getArtifactsDict (registerExecution
          (ensurePipelineRunContext R r.newRunId).2 E.typeId
          ((getContextsByExecution (ensurePipelineRunContext R r.newRunId).2
            E.id).map (fun c => if c.typeId = pipelineRunContextTypeId
              then (ensurePipelineRunContext R r.newRunId).1 else c))).2 E.id) rfl
      exact ⟨w1, ev_trans hWFR hEv1 w2, w3⟩
  | some lastExec =>
      dsimp only
      by_cases hcs : lastExec.lastKnownState = MExecState.cached
      · rw [if_pos hcs]
        exact ⟨hWF1, hEv1, processedE_establish hlook1 hl hcs⟩
      · rw [if_neg hcs]
        obtain ⟨w1, w2, w3⟩ := step_stale b r hWF1 hlook1 hE1 rfl hncm hl
          (getArtifactsDict (ensurePipelineRunContext R r.newRunId).2 E.id) rfl
        exact ⟨w1, ev_trans hWFR hEv1 w2, w3⟩

end Md

namespace Md

theorem query_lastCached_ev {b n : String} {R R2 : Store} (hWFR : StoreWF R)
    (hEv : Ev b n R R2) (ctxs : List MCtx) {last : MExec}
    (hq : (getExecutionsAssociatedWithAllContexts R ctxs).getLast? = some last)
    (hc : last.lastKnownState = MExecState.cached) :
    ∃ last2, (getExecutionsAssociatedWithAllContexts R2 ctxs).getLast?
      = some last2 ∧ last2.lastKnownState = MExecState.cached := by
  obtain ⟨olds, fresh, hRe, hf2, hfr⟩ := hEv.execEvo
  unfold getExecutionsAssociatedWithAllContexts at hq ⊢
  rw [hRe, List.filter_append]
  by_cases hfe : fresh.filter (fun e => ctxs.all fun c =>
      R2.associations.contains (e.id, c.id)) = []
  · rw [hfe, List.append_nil]
    have hstr := forall₂_strengthen hf2 hWFR.2.1
    have hff := forall₂_filter (fun e => ctxs.all fun c =>
        R.associations.contains (e.id, c.id))
      (fun e => ctxs.all fun c => R2.associations.contains (e.id, c.id))
      (fun e e2 hrel => by
        apply all_congr
        intro c hcm
        apply bool_eq_of_iff
        rw [contains_iff, contains_iff, hrel.1.1]
        exact (ev_assoc_old hEv (by simpa using hrel.2)).symm) hstr
    obtain ⟨last2, hl2, hrel2⟩ := forall₂_getLast? hff hq
    refine ⟨last2, hl2, ?_⟩
    rcases hrel2.1.2.2 with hs | ⟨hcd, -⟩
    · rw [hs, hc]
    · exact hcd
  · obtain ⟨x, hx⟩ : ∃ x, (fresh.filter (fun e => ctxs.all fun c =>
        R2.associations.contains (e.id, c.id))).getLast? = some x := by
      cases hxx : (fresh.filter (fun e => ctxs.all fun c =>
          R2.associations.contains (e.id, c.id))).getLast? with
      | some a => exact ⟨a, rfl⟩
      | none => exact absurd (List.getLast?_eq_none_iff.1 hxx) hfe
    rw [getLast?_append_right hfe, hx]
    refine ⟨x, rfl, ?_⟩
    have hxm : x ∈ fresh := (List.mem_filter.1 (List.mem_of_mem_getLast? hx)).1
    exact (hfr x hxm).2

theorem processedE_stable {b : String} {r : Recycler} {R R2 : Store}
    (hWFR : StoreWF R) (hEv : Ev b r.newRunId R R2)
    {E : MExec} (hEid : E.id < R.nextExecutionId)
    (hP : ProcessedE r R E) : ProcessedE r R2 E := by
  obtain ⟨hNM, hLC⟩ := hP
  obtain ⟨last, hq, hc⟩ := hLC
  have hctxsS : getContextsByExecution R2 E.id = getContextsByExecution R E.id :=
    ev_ctxsOf_stable hEv hWFR hEid
  by_cases hrun : ∃ c ∈ getContextsByExecution R E.id,
      c.typeId = pipelineRunContextTypeId
  · have hany : (getContextsByExecution R E.id).any
        (fun c => decide (c.typeId = pipelineRunContextTypeId)) = true := by
      obtain ⟨c, hcm, hct⟩ := hrun
      exact List.any_eq_true.2 ⟨c, hcm, by simpa using hct⟩
    have hNM' := hNM
    rw [gcec_eq] at hNM'
    dsimp only at hNM'
    rw [hany, if_pos rfl] at hNM'
    have hlookR : getContextByTypeAndName R pipelineRunContextTypeId r.newRunId
        = some (ensurePipelineRunContext R r.newRunId).1 := by
      have hle := ensure_lookup R r.newRunId
      rw [hNM'] at hle
      exact hle
    obtain ⟨nc, hnc⟩ : ∃ nc, (ensurePipelineRunContext R r.newRunId).1 = nc :=
      ⟨_, rfl⟩
    rw [hnc] at hlookR
    have hensR : ensurePipelineRunContext R r.newRunId = (nc, R) := by
      unfold ensurePipelineRunContext registerContextIfNotExists
      rw [hlookR]
    have hlook2 : getContextByTypeAndName R2 pipelineRunContextTypeId r.newRunId
        = some nc := ev_lookup_found hEv hlookR
    have hens2 : ensurePipelineRunContext R2 r.newRunId = (nc, R2) := by
      unfold ensurePipelineRunContext registerContextIfNotExists
      rw [hlook2]
    rw [gcec_eq] at hq
    simp only [hensR] at hq
    constructor
    · rw [gcec_eq]
      simp only [hens2]
      split <;> rfl
    · rw [gcec_eq]
      simp only [hens2]
      rw [hctxsS]
      exact query_lastCached_ev hWFR hEv _ hq hc
  · have hanyF : (getContextsByExecution R E.id).any
        (fun c => decide (c.typeId = pipelineRunContextTypeId)) = false := by
      rw [List.any_eq_false]
      intro c hcm
      simp only [decide_eq_true_eq]
      exact fun hct => hrun ⟨c, hcm, hct⟩
    rw [gcec_eq] at hq
    dsimp only at hq
    constructor
    · rw [gcec_eq]
      dsimp only
      rw [hctxsS, hanyF]
      simp
    · rw [gcec_eq]
      dsimp only
      rw [hctxsS]
      have hmapeq : (getContextsByExecution R E.id).map
          (fun c => if c.typeId = pipelineRunContextTypeId
            then (ensurePipelineRunContext R2 r.newRunId).1 else c)
          = (getContextsByExecution R E.id).map
          (fun c => if c.typeId = pipelineRunContextTypeId
            then (ensurePipelineRunContext R r.newRunId).1 else c) := by
        apply List.map_congr_left
        intro c hcm
        rw [if_neg (fun h => hrun ⟨c, hcm, h⟩),
          if_neg (fun h => hrun ⟨c, hcm, h⟩)]
      rw [hmapeq]
      exact query_lastCached_ev hWFR hEv _ hq hc

theorem cacheAndPublish_noop {r : Recycler} {R : Store} {E : MExec}
    (hP : ProcessedE r R E) : cacheAndPublish r R E = R := by
  obtain ⟨hNM, hLC⟩ := hP
  obtain ⟨last, hq, hc⟩ := hLC
  unfold cacheAndPublish
  dsimp only
  rw [hNM, hq]
  dsimp only
  rw [if_pos hc]

theorem cachePublish_fold {b : String} (r : Recycler) (hne : b ≠ r.newRunId)
    {cb : MCtx} (hcbt : cb.typeId = pipelineRunContextTypeId) :
    ∀ (execs : List MExec) {R : Store}, StoreWF R → cb ∈ R.contexts →
      (∀ E ∈ execs, E.id < R.nextExecutionId ∧ (E.id, cb.id) ∈ R.associations) →
      StoreWF (execs.foldl (fun acc e => cacheAndPublish r acc e) R) ∧
      Ev b r.newRunId R (execs.foldl (fun acc e => cacheAndPublish r acc e) R) ∧
      (∀ E ∈ execs,
        ProcessedE r (execs.foldl (fun acc e => cacheAndPublish r acc e) R) E) := by
  intro execs
  induction execs with
  | nil =>
      intro R hWF hcbm hconds
      exact ⟨hWF, ev_refl _ _ _, by simp⟩
  | cons E rest ih =>
      intro R hWF hcbm hconds
      rw [List.foldl_cons]
      have hcond := hconds E (List.mem_cons_self _ _)
      have hErun : ∃ c ∈ getContextsByExecution R E.id,
          c.typeId = pipelineRunContextTypeId :=
        ⟨cb, List.mem_filter.2 ⟨hcbm, by simpa using contains_iff.2 hcond.2⟩, hcbt⟩
      obtain ⟨w1, w2, w3⟩ := cacheAndPublish_step r hWF hne hcond.1 hErun
      have hcbm1 : cb ∈ (cacheAndPublish r R E).contexts := ev_ctx_mono w2 hcbm
      have hconds1 : ∀ E2 ∈ rest, E2.id < (cacheAndPublish r R E).nextExecutionId
          ∧ (E2.id, cb.id) ∈ (cacheAndPublish r R E).associations := by
        intro E2 hE2
        have h2 := hconds E2 (List.mem_cons_of_mem _ hE2)
        exact ⟨lt_of_lt_of_le h2.1 w2.nextExecLe, w2.assocMono _ h2.2⟩
      obtain ⟨v1, v2, v3⟩ := ih w1 hcbm1 hconds1
      refine ⟨v1, ev_trans hWF w2 v2, ?_⟩
      intro E2 hE2
      rcases List.mem_cons.1 hE2 with rfl | hE2m
      · exact processedE_stable w1 v2 (lt_of_lt_of_le hcond.1 w2.nextExecLe) w3
      · exact v3 E2 hE2m

end Md

namespace Md

theorem reuseNodeOutputs_error_shape {r : Recycler} {s : Store}
    {nodeId b : String} {e : PErr}
    (h : reuseNodeOutputs r s nodeId b = .error e) :
    getSuccessfulExecutions r s nodeId b = .error e := by
  unfold reuseNodeOutputs at h
  cases hq : getSuccessfulExecutions r s nodeId b with
  | error e2 =>
      rw [hq] at h
      simp only [Bind.bind, Except.bind, Except.error.injEq] at h
      rw [h]
  | ok execs =>
      rw [hq] at h
      simp [Bind.bind, Except.bind] at h

theorem reuseNodeOutputs_post {b : String} (r : Recycler) (hne : b ≠ r.newRunId)
    {S R : Store} (hWFS : StoreWF S) (hH : NoSharedRunAssoc S b r.newRunId)
    (hWFR : StoreWF R) (hEv : Ev b r.newRunId S R) (nodeId : String) :
    (∀ e, getSuccessfulExecutions r S nodeId b = .error e →
      reuseNodeOutputs r R nodeId b = .error e) ∧
    (∀ execsS, getSuccessfulExecutions r S nodeId b = .ok execsS →
      ∃ R2, reuseNodeOutputs r R nodeId b = .ok R2 ∧ StoreWF R2 ∧
        Ev b r.newRunId S R2 ∧ Ev b r.newRunId R R2 ∧
        ∀ E ∈ execsS, ProcessedE r R2 E) := by
  have hinv := getSuccess_ev hWFS hH hne hEv r nodeId
  constructor
  · intro e herr
    unfold reuseNodeOutputs
    rw [hinv, herr]
    simp [Bind.bind, Except.bind]
  · intro execsS hok
    obtain ⟨cbv, hlookb, hfacts⟩ := getSuccess_ok_facts hok
    obtain ⟨hcbmem, hcbt, hcbn⟩ := lookupRun_facts hlookb
    have hcbmemR : cbv ∈ R.contexts := ev_ctx_mono hEv hcbmem
    have hconds : ∀ E ∈ execsS, E.id < R.nextExecutionId ∧
        (E.id, cbv.id) ∈ R.associations := by
      intro E hE
      obtain ⟨hmem, hassoc, -⟩ := hfacts E hE
      exact ⟨lt_of_lt_of_le (hWFS.2.1 E hmem) hEv.nextExecLe,
        hEv.assocMono _ hassoc⟩
    obtain ⟨w1, w2, w3⟩ := cachePublish_fold r hne hcbt execsS hWFR hcbmemR hconds
    refine ⟨execsS.foldl (fun acc e => cacheAndPublish r acc e) R, ?_, w1,
      ev_trans hWFS hEv w2, w2, w3⟩
    unfold reuseNodeOutputs
    rw [hinv, hok]
    simp [Bind.bind, Except.bind]

theorem loop_post {b : String} (r : Recycler) (hne : b ≠ r.newRunId)
    {S : Store} (hWFS : StoreWF S) (hH : NoSharedRunAssoc S b r.newRunId) :
    ∀ (nodes : List String) {R : Store}, StoreWF R → Ev b r.newRunId S R →
      (match reusePipelineRunArtifactsLoop r nodes b R with
       | (.ok _, R2) => StoreWF R2 ∧ Ev b r.newRunId S R2 ∧
           Ev b r.newRunId R R2 ∧
           (∀ n ∈ nodes, ∀ execsS,
             getSuccessfulExecutions r S n b = .ok execsS →
               ∀ E ∈ execsS, ProcessedE r R2 E) ∧
           (∀ n ∈ nodes, ∃ execsS,
             getSuccessfulExecutions r S n b = .ok execsS)
       | (.error e, R2) => (∃ msg, e = PErr.lookupError msg) ∧ StoreWF R2 ∧
           Ev b r.newRunId S R2) := by
  intro nodes
  induction nodes with
  | nil =>
      intro R hWFR hEv
      exact ⟨hWFR, hEv, ev_refl _ _ _, by simp, by simp⟩
  | cons n rest ih =>
      intro R hWFR hEv
      have hpost := reuseNodeOutputs_post r hne hWFS hH hWFR hEv n
      unfold reusePipelineRunArtifactsLoop
      cases hr : reuseNodeOutputs r R n b with
      | error e =>
          dsimp only
          have hshape := getSuccess_error_shape (reuseNodeOutputs_error_shape hr)
          exact ⟨hshape, hWFR, hEv⟩
      | ok R1 =>
          dsimp only
          cases hq : getSuccessfulExecutions r S n b with
          | error e =>
              have := hpost.1 e hq
              rw [hr] at this
              exact absurd this (by simp)
          | ok execsS =>
              obtain ⟨R2, heq, w1, w2, w2R, w3⟩ := hpost.2 execsS hq
              rw [hr] at heq
              have hR1 : R1 = R2 := by
                simp only [Except.ok.injEq] at heq
                exact heq
              subst hR1
              have hrest := ih w1 w2
              cases hloop : reusePipelineRunArtifactsLoop r rest b R1 with
              | mk res R3 =>
                  rw [hloop] at hrest
                  cases res with
                  | error e2 =>
                      dsimp only
                      dsimp only at hrest
                      obtain ⟨v0, v1, v2⟩ := hrest
                      exact ⟨v0, v1, v2⟩
                  | ok u =>
                      dsimp only
                      dsimp only at hrest
                      obtain ⟨v1, v2, v2R, v3, v4⟩ := hrest
                      refine ⟨v1, v2, ev_trans hWFR w2R v2R, ?_, ?_⟩
                      · intro n2 hn2 execsS2 hok2 E hE
                        rcases List.mem_cons.1 hn2 with rfl | hn2m
                        · have hsame : execsS2 = execsS := by
                            rw [hq] at hok2
                            simp only [Except.ok.injEq] at hok2
                            exact hok2.symm
                          subst hsame
                          obtain ⟨cbv, hlookb, hfacts⟩ := getSuccess_ok_facts hq
                          have hEid : E.id < R1.nextExecutionId :=
                            lt_of_lt_of_le (hWFS.2.1 E (hfacts E hE).1) w2.nextExecLe
                          exact processedE_stable w1 v2R hEid (w3 E hE)
                        · exact v3 n2 hn2m execsS2 hok2 E hE
                      · intro n2 hn2
                        rcases List.mem_cons.1 hn2 with rfl | hn2m
                        · exact ⟨execsS, hq⟩
                        · exact v4 n2 hn2m

end Md

namespace Md

theorem putParentIfNot_ev (b n : String) (s : Store) (p c : Nat) :
    Ev b n s (putParentContextIfNotExists s p c) := by
  unfold putParentContextIfNotExists
  split
  · exact ev_refl b n s
  · exact ⟨⟨[], by simp, by simp⟩,
      ⟨s.executions, [], by simp,
        List.forall₂_same.2 (fun e _ => execRel_refl s n e), by simp⟩,
      fun pr hpr => hpr, fun pr hpr hnot => absurd hpr hnot,
      fun pr hpr hnot => absurd hpr hnot,
      fun pr hpr => hpr, Nat.le_refl _, Nat.le_refl _⟩

theorem putParentIfNot_wf {s : Store} (h : StoreWF s) (p c : Nat) :
    StoreWF (putParentContextIfNotExists s p c) := by
  unfold putParentContextIfNotExists
  split
  · exact h
  · exact ⟨h.1, h.2.1, h.2.2.1, h.2.2.2.1, h.2.2.2.2.1, h.2.2.2.2.2⟩

theorem putParentIfNot_contexts (s : Store) (p c : Nat) :
    (putParentContextIfNotExists s p c).contexts = s.contexts := by
  unfold putParentContextIfNotExists
  split <;> rfl

theorem putParentIfNot_mem (s : Store) (p c : Nat) :
    (p, c) ∈ (putParentContextIfNotExists s p c).parentContexts := by
  unfold putParentContextIfNotExists
  split
  · rename_i hcont
    exact contains_iff.1 hcont
  · exact List.mem_append_right _ (List.mem_singleton.2 rfl)

theorem putParentIfNot_of_mem {s : Store} {p c : Nat}
    (h : (p, c) ∈ s.parentContexts) :
    putParentContextIfNotExists s p c = s := by
  unfold putParentContextIfNotExists
  rw [if_pos (contains_iff.2 h)]

theorem recyclerInit_newRunId {s : Store} {pn nr : String} {rr : Recycler}
    (h : recyclerInit s pn nr = .ok rr) :
    rr.newRunId = nr ∧ rr.pipelineName = pn := by
  unfold recyclerInit at h
  cases hx : getContextByTypeAndName s pipelineContextTypeId pn with
  | none => rw [hx] at h; exact absurd h (by simp)
  | some c =>
      rw [hx] at h
      simp only [Except.ok.injEq] at h
      rw [← h]
      exact ⟨rfl, rfl⟩

theorem recyclerInit_ev {b n : String} {S R : Store} (hEv : Ev b n S R)
    {pname nrid : String} {rr : Recycler}
    (h : recyclerInit S pname nrid = .ok rr) :
    recyclerInit R pname nrid = .ok rr := by
  unfold recyclerInit at h ⊢
  rw [ev_lookup_stable hEv (Or.inl (by decide))]
  exact h

theorem fold_noop {r : Recycler} {T : Store} :
    ∀ (execs : List MExec), (∀ E ∈ execs, ProcessedE r T E) →
      execs.foldl (fun acc e => cacheAndPublish r acc e) T = T := by
  intro execs
  induction execs with
  | nil => intro h; rfl
  | cons E rest ih =>
      intro h
      rw [List.foldl_cons, cacheAndPublish_noop (h E (List.mem_cons_self _ _)),
        ih (fun E2 hE2 => h E2 (List.mem_cons_of_mem _ hE2))]

theorem loop_noop {b : String} (r : Recycler) (hne : b ≠ r.newRunId)
    {S T : Store} (hWFS : StoreWF S) (hH : NoSharedRunAssoc S b r.newRunId)
    (hEv : Ev b r.newRunId S T) :
    ∀ (nodes : List String),
      (∀ n ∈ nodes, ∃ execsS, getSuccessfulExecutions r S n b = .ok execsS ∧
        ∀ E ∈ execsS, ProcessedE r T E) →
      reusePipelineRunArtifactsLoop r nodes b T = (.ok (), T) := by
  intro nodes
  induction nodes with
  | nil => intro h; rfl
  | cons n rest ih =>
      intro h
      obtain ⟨execsS, hok, hproc⟩ := h n (List.mem_cons_self _ _)
      have hinv := getSuccess_ev hWFS hH hne hEv r n
      have hrno : reuseNodeOutputs r T n b = .ok T := by
        unfold reuseNodeOutputs
        rw [hinv, hok]
        simp only [Bind.bind, Except.bind]
        rw [fold_noop execsS hproc]
      unfold reusePipelineRunArtifactsLoop
      rw [hrno]
      exact ih (fun n2 hn2 => h n2 (List.mem_cons_of_mem _ hn2))

end Md

namespace Md

/-- C8: `reuse_pipeline_run_artifacts` is idempotent: when a first
invocation with the same marked pipeline, base run id, and new run id
succeeds, invoking it again on the resulting store succeeds and returns
that store unchanged — the set of cached executions is identical (no
duplicates are registered), because for each prior cached execution,
already in CACHED state, `_cache_and_publish` returns without registering
a new execution.  Hypotheses: the initial store is well-formed, no
execution is associated with both the base-run and the new-run context,
and the base run id differs from the validated new run id. -/
theorem c8_reuse_idempotent (s : Store) (p : Pr.Pipeline) (b : String)
    (newRunId : Option String) (vnew : String)
    (hv : getValidatedNewRunId p newRunId = .ok vnew)
    (hWFS : StoreWF s) (hH : NoSharedRunAssoc s b vnew) (hne : b ≠ vnew)
    {s2 : Store}
    (hfirst : reusePipelineRunArtifacts s p (some b) newRunId = (.ok (), s2)) :
    reusePipelineRunArtifacts s2 p (some b) newRunId = (.ok (), s2) := by
  unfold reusePipelineRunArtifacts at hfirst ⊢
  rw [hv] at hfirst ⊢
  dsimp only at hfirst ⊢
  cases hnodes : computeNodesToReuse p with
  | error e => rw [hnodes] at hfirst; exact absurd hfirst (by simp)
  | ok nodes =>
  rw [hnodes] at hfirst
  dsimp only at hfirst ⊢
  cases hinit : recyclerInit s p.pipelineInfoId vnew with
  | error e => rw [hinit] at hfirst; exact absurd hfirst (by simp)
  | ok r =>
  rw [hinit] at hfirst
  dsimp only at hfirst
  obtain ⟨hrn, -⟩ := recyclerInit_newRunId hinit
  have hne2 : b ≠ r.newRunId := by rw [hrn]; exact hne
  have hH2 : NoSharedRunAssoc s b r.newRunId := by rw [hrn]; exact hH
  have hlp := loop_post r hne2 hWFS hH2 nodes hWFS (ev_refl b r.newRunId s)
  cases hloop : reusePipelineRunArtifactsLoop r nodes b s with
  | mk res S1 =>
  rw [hloop] at hfirst hlp
  cases res with
  | error e => exact absurd hfirst (by simp)
  | ok u =>
  dsimp only at hfirst hlp
  obtain ⟨w1, w2, w2R, w3, w4⟩ := hlp
  cases hpp : putParentContext r S1 b with
  | error e => rw [hpp] at hfirst; exact absurd hfirst (by simp)
  | ok S2 =>
  rw [hpp] at hfirst
  have hS2 : S2 = s2 := by
    simp only [Prod.mk.injEq] at hfirst
    exact hfirst.2
  subst hS2
  unfold putParentContext at hpp
  cases hlb : lookupPipelineRunContext S1 b with
  | error e => rw [hlb] at hpp; simp [Bind.bind, Except.bind] at hpp
  | ok cb1 =>
  rw [hlb] at hpp
  simp only [Bind.bind, Except.bind, Except.ok.injEq] at hpp
  have hEvS1S2 : Ev b r.newRunId S1 S2 := by
    rw [← hpp]
    exact ev_trans w1 (ensure_ev b S1 r.newRunId)
      (putParentIfNot_ev b r.newRunId _ _ _)
  have hWFS2 : StoreWF S2 := by
    rw [← hpp]
    exact putParentIfNot_wf (ensure_wf w1 r.newRunId) _ _
  have hEvS2 : Ev b r.newRunId s S2 := ev_trans hWFS w2 hEvS1S2
  rw [recyclerInit_ev hEvS2 hinit]
  dsimp only
  have hloop2 : reusePipelineRunArtifactsLoop r nodes b S2 = (.ok (), S2) := by
    apply loop_noop r hne2 hWFS hH2 hEvS2 nodes
    intro n hn
    obtain ⟨execsS, hok⟩ := w4 n hn
    refine ⟨execsS, hok, ?_⟩
    intro E hE
    obtain ⟨cbv, hlookb2, hfacts⟩ := getSuccess_ok_facts hok
    have hEid : E.id < S1.nextExecutionId :=
      lt_of_lt_of_le (hWFS.2.1 E (hfacts E hE).1) w2.nextExecLe
    exact processedE_stable w1 hEvS1S2 hEid (w3 n hn execsS hok E hE)
  rw [hloop2]
  dsimp only
  have hlb2 : lookupPipelineRunContext S2 b = .ok cb1 := by
    unfold lookupPipelineRunContext at hlb ⊢
    rw [ev_lookup_stable hEvS1S2 (Or.inr hne2)]
    exact hlb
  have hctxS2 : S2.contexts
      = (ensurePipelineRunContext S1 r.newRunId).2.contexts := by
    rw [← hpp, putParentIfNot_contexts]
  have hlookS2 : getContextByTypeAndName S2 pipelineRunContextTypeId r.newRunId
      = some (ensurePipelineRunContext S1 r.newRunId).1 := by
    unfold getContextByTypeAndName
    rw [hctxS2]
    exact ensure_lookup S1 r.newRunId
  have hensS2 : ensurePipelineRunContext S2 r.newRunId
      = ((ensurePipelineRunContext S1 r.newRunId).1, S2) := by
    unfold ensurePipelineRunContext registerContextIfNotExists
    rw [hlookS2]
    rfl
  have hparent : (cb1.id, (ensurePipelineRunContext S1 r.newRunId).1.id)
      ∈ S2.parentContexts := by
    rw [← hpp]
    exact putParentIfNot_mem _ _ _
  have hpp2 : putParentContext r S2 b = .ok S2 := by
    unfold putParentContext
    rw [hlb2]
    simp only [Bind.bind, Except.bind]
    rw [hensS2]
    dsimp only
    rw [putParentIfNot_of_mem hparent]
  rw [hpp2]

/-- C10: if some node in `nodes_to_reuse` has no successful execution for
the (pipeline, node, base-run) context triple in the metadata store,
`reuse_pipeline_run_artifacts` returns the propagated `LookupError` rather
than silently skipping the node, and the parent-context edge from the base
run to the new run is not put (the parent-context list is unchanged).
Hypotheses: well-formed store, no execution associated with both run
contexts, and distinct base and validated new run ids. -/
theorem c10_missing_executions_raise (s : Store) (p : Pr.Pipeline)
    (b : String) (newRunId : Option String) (vnew : String)
    (hv : getValidatedNewRunId p newRunId = .ok vnew)
    {nodes : List String} (hnodes : computeNodesToReuse p = .ok nodes)
    {r : Recycler} (hinit : recyclerInit s p.pipelineInfoId vnew = .ok r)
    (hWFS : StoreWF s) (hH : NoSharedRunAssoc s b vnew) (hne : b ≠ vnew)
    (hmiss : ∃ n ∈ nodes, ∃ e, getSuccessfulExecutions r s n b = .error e) :
    ∃ msg s2, reusePipelineRunArtifacts s p (some b) newRunId
      = (.error (.lookupError msg), s2) ∧
      s2.parentContexts = s.parentContexts := by
  obtain ⟨hrn, -⟩ := recyclerInit_newRunId hinit
  have hne2 : b ≠ r.newRunId := by rw [hrn]; exact hne
  have hH2 : NoSharedRunAssoc s b r.newRunId := by rw [hrn]; exact hH
  unfold reusePipelineRunArtifacts
  rw [hv]
  dsimp only
  rw [hnodes]
  dsimp only
  rw [hinit]
  dsimp only
  have hlp := loop_post r hne2 hWFS hH2 nodes hWFS (ev_refl b r.newRunId s)
  have hpar := loop_parent r b nodes s
  cases hloop : reusePipelineRunArtifactsLoop r nodes b s with
  | mk res S1 =>
  rw [hloop] at hlp hpar
  cases res with
  | ok u =>
      exfalso
      dsimp only at hlp
      obtain ⟨-, -, -, -, w4⟩ := hlp
      obtain ⟨n, hn, e, herr⟩ := hmiss
      obtain ⟨execsS, hok⟩ := w4 n hn
      rw [herr] at hok
      exact absurd hok (by simp)
  | error e =>
      dsimp only at hlp hpar ⊢
      obtain ⟨⟨msg, hmsg⟩, -, -⟩ := hlp
      subst hmsg
      exact ⟨msg, S1, rfl, hpar⟩

end Md

namespace Md

/-- C8 witness: on the concrete one-node pipeline and store, the first
`reuse_pipeline_run_artifacts` call succeeds, and the second call returns
the resulting store unchanged. -/
theorem c8_reuse_idempotent_witness :
    reusePipelineRunArtifacts
      (reusePipelineRunArtifacts sampleReuseStore sampleReusePipeline
        (some "base") (some "new")).2
      sampleReusePipeline (some "base") (some "new")
      = (.ok (), (reusePipelineRunArtifacts sampleReuseStore
          sampleReusePipeline (some "base") (some "new")).2) :=
  c8_reuse_idempotent sampleReuseStore sampleReusePipeline "base" (some "new")
    "new" rfl (by unfold StoreWF; decide) (by unfold NoSharedRunAssoc; decide)
    (by decide) rfl

/-- C10 witness: on the concrete one-node pipeline and the store with no
executions, `reuse_pipeline_run_artifacts` returns a `LookupError` and
leaves the parent-context list unchanged. -/
theorem c10_missing_executions_raise_witness :
    ∃ msg s2, reusePipelineRunArtifacts sampleEmptyReuseStore
      sampleReusePipeline (some "base") (some "new")
      = (.error (.lookupError msg), s2) ∧
      s2.parentContexts = sampleEmptyReuseStore.parentContexts :=
  c10_missing_executions_raise sampleEmptyReuseStore sampleReusePipeline
    "base" (some "new") "new" rfl rfl rfl
    (by unfold StoreWF; decide) (by unfold NoSharedRunAssoc; decide)
    (by decide) ⟨"a", by decide, ⟨_, rfl⟩⟩

end Md
